import Mathlib

/-!
Verification of the lexx tokenizer library (Rust) against its specification.

The development shallowly embeds the components of the library that the
verified properties are about:

* `RollingCharBuffer` — the fixed-capacity ring buffer of characters
  (src/rolling_char_buffer.rs), embedded with its concrete representation
  (start index, end index, full flag, backing store).
* `Token` (src/token.rs).
* `MatcherS` — the states of the seven standard matchers
  (src/matcher/word.rs, whitespace.rs, symbol.rs, integer.rs, float.rs,
  exact.rs, keyword.rs) with `findMatch` translating each matcher's
  `find_match` method.
* `EngineCore` / `Lexxor` — the tokenization engine (src/lib.rs):
  `get_token`, `next_token`, `look_ahead`, `rewind`.

Modelling conventions:
* Rust `char` is Lean `Char`; Rust `String` values are `List Char` so that
  character counts and concatenation are primitive.
* `usize`, `u16`, `u8` are `Nat` (no arithmetic in the embedded code can
  overflow 64/16/8 bits on the inputs the theorems quantify over, and no
  wrapping arithmetic is performed by the source).
* Rust panics (ArrayVec overflow, cache overflow at commit) are modelled as
  the distinguished result `GetTokenResult.panicked`.
* The engine stores its replay cache in a `RollingCharBuffer`; the embedded
  engine carries the buffer's logical contents (a `List Char`) together with
  the exact capacity guards of the buffer operations it calls. The theorems
  `RollingCharBuffer.read_toList`, `RollingCharBuffer.prepend_toList` and
  `RollingCharBuffer.readAll_eq_toList` prove that the concrete buffer
  implements exactly this logical behaviour.
-/

set_option autoImplicit false
set_option maxHeartbeats 1000000

deriving instance DecidableEq for Except

namespace Lexx

/-- Models char::is_whitespace from the Rust standard library: the Unicode
White_Space property, whose code points are enumerated here in full. -/
def rustIsWhitespace (c : Char) : Bool :=
  let n := c.toNat
  (9 ≤ n && n ≤ 13) || n == 32 || n == 133 || n == 160 || n == 5760 ||
    (8192 ≤ n && n ≤ 8202) || n == 8232 || n == 8233 || n == 8239 ||
    n == 8287 || n == 12288

/-- Models char::is_alphabetic from the Rust standard library (Unicode
Alphabetic). The full Unicode table lives outside this repository; the model
is exact on the ASCII range, which covers every character the theorems below
evaluate it on, and the engine-level theorems do not depend on which
characters the predicate accepts. -/
def rustIsAlphabetic (c : Char) : Bool :=
  let n := c.toNat
  (65 ≤ n && n ≤ 90) || (97 ≤ n && n ≤ 122)

/-- Models char::is_numeric from the Rust standard library (Unicode numeric
categories); exact on the ASCII range, see `rustIsAlphabetic`. -/
def rustIsNumeric (c : Char) : Bool :=
  let n := c.toNat
  48 ≤ n && n ≤ 57

/-- Models char::is_alphanumeric, which Rust defines as
is_alphabetic or is_numeric. -/
def rustIsAlphanumeric (c : Char) : Bool :=
  rustIsAlphabetic c || rustIsNumeric c

/-- The token record (src/token.rs, struct Token). `value` is the matched
character sequence (Rust String, modelled as the list of its chars). -/
structure Token where
  value : List Char
  token_type : Nat
  len : Nat
  line : Nat
  column : Nat
  precedence : Nat
deriving Repr, DecidableEq

/-- Reserved token type constants (src/token.rs). -/
def TOKEN_TYPE_INTEGER : Nat := 1

/-- Token type Float. -/
def TOKEN_TYPE_FLOAT : Nat := 2

/-- Token type Whitespace. -/
def TOKEN_TYPE_WHITESPACE : Nat := 3

/-- Token type Word. -/
def TOKEN_TYPE_WORD : Nat := 4

/-- Token type Symbol. -/
def TOKEN_TYPE_SYMBOL : Nat := 5

/-- Token type Exact. -/
def TOKEN_TYPE_EXACT : Nat := 6

/-- Token type Keyword. -/
def TOKEN_TYPE_KEYWORD : Nat := 7

/-- Errors of the rolling character buffer
(src/rolling_char_buffer.rs, enum RollingCharBufferError). -/
inductive RollingCharBufferError where
  | BufferFullError
  | BufferEmptyError
deriving Repr, DecidableEq

/-- The fixed-size ring buffer of chars
(src/rolling_char_buffer.rs, struct RollingCharBuffer). `endi` is the
source's `end` field (`end` is a Lean keyword). The backing array
`[char; CAP]` is a list whose length is `cap` in every well-formed state. -/
structure RollingCharBuffer where
  full : Bool
  cap : Nat
  start : Nat
  endi : Nat
  buffer : List Char
deriving Repr, DecidableEq

namespace RollingCharBuffer

/-- RollingCharBuffer::new. -/
def new (CAP : Nat) : RollingCharBuffer :=
  { full := false, cap := CAP, start := CAP - 1, endi := CAP - 1,
    buffer := List.replicate CAP 'x' }

/-- RollingCharBuffer::len. -/
def len (b : RollingCharBuffer) : Nat :=
  if b.full then b.cap
  else if b.start ≤ b.endi then b.endi - b.start
  else b.cap - (b.start - b.endi)

/-- RollingCharBuffer::is_empty. -/
def is_empty (b : RollingCharBuffer) : Bool :=
  b.start == b.endi && !b.full

/-- RollingCharBuffer::is_full. -/
def is_full (b : RollingCharBuffer) : Bool :=
  b.full

/-- RollingCharBuffer::clear. -/
def clear (b : RollingCharBuffer) : RollingCharBuffer :=
  { b with full := false, start := b.endi }

/-- RollingCharBuffer::push — append at the end; fails if full. -/
def push (b : RollingCharBuffer) (c : Char) :
    Except RollingCharBufferError RollingCharBuffer :=
  if b.full then .error .BufferFullError
  else
    let e1 := (b.endi + 1) % b.cap
    .ok { b with buffer := b.buffer.set b.endi c, endi := e1,
                 full := decide (e1 = b.start) }

/-- RollingCharBuffer::read — remove from the front; fails if empty. -/
def read (b : RollingCharBuffer) :
    Except RollingCharBufferError (Char × RollingCharBuffer) :=
  if b.is_empty then .error .BufferEmptyError
  else
    .ok (b.buffer.getD b.start 'x',
      { b with start := (b.start + 1) % b.cap, full := false })

/-- RollingCharBuffer::pop — remove from the end; fails if empty. -/
def pop (b : RollingCharBuffer) :
    Except RollingCharBufferError (Char × RollingCharBuffer) :=
  if b.is_empty then .error .BufferEmptyError
  else
    let e1 := if b.endi = 0 then b.cap - 1 else b.endi - 1
    .ok (b.buffer.getD e1 'x', { b with endi := e1, full := false })

/-- RollingCharBuffer::prefix — prepend a single char at the front; fails if
full. (The source name `prefix` is a reserved token in this environment.) -/
def pushFront (b : RollingCharBuffer) (c : Char) :
    Except RollingCharBufferError RollingCharBuffer :=
  if b.full then .error .BufferFullError
  else
    let s1 := if b.start = 0 then b.cap - 1 else b.start - 1
    .ok { b with start := s1, buffer := b.buffer.set s1 c,
                 full := decide (b.endi = s1) }

/-- The `for` loop of RollingCharBuffer::extend: push each char, stopping at
the first error (which the guard in `extend` makes unreachable). -/
def pushAll : RollingCharBuffer → List Char →
    Except RollingCharBufferError Unit × RollingCharBuffer
  | b, [] => (.ok (), b)
  | b, c :: cs =>
    match b.push c with
    | .error e => (.error e, b)
    | .ok b1 => b1.pushAll cs

/-- RollingCharBuffer::extend — append a sequence at the end; checks the
whole sequence fits before mutating, and returns the remaining capacity. -/
def extend (b : RollingCharBuffer) (cs : List Char) :
    Except RollingCharBufferError Nat × RollingCharBuffer :=
  let free := b.cap - b.len
  if b.full || decide (cs.length > free) then (.error .BufferFullError, b)
  else
    match b.pushAll cs with
    | (.error e, b1) => (.error e, b1)
    | (.ok _, b1) => (.ok (b1.cap - b1.len), b1)

/-- The `for` loop of RollingCharBuffer::prepend: `prefix` each char of the
already-reversed sequence, stopping at the first error. -/
def frontAll : RollingCharBuffer → List Char →
    Except RollingCharBufferError Unit × RollingCharBuffer
  | b, [] => (.ok (), b)
  | b, c :: cs =>
    match b.pushFront c with
    | .error e => (.error e, b)
    | .ok b1 => b1.frontAll cs

/-- RollingCharBuffer::prepend — prepend a sequence at the front in original
order (the source iterates the sequence reversed, prefixing each char). -/
def prepend (b : RollingCharBuffer) (cs : List Char) :
    Except RollingCharBufferError Nat × RollingCharBuffer :=
  let free := b.cap - b.len
  if b.full || decide (cs.length > free) then (.error .BufferFullError, b)
  else
    match b.frontAll cs.reverse with
    | (.error e, b1) => (.error e, b1)
    | (.ok _, b1) => (.ok (b1.cap - b1.len), b1)

/-- Well-formedness of a buffer state: the indexes are in range, the backing
store has the fixed capacity, the capacity is positive (a zero-capacity
buffer makes the source's `% self.cap` panic), and the full flag implies the
indexes coincide. Every state reachable from `new` satisfies this. -/
def WF (b : RollingCharBuffer) : Prop :=
  0 < b.cap ∧ b.start < b.cap ∧ b.endi < b.cap ∧
    b.buffer.length = b.cap ∧ (b.full = true → b.start = b.endi)

instance (b : RollingCharBuffer) : Decidable b.WF := by
  unfold WF; infer_instance

/-- The logical contents of the buffer, front to back. -/
def toList (b : RollingCharBuffer) : List Char :=
  if b.full then b.buffer.drop b.start ++ b.buffer.take b.endi
  else if b.start ≤ b.endi then (b.buffer.take b.endi).drop b.start
  else b.buffer.drop b.start ++ b.buffer.take b.endi

/-- Read the whole buffer from the front, n reads at most. -/
def readAllAux : Nat → RollingCharBuffer → List Char
  | 0, _ => []
  | n + 1, b =>
    match b.read with
    | .error _ => []
    | .ok (c, b1) => c :: readAllAux n b1

/-- Read the whole buffer from the front by repeated `read`. -/
def readAll (b : RollingCharBuffer) : List Char :=
  readAllAux b.len b

theorem take_set_le {α : Type} {l : List α} {m n : Nat} (h : m ≤ n) (a : α) :
    (l.set n a).take m = l.take m := by
  apply List.ext_getElem?
  intro i
  rw [List.getElem?_take, List.getElem?_take]
  split
  · exact List.getElem?_set_ne (by omega)
  · rfl

theorem drop_set_self {α : Type} {l : List α} {n : Nat} (h : n < l.length)
    (a : α) : (l.set n a).drop n = a :: l.drop (n + 1) := by
  rw [List.set_eq_take_cons_drop a h]
  rw [List.drop_append_of_le_length
    (by rw [List.length_take_of_le (Nat.le_of_lt h)])]
  rw [List.drop_of_length_le (by rw [List.length_take_of_le (Nat.le_of_lt h)])]
  rfl

theorem take_set_succ {α : Type} {l : List α} {n : Nat} (h : n < l.length)
    (a : α) : (l.set n a).take (n + 1) = l.take n ++ [a] := by
  rw [List.set_eq_take_cons_drop a h]
  have hlt : (l.take n).length = n := List.length_take_of_le (Nat.le_of_lt h)
  calc (l.take n ++ a :: l.drop (n + 1)).take (n + 1)
      = (l.take n ++ a :: l.drop (n + 1)).take ((l.take n).length + 1) := by
        rw [hlt]
    _ = l.take n ++ (a :: l.drop (n + 1)).take 1 := List.take_append 1
    _ = l.take n ++ [a] := by simp

theorem len_le_cap (b : RollingCharBuffer) (h : b.WF) : b.len ≤ b.cap := by
  obtain ⟨hcap, hs, he, hlen, hfl⟩ := h
  unfold len
  split
  · exact Nat.le_refl _
  · split <;> omega

theorem length_toList (b : RollingCharBuffer) (h : b.WF) :
    b.toList.length = b.len := by
  obtain ⟨hcap, hs, he, hlen, hfl⟩ := h
  unfold toList len
  by_cases hf : b.full = true
  · have hse := hfl hf
    simp only [hf, if_true, List.length_append, List.length_drop,
      List.length_take, hlen]
    omega
  · rw [if_neg hf, if_neg hf]
    by_cases hse : b.start ≤ b.endi
    · rw [if_pos hse, if_pos hse]
      simp only [List.length_drop, List.length_take, hlen]
      omega
    · rw [if_neg hse, if_neg hse]
      simp only [List.length_append, List.length_drop, List.length_take, hlen]
      omega

theorem is_empty_len (b : RollingCharBuffer) (h : b.is_empty = true) :
    b.len = 0 := by
  unfold is_empty at h
  simp only [Bool.and_eq_true, beq_iff_eq, Bool.not_eq_true'] at h
  unfold len
  rw [h.2, if_neg (by simp), h.1, if_pos (Nat.le_refl _)]
  omega

theorem toList_of_full (b : RollingCharBuffer) (h : b.full = true) :
    b.toList = b.buffer.drop b.start ++ b.buffer.take b.endi := by
  unfold toList
  rw [if_pos h]

theorem toList_of_le (b : RollingCharBuffer) (h : b.full = false)
    (h2 : b.start ≤ b.endi) :
    b.toList = (b.buffer.take b.endi).drop b.start := by
  unfold toList
  rw [if_neg (by simp [h]), if_pos h2]

theorem toList_of_gt (b : RollingCharBuffer) (h : b.full = false)
    (h2 : ¬ b.start ≤ b.endi) :
    b.toList = b.buffer.drop b.start ++ b.buffer.take b.endi := by
  unfold toList
  rw [if_neg (by simp [h]), if_neg h2]

/-- The concrete `read` implements removal of the head of the logical
contents. -/
theorem read_toList (b : RollingCharBuffer) (hwf : b.WF) (c : Char)
    (b1 : RollingCharBuffer) (h : b.read = .ok (c, b1)) :
    b1.WF ∧ b.toList = c :: b1.toList := by
  obtain ⟨hcap, hs, he, hlen, hfl⟩ := hwf
  unfold read at h
  by_cases hemp : b.is_empty = true
  · rw [if_pos hemp] at h; cases h
  · rw [if_neg hemp] at h
    cases h
    have hslt : b.start < b.buffer.length := by omega
    have hgd : b.buffer.getD b.start 'x' = b.buffer[b.start] := by
      simp [List.getD_eq_getElem?_getD, List.getElem?_eq_getElem hslt]
    have hne : ¬(b.start = b.endi ∧ b.full = false) := by
      intro hand
      apply hemp
      unfold is_empty
      simp [hand.1, hand.2]
    constructor
    · exact ⟨hcap, Nat.mod_lt _ hcap, he, hlen, by simp⟩
    rw [hgd]
    by_cases hf : b.full = true
    · have hse := hfl hf
      rw [toList_of_full b hf]
      by_cases hwrap : b.start + 1 = b.cap
      · have hm : (b.start + 1) % b.cap = 0 := by rw [hwrap, Nat.mod_self]
        rw [toList_of_le _ rfl (by simpa [hm] using Nat.zero_le _)]
        dsimp only
        rw [hm, List.drop_zero]
        rw [List.drop_eq_getElem_cons hslt,
          List.drop_of_length_le (by omega)]
        rfl
      · have hm : (b.start + 1) % b.cap = b.start + 1 :=
          Nat.mod_eq_of_lt (by omega)
        rw [toList_of_gt _ rfl (by dsimp only; omega)]
        dsimp only
        rw [hm, List.drop_eq_getElem_cons hslt]
        rfl
    · have hf0 : b.full = false := by simpa using hf
      have hsne : b.start ≠ b.endi := fun hcon => hne ⟨hcon, hf0⟩
      by_cases hse : b.start ≤ b.endi
      · have hlt : b.start < b.endi := Nat.lt_of_le_of_ne hse hsne
        have hm : (b.start + 1) % b.cap = b.start + 1 :=
          Nat.mod_eq_of_lt (by omega)
        rw [toList_of_le b hf0 hse,
          toList_of_le _ rfl (by dsimp only; omega)]
        dsimp only
        rw [hm]
        rw [List.drop_eq_getElem_cons
          (show b.start < (b.buffer.take b.endi).length by
            rw [List.length_take_of_le (by omega)]; omega)]
        congr 1
        exact List.getElem_take _
      · rw [toList_of_gt b hf0 hse]
        by_cases hwrap : b.start + 1 = b.cap
        · have hm : (b.start + 1) % b.cap = 0 := by rw [hwrap, Nat.mod_self]
          rw [toList_of_le _ rfl (by simpa [hm] using Nat.zero_le _)]
          dsimp only
          rw [hm, List.drop_zero]
          rw [List.drop_eq_getElem_cons hslt,
            List.drop_of_length_le (by omega)]
          rfl
        · have hm : (b.start + 1) % b.cap = b.start + 1 :=
            Nat.mod_eq_of_lt (by omega)
          rw [toList_of_gt _ rfl (by dsimp only; omega)]
          dsimp only
          rw [hm, List.drop_eq_getElem_cons hslt]
          rfl

/-- The concrete `prefix` (`pushFront`) implements consing onto the logical
contents. -/
theorem pushFront_toList (b : RollingCharBuffer) (hwf : b.WF) (c : Char)
    (b1 : RollingCharBuffer) (h : b.pushFront c = .ok b1) :
    b1.WF ∧ b1.toList = c :: b.toList := by
  obtain ⟨hcap, hs, he, hlen, hfl⟩ := hwf
  unfold pushFront at h
  by_cases hf : b.full = true
  · rw [if_pos hf] at h; cases h
  · rw [if_neg hf] at h
    cases h
    have hf0 : b.full = false := by simpa using hf
    by_cases hz : b.start = 0
    · rw [if_pos hz] at *
      constructor
      · refine ⟨hcap, by dsimp only; omega, he, by simp [hlen], ?_⟩
        intro hfull
        simp only [decide_eq_true_eq] at hfull
        simp [hfull]
      have hob : b.toList = b.buffer.take b.endi := by
        rw [toList_of_le b hf0 (by omega), hz, List.drop_zero]
      by_cases hfe : b.endi = b.cap - 1
      · rw [toList_of_full _ (by dsimp only; simp [hfe])]
        dsimp only
        rw [drop_set_self (by omega) c,
          List.drop_of_length_le (by simp [hlen]; omega),
          take_set_le (by omega) c, hob, hfe]
        rfl
      · rw [toList_of_gt _ (by dsimp only; simp [hfe])
          (by dsimp only; omega)]
        dsimp only
        rw [drop_set_self (by omega) c,
          List.drop_of_length_le (by simp [hlen]; omega),
          take_set_le (by omega) c, hob]
        rfl
    · rw [if_neg hz] at *
      constructor
      · refine ⟨hcap, by dsimp only; omega, he, by simp [hlen], ?_⟩
        intro hfull
        simp only [decide_eq_true_eq] at hfull
        simp [hfull]
      by_cases hfe : b.endi = b.start - 1
      · -- buffer becomes full; previously endi = start - 1 < start
        rw [toList_of_full _ (by dsimp only; simp [hfe]),
          toList_of_gt b hf0 (by omega)]
        dsimp only
        rw [drop_set_self (by omega) c,
          (show b.start - 1 + 1 = b.start by omega),
          take_set_le (by omega) c, hfe]
        rfl
      · by_cases hse : b.start ≤ b.endi
        · rw [toList_of_le _ (by dsimp only; simp [hfe]) (by dsimp only; omega),
            toList_of_le b hf0 hse]
          dsimp only
          rw [List.set_take]
          rw [drop_set_self (by rw [List.length_take_of_le (by omega)]; omega) c,
            (show b.start - 1 + 1 = b.start by omega)]
        · rw [toList_of_gt _ (by dsimp only; simp [hfe]) (by dsimp only; omega),
            toList_of_gt b hf0 hse]
          dsimp only
          rw [drop_set_self (by omega) c,
            (show b.start - 1 + 1 = b.start by omega),
            take_set_le (by omega) c]
          rfl

/-- The concrete `push` implements appending to the logical contents. -/
theorem push_toList (b : RollingCharBuffer) (hwf : b.WF) (c : Char)
    (b1 : RollingCharBuffer) (h : b.push c = .ok b1) :
    b1.WF ∧ b1.toList = b.toList ++ [c] := by
  obtain ⟨hcap, hs, he, hlen, hfl⟩ := hwf
  unfold push at h
  by_cases hf : b.full = true
  · rw [if_pos hf] at h; cases h
  · rw [if_neg hf] at h
    cases h
    have hf0 : b.full = false := by simpa using hf
    have helt : b.endi < b.buffer.length := by omega
    have hsetfull : b.buffer.set b.endi c =
        b.buffer.take b.endi ++ [c] ∨ b.endi + 1 < b.cap := by
      by_cases hwrap : b.endi + 1 = b.cap
      · left
        rw [List.set_eq_take_cons_drop c helt,
          List.drop_of_length_le (by omega)]
      · right; omega
    constructor
    · refine ⟨hcap, hs, Nat.mod_lt _ hcap, by simp [hlen], ?_⟩
      intro hfull
      simp only [decide_eq_true_eq] at hfull
      simp [hfull]
    by_cases hwrap : b.endi + 1 = b.cap
    · have hm : (b.endi + 1) % b.cap = 0 := by rw [hwrap, Nat.mod_self]
      have hsf : b.buffer.set b.endi c = b.buffer.take b.endi ++ [c] := by
        rw [List.set_eq_take_cons_drop c helt,
          List.drop_of_length_le (by omega)]
      by_cases hfe : b.start = 0
      · rw [toList_of_full _ (by dsimp only; rw [hm]; simp [hfe]),
          toList_of_le b hf0 (by omega)]
        dsimp only
        rw [hm, List.take_zero, List.append_nil, hfe, List.drop_zero,
          List.drop_zero, hsf]
      · rw [toList_of_gt _ (by dsimp only; simp only [hm]; simp [hfe]; omega)
          (by dsimp only; simp only [hm]; omega),
          toList_of_le b hf0 (by omega)]
        dsimp only
        rw [hm, List.take_zero, List.append_nil, hsf,
          List.drop_append_of_le_length
            (by rw [List.length_take_of_le (by omega)]; omega)]
    · have hm : (b.endi + 1) % b.cap = b.endi + 1 :=
        Nat.mod_eq_of_lt (by omega)
      have hts : (b.buffer.set b.endi c).take (b.endi + 1) =
          b.buffer.take b.endi ++ [c] := take_set_succ helt c
      by_cases hfe : b.endi + 1 = b.start
      · rw [toList_of_full _ (by dsimp only; rw [hm]; simp [hfe]),
          toList_of_gt b hf0 (by omega)]
        dsimp only
        rw [hm, List.drop_set_of_lt _ _ (by omega : b.endi < b.start), hts,
          List.append_assoc]
      · by_cases hse : b.start ≤ b.endi
        · rw [toList_of_le _ (by dsimp only; rw [hm]; simp [hfe])
            (by dsimp only; simp only [hm]; omega),
            toList_of_le b hf0 hse]
          dsimp only
          rw [hm, hts, List.drop_append_of_le_length
            (by rw [List.length_take_of_le (by omega)]; omega)]
        · rw [toList_of_gt _ (by dsimp only; rw [hm]; simp [hfe])
            (by dsimp only; simp only [hm]; omega),
            toList_of_gt b hf0 hse]
          dsimp only
          rw [hm, List.drop_set_of_lt _ _ (by omega : b.endi < b.start), hts,
            List.append_assoc]

theorem pushFront_cap (b : RollingCharBuffer) (c : Char)
    (b1 : RollingCharBuffer) (h : b.pushFront c = .ok b1) : b1.cap = b.cap := by
  unfold pushFront at h
  by_cases hf : b.full = true
  · rw [if_pos hf] at h; cases h
  · rw [if_neg hf] at h; cases h; rfl

theorem push_cap (b : RollingCharBuffer) (c : Char)
    (b1 : RollingCharBuffer) (h : b.push c = .ok b1) : b1.cap = b.cap := by
  unfold push at h
  by_cases hf : b.full = true
  · rw [if_pos hf] at h; cases h
  · rw [if_neg hf] at h; cases h; rfl

theorem len_lt_cap_of_not_full (b : RollingCharBuffer) (hwf : b.WF)
    (h : b.full = false) : b.len < b.cap := by
  obtain ⟨hcap, hs, he, hlen, hfl⟩ := hwf
  unfold len
  rw [h, if_neg (by simp)]
  split <;> omega

/-- Iterated `prefix` over the (already reversed) sequence succeeds when the
sequence fits, and conses its reverse onto the logical contents. -/
theorem frontAll_toList (ds : List Char) : ∀ (b : RollingCharBuffer), b.WF →
    b.len + ds.length ≤ b.cap →
    ∃ b1, b.frontAll ds = (.ok (), b1) ∧ b1.WF ∧
      b1.toList = ds.reverse ++ b.toList ∧ b1.len = b.len + ds.length ∧
      b1.cap = b.cap := by
  induction ds with
  | nil =>
    intro b hwf hroom
    exact ⟨b, rfl, hwf, by simp, by simp, rfl⟩
  | cons d ds1 ih =>
    intro b hwf hroom
    have hnf : b.full = false := by
      cases hfb : b.full
      · rfl
      · exfalso
        have hbc : b.len = b.cap := by unfold len; rw [hfb]; simp
        simp only [List.length_cons] at hroom
        omega
    have hex : ∃ b2, b.pushFront d = .ok b2 := by
      unfold pushFront
      rw [if_neg (by simp [hnf])]
      exact ⟨_, rfl⟩
    obtain ⟨b2, hb2⟩ := hex
    obtain ⟨hwf2, htl2⟩ := pushFront_toList b hwf d b2 hb2
    have hcap2 : b2.cap = b.cap := pushFront_cap b d b2 hb2
    have hlen2 : b2.len = b.len + 1 := by
      have h1 := length_toList b2 hwf2
      have h2 := length_toList b hwf
      rw [htl2] at h1
      simp only [List.length_cons] at h1
      omega
    have hroom2 : b2.len + ds1.length ≤ b2.cap := by
      simp only [List.length_cons] at hroom
      omega
    obtain ⟨b3, hfa, hwf3, htl3, hlen3, hcap3⟩ := ih b2 hwf2 hroom2
    refine ⟨b3, ?_, hwf3, ?_, ?_, by omega⟩
    · simp only [frontAll]
      rw [hb2]
      exact hfa
    · rw [htl3, htl2]
      simp
    · simp only [List.length_cons]
      omega

/-- Iterated `push` over the sequence succeeds when the sequence fits, and
appends it to the logical contents. -/
theorem pushAll_toList (cs : List Char) : ∀ (b : RollingCharBuffer), b.WF →
    b.len + cs.length ≤ b.cap →
    ∃ b1, b.pushAll cs = (.ok (), b1) ∧ b1.WF ∧
      b1.toList = b.toList ++ cs ∧ b1.len = b.len + cs.length ∧
      b1.cap = b.cap := by
  induction cs with
  | nil =>
    intro b hwf hroom
    exact ⟨b, rfl, hwf, by simp, by simp, rfl⟩
  | cons d ds1 ih =>
    intro b hwf hroom
    have hnf : b.full = false := by
      cases hfb : b.full
      · rfl
      · exfalso
        have hbc : b.len = b.cap := by unfold len; rw [hfb]; simp
        simp only [List.length_cons] at hroom
        omega
    have hex : ∃ b2, b.push d = .ok b2 := by
      unfold push
      rw [if_neg (by simp [hnf])]
      exact ⟨_, rfl⟩
    obtain ⟨b2, hb2⟩ := hex
    obtain ⟨hwf2, htl2⟩ := push_toList b hwf d b2 hb2
    have hcap2 : b2.cap = b.cap := push_cap b d b2 hb2
    have hlen2 : b2.len = b.len + 1 := by
      have h1 := length_toList b2 hwf2
      have h2 := length_toList b hwf
      rw [htl2] at h1
      simp only [List.length_append, List.length_cons, List.length_nil] at h1
      omega
    have hroom2 : b2.len + ds1.length ≤ b2.cap := by
      simp only [List.length_cons] at hroom
      omega
    obtain ⟨b3, hfa, hwf3, htl3, hlen3, hcap3⟩ := ih b2 hwf2 hroom2
    refine ⟨b3, ?_, hwf3, ?_, ?_, by omega⟩
    · simp only [pushAll]
      rw [hb2]
      exact hfa
    · rw [htl3, htl2]
      simp
    · simp only [List.length_cons]
      omega

/-- The concrete `prepend` implements list concatenation at the front. -/
theorem prepend_toList (b : RollingCharBuffer) (hwf : b.WF) (cs : List Char)
    (k : Nat) (b1 : RollingCharBuffer) (h : b.prepend cs = (.ok k, b1)) :
    b1.WF ∧ b1.toList = cs ++ b.toList ∧ b1.len = b.len + cs.length ∧
      b1.cap = b.cap := by
  unfold prepend at h
  by_cases hg : (b.full || decide (cs.length > b.cap - b.len)) = true
  · rw [if_pos hg] at h; cases h
  · rw [if_neg hg] at h
    simp only [Bool.or_eq_true, decide_eq_true_eq, not_or, Nat.not_lt] at hg
    have hnf : b.full = false := by
      cases hfb : b.full
      · rfl
      · exact absurd hfb hg.1
    have hroom : b.len + cs.reverse.length ≤ b.cap := by
      have := len_lt_cap_of_not_full b hwf hnf
      simp only [List.length_reverse]
      omega
    obtain ⟨b2, hfa, hwf2, htl, hlen, hcap⟩ := frontAll_toList cs.reverse b hwf hroom
    rw [hfa] at h
    cases h
    refine ⟨hwf2, ?_, ?_, hcap⟩
    · rw [htl, List.reverse_reverse]
    · rw [hlen, List.length_reverse]

theorem readAllAux_eq_toList : ∀ (n : Nat) (b : RollingCharBuffer), b.WF →
    b.len ≤ n → readAllAux n b = b.toList := by
  intro n
  induction n with
  | zero =>
    intro b hwf hle
    have h0 : b.toList.length = 0 := by rw [length_toList b hwf]; omega
    rw [List.length_eq_zero] at h0
    simp [readAllAux, h0]
  | succ n ih =>
    intro b hwf hle
    unfold readAllAux
    cases hemp : b.is_empty
    · have hok : b.read = .ok (b.buffer.getD b.start 'x',
          { b with start := (b.start + 1) % b.cap, full := false }) := by
        unfold read
        rw [if_neg (by simp [hemp])]
      obtain ⟨hwf1, htl⟩ := read_toList b hwf _ _ hok
      rw [hok]
      dsimp only
      rw [htl]
      congr 1
      apply ih _ hwf1
      have h1 := length_toList _ hwf1
      have h2 := length_toList b hwf
      rw [htl] at h2
      simp only [List.length_cons] at h2
      omega
    · have herr : b.read = .error .BufferEmptyError := by
        unfold read
        rw [if_pos hemp]
      have h0 : b.toList.length = 0 := by
        rw [length_toList b hwf, is_empty_len b hemp]
      rw [List.length_eq_zero] at h0
      rw [herr, h0]

/-- Reading the buffer front-to-back by repeated `read` yields exactly the
logical contents. -/
theorem readAll_eq_toList (b : RollingCharBuffer) (hwf : b.WF) :
    b.readAll = b.toList :=
  readAllAux_eq_toList b.len b hwf (Nat.le_refl _)

end RollingCharBuffer

/-- C7 counterexample: a full buffer (capacity 2, reached from `new 2` by two
pushes) rejects `extend []` and `prepend []` with BufferFullError although
`len + |X| = 2 + 0 ≤ CAP = 2`, so "succeeds iff len() + |X| ≤ CAP" is false;
the guard also tests the full flag. -/
theorem C7_counterexample :
    ∃ b : RollingCharBuffer,
      ((RollingCharBuffer.new 2).push 'a').bind (fun x => x.push 'b') =
        .ok b ∧
      b.WF ∧
      b.len + ([] : List Char).length ≤ b.cap ∧
      (b.extend []).1 = .error .BufferFullError ∧
      (b.prepend []).1 = .error .BufferFullError := by
  refine ⟨{ full := true, cap := 2, start := 1, endi := 1,
            buffer := ['b', 'a'] }, by rfl, by decide, by decide,
          by rfl, by rfl⟩

/-- C7 (amended): for every well-formed buffer state and sequence X,
`extend X` succeeds iff the buffer is not full and `len + |X| ≤ CAP` (for
nonempty X this is exactly `len + |X| ≤ CAP`; an empty X on a full buffer
also reports overflow), and likewise `prepend X`; on failure both return
BufferFullError and leave the buffer bit-identical to before the call. -/
theorem C7_extend_prepend_atomic (b : RollingCharBuffer) (cs : List Char)
    (hwf : b.WF) :
    ((∃ k b1, b.extend cs = (.ok k, b1)) ↔
      b.full = false ∧ b.len + cs.length ≤ b.cap) ∧
    ((∃ k b1, b.prepend cs = (.ok k, b1)) ↔
      b.full = false ∧ b.len + cs.length ≤ b.cap) ∧
    (∀ e b1, b.extend cs = (.error e, b1) →
      e = .BufferFullError ∧ b1 = b) ∧
    (∀ e b1, b.prepend cs = (.error e, b1) →
      e = .BufferFullError ∧ b1 = b) := by
  by_cases hg : (b.full || decide (cs.length > b.cap - b.len)) = true
  · have hrhs : ¬(b.full = false ∧ b.len + cs.length ≤ b.cap) := by
      rintro ⟨hnf, hle⟩
      rcases Bool.or_eq_true_iff.mp hg with hfu | hlen
      · rw [hnf] at hfu; cases hfu
      · have := RollingCharBuffer.len_lt_cap_of_not_full b hwf hnf
        simp only [decide_eq_true_eq] at hlen
        omega
    have hext : b.extend cs = (.error .BufferFullError, b) := by
      unfold RollingCharBuffer.extend
      rw [if_pos hg]
    have hpre : b.prepend cs = (.error .BufferFullError, b) := by
      unfold RollingCharBuffer.prepend
      rw [if_pos hg]
    refine ⟨?_, ?_, ?_, ?_⟩
    · constructor
      · rintro ⟨k, b1, hk⟩
        rw [hext] at hk
        cases hk
      · intro hc; exact absurd hc hrhs
    · constructor
      · rintro ⟨k, b1, hk⟩
        rw [hpre] at hk
        cases hk
      · intro hc; exact absurd hc hrhs
    · intro e b1 he
      rw [hext] at he
      cases he
      exact ⟨rfl, rfl⟩
    · intro e b1 he
      rw [hpre] at he
      cases he
      exact ⟨rfl, rfl⟩
  · have hg' := hg
    simp only [Bool.or_eq_true, decide_eq_true_eq, not_or, Nat.not_lt] at hg'
    have hnf : b.full = false := by
      cases hfb : b.full
      · rfl
      · exact absurd hfb hg'.1
    have hroom : b.len + cs.length ≤ b.cap := by
      have := RollingCharBuffer.len_lt_cap_of_not_full b hwf hnf
      omega
    obtain ⟨b2, hpa, _, _, _, _⟩ :=
      RollingCharBuffer.pushAll_toList cs b hwf hroom
    have hext : b.extend cs = (.ok (b2.cap - b2.len), b2) := by
      unfold RollingCharBuffer.extend
      rw [if_neg (by simp [hg]), hpa]
    have hroomr : b.len + cs.reverse.length ≤ b.cap := by
      rw [List.length_reverse]; exact hroom
    obtain ⟨b3, hfa, _, _, _, _⟩ :=
      RollingCharBuffer.frontAll_toList cs.reverse b hwf hroomr
    have hpre : b.prepend cs = (.ok (b3.cap - b3.len), b3) := by
      unfold RollingCharBuffer.prepend
      rw [if_neg (by simp [hg]), hfa]
    refine ⟨?_, ?_, ?_, ?_⟩
    · exact ⟨fun _ => ⟨hnf, hroom⟩, fun _ => ⟨_, _, hext⟩⟩
    · exact ⟨fun _ => ⟨hnf, hroom⟩, fun _ => ⟨_, _, hpre⟩⟩
    · intro e b1 he
      rw [hext] at he
      cases he
    · intro e b1 he
      rw [hpre] at he
      cases he

/-- A concrete well-formed buffer holding one char with capacity 3. -/
def bufC7 : RollingCharBuffer :=
  { full := false, cap := 3, start := 0, endi := 1, buffer := ['a', 'x', 'x'] }

/-- Witness for the amended C7 at a concrete input: a buffer holding one char
with capacity 3 accepts extend of a two-char sequence. -/
theorem C7_witness :
    bufC7.WF ∧
    ((∃ k b1, bufC7.extend ['b', 'c'] = (.ok k, b1)) ↔
      bufC7.full = false ∧ bufC7.len + 2 ≤ 3) :=
  ⟨by decide, (C7_extend_prepend_atomic bufC7 ['b', 'c'] (by decide)).1⟩

/-- C8: after a successful `prepend seq`, reading the buffer repeatedly from
the front yields `seq` in original order followed by the prior contents in
their prior order. -/
theorem C8_prepend_preserves_order (b : RollingCharBuffer) (cs : List Char)
    (hwf : b.WF) (hroom : b.len + cs.length ≤ b.cap) (k : Nat)
    (b1 : RollingCharBuffer) (h : b.prepend cs = (.ok k, b1)) :
    b1.readAll = cs ++ b.readAll := by
  obtain ⟨hwf1, htl, _, _⟩ := RollingCharBuffer.prepend_toList b hwf cs k b1 h
  rw [RollingCharBuffer.readAll_eq_toList b hwf,
    RollingCharBuffer.readAll_eq_toList b1 hwf1, htl]

/-- A concrete well-formed buffer holding one char with capacity 4. -/
def bufC8 : RollingCharBuffer :=
  { full := false, cap := 4, start := 0, endi := 1,
    buffer := ['c', 'x', 'x', 'x'] }

/-- Witness for C8 at a concrete input: prepending "ab" to a buffer holding
"c" gives front-to-back reads "a", "b", "c". -/
theorem C8_witness :
    bufC8.WF ∧
    (bufC8.prepend ['a', 'b']).2.readAll = ['a', 'b'] ++ bufC8.readAll :=
  ⟨by decide,
   C8_prepend_preserves_order bufC8 ['a', 'b'] (by decide) (by decide)
     1 (bufC8.prepend ['a', 'b']).2 (by rfl)⟩


/-! ## The matcher contract and the seven standard matchers -/

/-- MatcherResult (src/matcher.rs). -/
inductive MatcherResult where
  | Running : MatcherResult
  | Failed : MatcherResult
  | Matched : Token → MatcherResult
deriving Repr, DecidableEq

/-- A literal target of the exact and keyword matchers
(src/matcher/exact.rs and src/matcher/keyword.rs, struct Target). -/
structure Target where
  matching : Bool
  target : List Char
deriving Repr, DecidableEq

/-- The state of one standard matcher. One constructor per matcher struct:
WordMatcher, WhitespaceMatcher, SymbolMatcher, IntegerMatcher, FloatMatcher
(whose `float` field is `flt` here, the constructor taking the name),
ExactMatcher and KeywordMatcher. -/
inductive MatcherS where
  | word (index : Nat) (precedence : Nat) (running : Bool)
  | whitespace (index : Nat) (column : Nat) (line : Nat) (precedence : Nat)
      (running : Bool)
  | symbol (index : Nat) (precedence : Nat) (running : Bool)
  | integer (index : Nat) (precedence : Nat) (running : Bool)
  | float (index : Nat) (precedence : Nat) (dot : Bool) (flt : Bool)
      (running : Bool)
  | exact (index : Nat) (precedence : Nat) (running : Bool)
      (found : Option Nat) (targets : List Target) (token_type : Nat)
  | keyword (index : Nat) (precedence : Nat) (running : Bool)
      (found : Option Nat) (targets : List Target) (token_type : Nat)
deriving Repr, DecidableEq

namespace MatcherS

/-- Matcher::is_running for each standard matcher. -/
def is_running : MatcherS → Bool
  | .word _ _ r => r
  | .whitespace _ _ _ _ r => r
  | .symbol _ _ r => r
  | .integer _ _ r => r
  | .float _ _ _ _ r => r
  | .exact _ _ r _ _ _ => r
  | .keyword _ _ r _ _ _ => r

/-- Matcher::reset for each standard matcher (the shared context map, which
every standard matcher ignores, is omitted). -/
def resetM : MatcherS → MatcherS
  | .word _ p _ => .word 0 p true
  | .whitespace _ _ _ p _ => .whitespace 0 0 0 p true
  | .symbol _ p _ => .symbol 0 p true
  | .integer _ p _ => .integer 0 p true
  | .float _ p _ _ _ => .float 0 p false false true
  | .exact _ p _ _ tgs tt =>
    .exact 0 p true none (tgs.map fun t => { t with matching := true }) tt
  | .keyword _ p _ _ tgs tt =>
    .keyword 0 p true none (tgs.map fun t => { t with matching := true }) tt

end MatcherS

/-- WordMatcher::generate_word_token. -/
def generateWordToken (index prec : Nat) (value : List Char) : MatcherResult :=
  if 0 < index then
    .Matched { value := value.take index, token_type := TOKEN_TYPE_WORD,
               len := index, line := 0, column := index, precedence := prec }
  else .Failed

/-- WhitespaceMatcher::generate_whitspace_token; the token reports the
matcher's internally tracked relative line and column. -/
def generateWhitespaceToken (index line column prec : Nat)
    (value : List Char) : MatcherResult :=
  if 0 < index then
    .Matched { value := value.take index, token_type := TOKEN_TYPE_WHITESPACE,
               len := index, line := line, column := column,
               precedence := prec }
  else .Failed

/-- SymbolMatcher::generate_symbol_token. -/
def generateSymbolToken (index prec : Nat) (value : List Char) :
    MatcherResult :=
  if 0 < index then
    .Matched { value := value.take index, token_type := TOKEN_TYPE_SYMBOL,
               len := index, line := 0, column := index, precedence := prec }
  else .Failed

/-- IntegerMatcher::generate_integer_token. -/
def generateIntegerToken (index prec : Nat) (value : List Char) :
    MatcherResult :=
  if 0 < index then
    .Matched { value := value.take index, token_type := TOKEN_TYPE_INTEGER,
               len := index, line := 0, column := index, precedence := prec }
  else .Failed

/-- FloatMatcher::generate_float_token. -/
def generateFloatToken (index : Nat) (flt : Bool) (prec : Nat)
    (value : List Char) : MatcherResult :=
  if 0 < index ∧ flt = true then
    .Matched { value := value.take index, token_type := TOKEN_TYPE_FLOAT,
               len := index, line := 0, column := index, precedence := prec }
  else .Failed

/-- ExactMatcher::generate_exact_token and
KeywordMatcher::generate_keyword_token: build the token from the found
target (the token value is the target itself, not the accumulator). -/
def generateExactToken (found : Option Nat) (tgs : List Target)
    (tt prec : Nat) : MatcherResult :=
  match found with
  | none => .Failed
  | some i =>
    let tg := (tgs.getD i { matching := true, target := [] }).target
    .Matched { value := tg, token_type := tt, len := tg.length,
               line := 0, column := tg.length, precedence := prec }

/-- The UTF-8 byte length of a char sequence — what String::len returns on
the String collected from those chars. -/
def utf8Len (cs : List Char) : Nat := (cs.map Char.utf8Size).sum

/-- KeywordMatcher::generate_keyword_token: like the exact matcher it
builds the token from the found target, but its `len` (and `column`) is
`token_value.len()` — the UTF-8 byte length of the collected String — not
the char count that ExactMatcher takes from its Vec of chars. On a
multibyte target the two differ. -/
def generateKeywordToken (found : Option Nat) (tgs : List Target)
    (tt prec : Nat) : MatcherResult :=
  match found with
  | none => .Failed
  | some i =>
    let tg := (tgs.getD i { matching := true, target := [] }).target
    .Matched { value := tg, token_type := tt, len := utf8Len tg,
               line := 0, column := utf8Len tg, precedence := prec }

/-- The target loop of ExactMatcher::find_match on a real char: walks the
targets at list position `pos`, comparing position `i` of each still-matching
target with `c`; a target exhausted at `i` records `found := pos` when
`0 < i`. Returns (targets, running, found). -/
def exactScanChar (c : Char) (i : Nat) :
    List Target → Nat → Bool → Option Nat →
      List Target × Bool × Option Nat
  | [], _, running, found => ([], running, found)
  | tg :: rest, pos, running, found =>
    if tg.matching then
      match tg.target.get? i with
      | some m =>
        if m = c then
          let r := exactScanChar c i rest (pos + 1) true found
          (tg :: r.1, r.2)
        else
          let r := exactScanChar c i rest (pos + 1) running found
          ({ tg with matching := false } :: r.1, r.2)
      | none =>
        let found1 := if 0 < i then some pos else found
        let r := exactScanChar c i rest (pos + 1) running found1
        ({ tg with matching := false } :: r.1, r.2)
    else
      let r := exactScanChar c i rest (pos + 1) running found
      (tg :: r.1, r.2)

/-- The target loop of ExactMatcher::find_match at end-of-input: the last
still-matching exhausted target wins (no break in the source loop). -/
def exactScanEof (i : Nat) : List Target → Nat → Option Nat → Option Nat
  | [], _, found => found
  | tg :: rest, pos, found =>
    let found1 :=
      if tg.matching && (tg.target.get? i).isNone then some pos else found
    exactScanEof i rest (pos + 1) found1

/-- The target loop of KeywordMatcher::find_match on a real char; a target
exhausted at `i` records found only when `0 < i` and `c` is not
alphanumeric. Returns (targets, running, found, found_potential_match). -/
def keywordScanChar (c : Char) (i : Nat) :
    List Target → Nat → Bool → Option Nat → Bool →
      List Target × Bool × Option Nat × Bool
  | [], _, running, found, fp => ([], running, found, fp)
  | tg :: rest, pos, running, found, fp =>
    if tg.matching then
      match tg.target.get? i with
      | none =>
        if 0 < i ∧ rustIsAlphanumeric c = false then
          let r := keywordScanChar c i rest (pos + 1) running (some pos) true
          ({ tg with matching := false } :: r.1, r.2)
        else
          let r := keywordScanChar c i rest (pos + 1) running found fp
          ({ tg with matching := false } :: r.1, r.2)
      | some m =>
        if m = c then
          let r := keywordScanChar c i rest (pos + 1) true found fp
          (tg :: r.1, r.2)
        else
          let r := keywordScanChar c i rest (pos + 1) running found fp
          ({ tg with matching := false } :: r.1, r.2)
    else
      let r := keywordScanChar c i rest (pos + 1) running found fp
      (tg :: r.1, r.2)

/-- The target loop of KeywordMatcher::find_match at end-of-input: the first
still-matching exhausted target wins (the source loop breaks). -/
def keywordScanEof (i : Nat) : List Target → Nat → Option Nat → Option Nat
  | [], _, found => found
  | tg :: rest, pos, found =>
    if tg.matching && (tg.target.get? i).isNone then some pos
    else keywordScanEof i rest (pos + 1) found

/-- Matcher::find_match of each standard matcher, returning the result and
the updated matcher state. The shared context map, ignored by all seven, is
omitted. -/
def findMatch : MatcherS → Option Char → List Char →
    MatcherResult × MatcherS
  | .word i p r, oc, value =>
    match oc with
    | some c =>
      if rustIsAlphabetic c then (.Running, .word (i + 1) p r)
      else (generateWordToken i p value, .word i p false)
    | none => (generateWordToken i p value, .word i p false)
  | .whitespace i col ln p r, oc, value =>
    match oc with
    | some c =>
      if rustIsWhitespace c then
        let col1 := col + 1
        let col2 := if c = '\r' then 0 else if c = '\n' then 1 else col1
        let ln2 := if c = '\r' then ln else if c = '\n' then ln + 1 else ln
        (.Running, .whitespace (i + 1) col2 ln2 p r)
      else
        (generateWhitespaceToken i ln col p value,
         .whitespace i col ln p false)
    | none =>
      (generateWhitespaceToken i ln col p value, .whitespace i col ln p false)
  | .symbol i p r, oc, value =>
    match oc with
    | some c =>
      if !rustIsWhitespace c && !rustIsAlphanumeric c then
        (.Running, .symbol (i + 1) p r)
      else (generateSymbolToken i p value, .symbol i p false)
    | none => (generateSymbolToken i p value, .symbol i p false)
  | .integer i p r, oc, value =>
    match oc with
    | none => (generateIntegerToken i p value, .integer i p false)
    | some c =>
      if rustIsNumeric c then (.Running, .integer (i + 1) p r)
      else (generateIntegerToken i p value, .integer i p false)
  | .float i p dot flt r, oc, value =>
    match oc with
    | none => (generateFloatToken i flt p value, .float i p dot flt false)
    | some c =>
      if c = '.' && !dot && decide (0 < i) then
        (.Running, .float (i + 1) p true flt r)
      else if rustIsNumeric c then
        (.Running, .float (i + 1) p dot (if dot then true else flt) r)
      else (generateFloatToken i flt p value, .float i p dot flt false)
  | .exact i p _r found tgs tt, oc, _value =>
    match oc with
    | none =>
      let found1 := exactScanEof i tgs 0 found
      (generateExactToken found1 tgs tt p, .exact i p false found1 tgs tt)
    | some c =>
      let s := exactScanChar c i tgs 0 false found
      if s.2.1 then (.Running, .exact (i + 1) p true s.2.2 s.1 tt)
      else
        (generateExactToken s.2.2 s.1 tt p,
         .exact (i + 1) p false s.2.2 s.1 tt)
  | .keyword i p _r found tgs tt, oc, _value =>
    match oc with
    | none =>
      let found1 := keywordScanEof i tgs 0 found
      (generateKeywordToken found1 tgs tt p, .keyword i p false found1 tgs tt)
    | some c =>
      if !(tgs.any fun t => t.matching) then
        (generateKeywordToken found tgs tt p, .keyword i p false found tgs tt)
      else
        let s := keywordScanChar c i tgs 0 false found false
        if !s.2.1 && !s.2.2.2 then
          (generateKeywordToken s.2.2.1 s.1 tt p,
           .keyword (i + 1) p false s.2.2.1 s.1 tt)
        else if s.2.1 then (.Running, .keyword (i + 1) p true s.2.2.1 s.1 tt)
        else
          (generateKeywordToken s.2.2.1 s.1 tt p,
           .keyword (i + 1) p false s.2.2.1 s.1 tt)

/-- ExactMatcher::build_exact_matcher. -/
def build_exact_matcher (strs : List (List Char)) (token_type : Nat)
    (precedence : Nat) : MatcherS :=
  .exact 0 precedence true none
    (strs.map fun m => { matching := true, target := m }) token_type

/-- KeywordMatcher::build_matcher_keyword. -/
def build_matcher_keyword (strs : List (List Char)) (token_type : Nat)
    (precedence : Nat) : MatcherS :=
  .keyword 0 precedence true none
    (strs.map fun m => { matching := true, target := m }) token_type

/-! ## The tokenization engine -/

/-- LexxError (src/lib.rs). The source formats line, column and the pulled
char Option into the TokenNotFound string; the model carries that data
directly. The general Error variant wraps input-source errors, which the
in-memory input of this embedding never produces. -/
inductive LexxError where
  | TokenNotFound (line column : Nat) (c : Option Char)
  | Error
deriving Repr, DecidableEq

/-- The outcome of one get_token call: Ok(Some(token)), Ok(None),
Err(LexxError), or a Rust panic (ArrayVec accumulator overflow or cache
overflow while replaying over-read chars at commit). -/
inductive GetTokenResult where
  | token : Token → GetTokenResult
  | eof : GetTokenResult
  | failed : LexxError → GetTokenResult
  | panicked : GetTokenResult
deriving Repr, DecidableEq

/-- The engine state owned by Lexxor apart from the lookahead slot
(src/lib.rs, struct Lexxor): matchers, input (an InputString, i.e. the list
of not-yet-delivered chars), the CAP parameter, the replay cache (the
logical contents of the RollingCharBuffer, see the refinement theorems
above), the working accumulator `value`, `found_token`, and the line/column
counters. The context map, which no standard matcher reads, is omitted. -/
structure EngineCore where
  matchers : List MatcherS
  input : List Char
  cap : Nat
  cache : List Char
  value : List Char
  found_token : Option Token
  line : Nat
  column : Nat
deriving Repr, DecidableEq

/-- The matcher loop of one get_token iteration (src/lib.rs lines 274-297):
feed `c` to every running matcher in registration order, keeping the running
maximum of Matched outcomes by `precedence <= token.precedence` and OR-ing
the Running flags. Arguments after the matcher list: the iteration-local
found_token, the `precedence` variable, and the `running` flag. -/
def feedMatchers (c : Option Char) (v : List Char) :
    List MatcherS → Option Token → Nat → Bool →
      List MatcherS × Option Token × Nat × Bool
  | [], ft, prec, running => ([], ft, prec, running)
  | m :: rest, ft, prec, running =>
    if m.is_running then
      match findMatch m c v with
      | (.Running, m1) =>
        let r := feedMatchers c v rest ft prec true
        (m1 :: r.1, r.2)
      | (.Matched token, m1) =>
        let fp : Option Token × Nat :=
          match ft with
          | some _ =>
            if prec ≤ token.precedence then (some token, token.precedence)
            else (ft, prec)
          | none => (some token, token.precedence)
        let r := feedMatchers c v rest fp.1 fp.2 running
        (m1 :: r.1, r.2)
      | (.Failed, m1) =>
        let r := feedMatchers c v rest ft prec running
        (m1 :: r.1, r.2)
    else
      let r := feedMatchers c v rest ft prec running
      (m :: r.1, r.2)

/-- The best-candidate update (src/lib.rs lines 298-304): the iteration
winner replaces the stored candidate when its precedence is at least the
stored one. -/
def mergeFound (stored iter : Option Token) : Option Token :=
  match iter with
  | none => stored
  | some token =>
    match stored with
    | some ft => if ft.precedence ≤ token.precedence then some token else stored
    | none => some token

/-- The commit line/column advance and emission (src/lib.rs lines 312-322):
remember the current position, advance by the matcher-reported relative
line/column of the token, and return the token stamped with the remembered
position. -/
def commitAdvance (st : EngineCore) (token : Token) :
    GetTokenResult × EngineCore :=
  if 0 < token.line then
    (.token { token with line := st.line, column := st.column },
     { st with line := st.line + token.line, column := token.column })
  else
    (.token { token with line := st.line, column := st.column },
     { st with column := st.column + token.column })

/-- The commit step (src/lib.rs lines 306-322): replay the over-read suffix
of the accumulator to the cache front (panicking if the cache overflows, per
the source's panic on prepend failure), then advance and emit. -/
def commitToken (st : EngineCore) (token : Token) :
    GetTokenResult × EngineCore :=
  if token.len < st.value.length then
    if st.cache.length = st.cap ∨
        st.cap - st.cache.length < (st.value.drop token.len).length then
      (.panicked, st)
    else
      commitAdvance { st with cache := st.value.drop token.len ++ st.cache }
        token
  else commitAdvance st token

/-- The outcome of one iteration of the get_token loop: either the attempt
is finished with a result, or it continues with a new state and `precedence`
variable. -/
inductive IterOut where
  | done (r : GetTokenResult) (st : EngineCore)
  | again (st : EngineCore) (prec : Nat)
deriving Repr, DecidableEq

/-- The tail of one get_token iteration after the pulled char was pushed
(src/lib.rs lines 274-336): feed all running matchers, merge the iteration
winner into found_token, then either commit the taken candidate, report
end-of-input, report TokenNotFound at the current position naming the pulled
char, or continue with the updated `precedence` variable. -/
def getTokenIterFeed (st : EngineCore) (prec : Nat) (c : Option Char)
    (value1 cache1 input1 : List Char) : IterOut :=
  match feedMatchers c value1 st.matchers none prec false with
  | (ms1, itf, prec1, running) =>
    match running, mergeFound st.found_token itf with
    | false, some token =>
      match commitToken { st with matchers := ms1, cache := cache1,
                                   input := input1, value := value1,
                                   found_token := none } token with
      | (r2, st2) => .done r2 st2
    | false, none =>
      match c with
      | none =>
        .done .eof { st with matchers := ms1, cache := cache1,
                             input := input1, value := value1,
                             found_token := none }
      | some _ =>
        .done (.failed (.TokenNotFound st.line st.column c))
          { st with matchers := ms1, cache := cache1, input := input1,
                    value := value1, found_token := none }
    | true, best =>
      match c with
      | none =>
        .done .eof { st with matchers := ms1, cache := cache1,
                             input := input1, value := value1,
                             found_token := best }
      | some _ =>
        .again { st with matchers := ms1, cache := cache1, input := input1,
                         value := value1, found_token := best } prec1

/-- The accumulator push of one iteration (src/lib.rs lines 276-278): a
pulled char is pushed onto the CAP-capacity ArrayVec, whose overflow is a
panic; end-of-input pushes nothing. -/
def getTokenIterCore (st : EngineCore) (prec : Nat) (c : Option Char)
    (cache1 input1 : List Char) : IterOut :=
  match c with
  | some ch =>
    if st.value.length = st.cap then
      .done .panicked { st with cache := cache1, input := input1 }
    else getTokenIterFeed st prec (some ch) (st.value ++ [ch]) cache1 input1
  | none => getTokenIterFeed st prec none st.value cache1 input1

/-- One iteration of the get_token loop (src/lib.rs lines 268-336),
starting with the pull (line 269-273): take a char from the cache front if
the cache is nonempty, else pull from the input. -/
def getTokenIter (st : EngineCore) (prec : Nat) : IterOut :=
  match st.cache, st.input with
  | [], [] => getTokenIterCore st prec none [] []
  | [], ch :: rest => getTokenIterCore st prec (some ch) [] rest
  | ch :: rest, _ => getTokenIterCore st prec (some ch) rest st.input

/-- The get_token loop, fuelled; each iteration either finishes or consumes
one char of cache-plus-input, so the fuel `cache.length + input.length + 1`
used by `getToken` always suffices (theorem getTokenLoop_enough). -/
def getTokenLoop : Nat → EngineCore → Nat → Option (GetTokenResult × EngineCore)
  | 0, _, _ => none
  | fuel + 1, st, prec =>
    match getTokenIter st prec with
    | .done r st1 => some (r, st1)
    | .again st1 prec1 => getTokenLoop fuel st1 prec1

/-- The Init step of a get_token attempt (src/lib.rs lines 262-267): clear
the accumulator, reset every matcher, clear found_token. -/
def resetCore (st : EngineCore) : EngineCore :=
  { st with value := [], matchers := st.matchers.map MatcherS.resetM,
            found_token := none }

/-- Lexxor::get_token (src/lib.rs lines 261-338): Init, then the fetch loop
with the `precedence` variable starting at 0. -/
def getToken (st : EngineCore) : GetTokenResult × EngineCore :=
  match getTokenLoop
      ((resetCore st).cache.length + (resetCore st).input.length + 1)
      (resetCore st) 0 with
  | some r => r
  | none => (.panicked, resetCore st)

/-- The full lexer state (src/lib.rs, struct Lexxor): the engine core plus
the single-slot lookahead cache `lexxor_result`. -/
structure Lexxor where
  core : EngineCore
  lexxor_result : Option GetTokenResult
deriving Repr, DecidableEq

/-- Lexxor::new with an InputString: fresh counters at line 1 column 1,
empty cache and accumulator. -/
def Lexxor.new (cap : Nat) (input : List Char) (matchers : List MatcherS) :
    Lexxor :=
  { core := { matchers := matchers, input := input, cap := cap, cache := [],
              value := [], found_token := none, line := 1, column := 1 },
    lexxor_result := none }

/-- Lexxer::next_token for Lexxor (src/lib.rs lines 350-357): take the
cached lookahead result if present, else run get_token. -/
def Lexxor.next_token (lx : Lexxor) : GetTokenResult × Lexxor :=
  match lx.lexxor_result with
  | some lr => (lr, { lx with lexxor_result := none })
  | none =>
    let r := getToken lx.core
    (r.1, { lx with core := r.2 })

/-- Lexxer::look_ahead for Lexxor (src/lib.rs lines 406-413): return the
cached result if present, else run get_token and cache its result. -/
def Lexxor.look_ahead (lx : Lexxor) : GetTokenResult × Lexxor :=
  match lx.lexxor_result with
  | some lr => (lr, lx)
  | none =>
    let r := getToken lx.core
    (r.1, { core := r.2, lexxor_result := some r.1 })

/-- Lexxer::rewind for Lexxor (src/lib.rs lines 427-432): overwrite the
engine's line/column with the token's, then prepend the token's chars to the
cache front, reporting the remaining capacity or BufferFullError. -/
def Lexxor.rewind (lx : Lexxor) (token : Token) :
    Except RollingCharBufferError Nat × Lexxor :=
  let core1 := { lx.core with line := token.line, column := token.column }
  let cs := token.value
  if core1.cache.length = core1.cap ∨
      core1.cap - core1.cache.length < cs.length then
    (.error .BufferFullError, { lx with core := core1 })
  else
    (.ok (core1.cap - (cs.length + core1.cache.length)),
     { lx with core := { core1 with cache := cs ++ core1.cache } })

/-- Run next_token `n` times, succeeding only if every call returns a token;
used to state properties of token sequences. -/
def nextTokens : Nat → Lexxor → Option (List Token × Lexxor)
  | 0, lx => some ([], lx)
  | n + 1, lx =>
    match lx.next_token with
    | (.token t, lx1) =>
      match nextTokens n lx1 with
      | some (ts, fin) => some (t :: ts, fin)
      | none => none
    | _ => none

/-- Concatenation of the emitted token values. -/
def tokenConcat (ts : List Token) : List Char :=
  (ts.map Token.value).flatten


/-- A fresh WordMatcher as the source examples construct it. -/
def stdWord : MatcherS := .word 0 0 true

/-- A fresh WhitespaceMatcher as the source examples construct it. -/
def stdWhitespace : MatcherS := .whitespace 0 0 0 0 true

/-- A fresh SymbolMatcher as the source examples construct it. -/
def stdSymbol : MatcherS := .symbol 0 0 true

/-- A fresh IntegerMatcher as the source examples construct it. -/
def stdInteger : MatcherS := .integer 0 0 true

/-- A fresh FloatMatcher as the source examples construct it. -/
def stdFloat : MatcherS := .float 0 0 false false true

/-- C6: in every engine state, look_ahead followed by next_token yields the
same Result, and repeated look_ahead calls yield that same cached Result
with the engine state unchanged (no further tokens consumed). -/
theorem C6_look_ahead_consistent (lx : Lexxor) :
    (lx.look_ahead.2.next_token).1 = lx.look_ahead.1 ∧
    lx.look_ahead.2.look_ahead = (lx.look_ahead.1, lx.look_ahead.2) := by
  cases hlr : lx.lexxor_result with
  | some lr =>
    constructor <;>
      simp [Lexxor.look_ahead, Lexxor.next_token, hlr]
  | none =>
    constructor <;>
      simp [Lexxor.look_ahead, Lexxor.next_token, hlr]

/-- C10: rewind assigns the engine's line and column from the token before
attempting the cache insert, so when the insert fails with buffer overflow
the cache is unchanged but line/column carry the rejected token's values:
rewind is not atomic on error. -/
theorem C10_rewind_overwrites_position (lx : Lexxor) (t : Token)
    (e : RollingCharBufferError) (h : (lx.rewind t).1 = .error e) :
    (lx.rewind t).2.core.cache = lx.core.cache ∧
    (lx.rewind t).2.core.line = t.line ∧
    (lx.rewind t).2.core.column = t.column := by
  unfold Lexxor.rewind at *
  by_cases hg : (lx.core.cache.length = lx.core.cap ∨
      lx.core.cap - lx.core.cache.length < t.value.length)
  · rw [if_pos hg]
    exact ⟨rfl, rfl, rfl⟩
  · rw [if_neg hg] at h
    cases h

/-- A one-token lexer over a full cache, used to witness C10: any rewind
overflows. -/
def lexC10 : Lexxor :=
  { core := { matchers := [stdWord], input := [], cap := 1, cache := ['z'],
              value := [], found_token := none, line := 1, column := 1 },
    lexxor_result := none }

/-- Witness for C10 at a concrete input: rewinding a token with value "q"
at line 7 column 9 into a full cache fails, leaves the cache at ['z'], and
overwrites line/column with 7 and 9. -/
theorem C10_witness :
    (lexC10.rewind { value := ['q'], token_type := 4, len := 1, line := 7,
                     column := 9, precedence := 0 }).1 =
      .error .BufferFullError ∧
    (lexC10.rewind { value := ['q'], token_type := 4, len := 1, line := 7,
                     column := 9, precedence := 0 }).2.core.cache = ['z'] ∧
    (lexC10.rewind { value := ['q'], token_type := 4, len := 1, line := 7,
                     column := 9, precedence := 0 }).2.core.line = 7 ∧
    (lexC10.rewind { value := ['q'], token_type := 4, len := 1, line := 7,
                     column := 9, precedence := 0 }).2.core.column = 9 :=
  ⟨by decide,
   (C10_rewind_overwrites_position lexC10 _ .BufferFullError (by decide)).1,
   (C10_rewind_overwrites_position lexC10 _ .BufferFullError (by decide)).2.1,
   (C10_rewind_overwrites_position lexC10 _ .BufferFullError (by decide)).2.2⟩

/-- A lexer whose only matcher is ExactMatcher(["ab"]) over input "a", used
as the C3 counterexample. -/
def lexC3 : Lexxor :=
  Lexxor.new 8 ['a'] [build_exact_matcher [['a', 'b']] TOKEN_TYPE_EXACT 0]

/-- C3 counterexample: with the single matcher ExactMatcher(["ab"]) over
input "a", the attempt pulls 'a' (Running), then end-of-input (the matcher
fails); no matcher runs and no candidate exists, and the source returns
Ok(None) although the working accumulator still holds 'a' — the claim says
this case must be a token-not-found error. -/
theorem C3_counterexample :
    lexC3.next_token.1 = .eof ∧
    lexC3.next_token.2.core.value = ['a'] ∧
    lexC3.next_token.2.core.value ≠ [] := by
  refine ⟨by decide, by decide, by decide⟩

theorem commitToken_shape (st : EngineCore) (t : Token) :
    (∃ u st2, commitToken st t = (.token u, st2)) ∨
    (∃ st2, commitToken st t = (.panicked, st2)) := by
  unfold commitToken commitAdvance
  split
  · split
    · right; exact ⟨_, rfl⟩
    · split
      · left; exact ⟨_, _, rfl⟩
      · left; exact ⟨_, _, rfl⟩
  · split
    · left; exact ⟨_, _, rfl⟩
    · left; exact ⟨_, _, rfl⟩

/-- A continuing feed step keeps the supplied cache and input and happened
on a real char. -/
theorem getTokenIterFeed_again (st : EngineCore) (prec : Nat)
    (c : Option Char) (value1 cache1 input1 : List Char) (st1 : EngineCore)
    (prec1 : Nat)
    (h : getTokenIterFeed st prec c value1 cache1 input1 = .again st1 prec1) :
    st1.cache = cache1 ∧ st1.input = input1 ∧ ∃ ch, c = some ch := by
  unfold getTokenIterFeed at h
  rcases hfd : feedMatchers c value1 st.matchers none prec false with
    ⟨ms1, itf, p1, running⟩
  rw [hfd] at h
  dsimp only at h
  split at h
  · exact IterOut.noConfusion h
  · cases hc : c with
    | none => rw [hc] at h; exact IterOut.noConfusion h
    | some ch => rw [hc] at h; exact IterOut.noConfusion h
  · cases hc : c with
    | none => rw [hc] at h; exact IterOut.noConfusion h
    | some ch =>
      rw [hc] at h
      cases h
      exact ⟨rfl, rfl, ch, rfl⟩

/-- A finished feed step: Ok(None) keeps the supplied cache and input and
arises only at end-of-input, and an error is TokenNotFound naming the
engine's line, column and the real char just pulled, which is the last char
of the accumulator. -/
theorem getTokenIterFeed_done (st : EngineCore) (prec : Nat)
    (c : Option Char) (value1 cache1 input1 : List Char)
    (r : GetTokenResult) (st1 : EngineCore)
    (h : getTokenIterFeed st prec c value1 cache1 input1 = .done r st1) :
    (r = .eof → st1.cache = cache1 ∧ st1.input = input1 ∧ c = none) ∧
    (∀ e, r = .failed e → ∃ ch, c = some ch ∧
      e = .TokenNotFound st1.line st1.column (some ch) ∧
      st1.value = value1) := by
  unfold getTokenIterFeed at h
  rcases hfd : feedMatchers c value1 st.matchers none prec false with
    ⟨ms1, itf, p1, running⟩
  rw [hfd] at h
  dsimp only at h
  split at h
  · -- running = false with a candidate: the commit path
    rename_i token heq
    cases h
    rcases commitToken_shape _ token with ⟨u, st3, hcm2⟩ | ⟨st3, hcm2⟩ <;>
      rw [hcm2] <;>
      exact ⟨fun hr => (by simp at hr), fun e he => (by simp at he)⟩
  · -- running = false, no candidate
    cases hc : c with
    | none =>
      rw [hc] at h
      cases h
      exact ⟨fun _ => ⟨rfl, rfl, rfl⟩, fun e he => (nomatch he)⟩
    | some ch =>
      rw [hc] at h
      cases h
      refine ⟨fun hr => (nomatch hr), fun e he => ?_⟩
      cases he
      exact ⟨ch, rfl, rfl, rfl⟩
  · -- still running
    cases hc : c with
    | none =>
      rw [hc] at h
      cases h
      exact ⟨fun _ => ⟨rfl, rfl, rfl⟩, fun e he => (nomatch he)⟩
    | some ch =>
      rw [hc] at h
      exact IterOut.noConfusion h

/-- A continuing iteration consumed exactly one char of cache-plus-input. -/
theorem getTokenIter_progress (st : EngineCore) (prec : Nat)
    (st1 : EngineCore) (prec1 : Nat)
    (h : getTokenIter st prec = .again st1 prec1) :
    st1.cache.length + st1.input.length + 1 =
      st.cache.length + st.input.length := by
  unfold getTokenIter at h
  split at h
  · unfold getTokenIterCore at h
    dsimp only at h
    obtain ⟨h1, h2, ch2, hch⟩ := getTokenIterFeed_again _ _ _ _ _ _ _ _ h
    cases hch
  · unfold getTokenIterCore at h
    dsimp only at h
    split at h
    · exact IterOut.noConfusion h
    · obtain ⟨h1, h2, -⟩ := getTokenIterFeed_again _ _ _ _ _ _ _ _ h
      simp_all
  · unfold getTokenIterCore at h
    dsimp only at h
    split at h
    · exact IterOut.noConfusion h
    · obtain ⟨h1, h2, -⟩ := getTokenIterFeed_again _ _ _ _ _ _ _ _ h
      simp_all
      omega

/-- The fuel used by getToken always suffices. -/
theorem getTokenLoop_enough : ∀ (fuel : Nat) (st : EngineCore) (prec : Nat),
    st.cache.length + st.input.length < fuel →
    (getTokenLoop fuel st prec).isSome = true := by
  intro fuel
  induction fuel with
  | zero => intro st prec h; omega
  | succ n ih =>
    intro st prec h
    unfold getTokenLoop
    cases hit : getTokenIter st prec with
    | done r st1 => simp
    | again st1 prec1 =>
      apply ih
      have := getTokenIter_progress st prec st1 prec1 hit
      omega

/-- One finished iteration of the loop: Ok(None) arises only with cache and
input exhausted, and an error is TokenNotFound naming the engine's line,
column and the real char just pulled, which sits at the end of the working
accumulator. -/
theorem getTokenIter_done_shape (st : EngineCore) (prec : Nat)
    (r : GetTokenResult) (st1 : EngineCore)
    (h : getTokenIter st prec = .done r st1) :
    (r = .eof → st1.cache = [] ∧ st1.input = []) ∧
    (∀ e, r = .failed e → ∃ ch,
      e = .TokenNotFound st1.line st1.column (some ch) ∧
      st1.value.getLast? = some ch) := by
  unfold getTokenIter at h
  split at h
  · unfold getTokenIterCore at h
    dsimp only at h
    have hfd := getTokenIterFeed_done _ _ _ _ _ _ _ _ h
    refine ⟨fun hr => ?_, fun e he => ?_⟩
    · obtain ⟨h1, h2, -⟩ := hfd.1 hr
      exact ⟨h1, h2⟩
    · obtain ⟨ch, hch, -, -⟩ := hfd.2 e he
      cases hch
  · unfold getTokenIterCore at h
    dsimp only at h
    split at h
    · cases h
      exact ⟨fun hr => (nomatch hr), fun e he => (nomatch he)⟩
    · have hfd := getTokenIterFeed_done _ _ _ _ _ _ _ _ h
      refine ⟨fun hr => ?_, fun e he => ?_⟩
      · obtain ⟨-, -, hcn⟩ := hfd.1 hr
        cases hcn
      · obtain ⟨ch2, hch, hE, hv⟩ := hfd.2 e he
        refine ⟨ch2, hE, ?_⟩
        rw [hv, List.getLast?_concat]
        exact hch
  · unfold getTokenIterCore at h
    dsimp only at h
    split at h
    · cases h
      exact ⟨fun hr => (nomatch hr), fun e he => (nomatch he)⟩
    · have hfd := getTokenIterFeed_done _ _ _ _ _ _ _ _ h
      refine ⟨fun hr => ?_, fun e he => ?_⟩
      · obtain ⟨-, -, hcn⟩ := hfd.1 hr
        cases hcn
      · obtain ⟨ch2, hch, hE, hv⟩ := hfd.2 e he
        refine ⟨ch2, hE, ?_⟩
        rw [hv, List.getLast?_concat]
        exact hch

theorem getTokenLoop_done_shape : ∀ (fuel : Nat) (st : EngineCore)
    (prec : Nat) (r : GetTokenResult) (st1 : EngineCore),
    getTokenLoop fuel st prec = some (r, st1) →
    (r = .eof → st1.cache = [] ∧ st1.input = []) ∧
    (∀ e, r = .failed e → ∃ ch,
      e = .TokenNotFound st1.line st1.column (some ch) ∧
      st1.value.getLast? = some ch) := by
  intro fuel
  induction fuel with
  | zero => intro st prec r st1 h; cases h
  | succ n ih =>
    intro st prec r st1 h
    unfold getTokenLoop at h
    cases hit : getTokenIter st prec with
    | done r2 st2 =>
      rw [hit] at h
      cases h
      exact getTokenIter_done_shape st prec r st1 hit
    | again st2 prec2 =>
      rw [hit] at h
      exact ih st2 prec2 r st1 h

/-- C3 (amended): when an attempt ends with no matcher still running and no
best candidate, get_token returns Ok(None) exactly when the pulled character
was the end-of-input marker — the accumulator is NOT tested and may be
non-empty, its characters being dropped (see the counterexample) — and in
the remaining case it returns a token-not-found error that names the current
line, column and the offending (real) character, which is the last
accumulator char. -/
theorem C3_eof_vs_not_found (st : EngineCore) (r : GetTokenResult)
    (st1 : EngineCore) (h : getToken st = (r, st1)) :
    (r = .eof → st1.cache = [] ∧ st1.input = []) ∧
    (∀ e, r = .failed e → ∃ ch,
      e = .TokenNotFound st1.line st1.column (some ch) ∧
      st1.value.getLast? = some ch) := by
  unfold getToken at h
  split at h
  · rename_i p heq
    cases h
    exact getTokenLoop_done_shape _ _ _ _ _ heq
  · cases h
    exact ⟨fun hr => (nomatch hr), fun e he => (nomatch he)⟩

/-- Witness for the amended C3 at concrete inputs: tokenizing "?" with only
a WordMatcher fails with TokenNotFound at line 1 column 1 naming '?', and
the C3 counterexample lexer returns Ok(None) with cache and input
exhausted. -/
theorem C3_witness :
    (∃ ch, (Lexxor.new 8 ['?'] [stdWord]).next_token.1 =
        .failed (.TokenNotFound
          (Lexxor.new 8 ['?'] [stdWord]).next_token.2.core.line
          (Lexxor.new 8 ['?'] [stdWord]).next_token.2.core.column
          (some ch)) ∧
      (Lexxor.new 8 ['?'] [stdWord]).next_token.2.core.value.getLast? =
        some ch) ∧
    (lexC3.next_token.2.core.cache = [] ∧
     lexC3.next_token.2.core.input = []) := by
  constructor
  · have h1 := C3_eof_vs_not_found (Lexxor.new 8 ['?'] [stdWord]).core
      (Lexxor.new 8 ['?'] [stdWord]).next_token.1
      (Lexxor.new 8 ['?'] [stdWord]).next_token.2.core (by rfl)
    obtain ⟨ch, he, hl⟩ := h1.2 (.TokenNotFound 1 1 (some '?')) (by decide)
    exact ⟨ch, by rw [← he]; decide, hl⟩
  · exact (C3_eof_vs_not_found lexC3.core lexC3.next_token.1
      lexC3.next_token.2.core (by rfl)).1 (by decide)

/-- The tokens of the Matched outcomes of one iteration, in registration
order (only running matchers are consulted), harvested from the same
findMatch calls the engine makes. -/
def matchedList (c : Option Char) (v : List Char) : List MatcherS → List Token
  | [] => []
  | m :: rest =>
    if m.is_running then
      match (findMatch m c v).1 with
      | .Matched t => t :: matchedList c v rest
      | _ => matchedList c v rest
    else matchedList c v rest

/-- `t` is the element a running-maximum scan with ties to the later
element selects from `ts`: everything before it is at most its precedence
and everything after it is strictly below. -/
def IsLastMax (ts : List Token) (t : Token) : Prop :=
  ∃ l1 l2, ts = l1 ++ t :: l2 ∧ (∀ u ∈ l1, u.precedence ≤ t.precedence) ∧
    ∀ u ∈ l2, u.precedence < t.precedence

theorem isLastMax_mem_le {ts : List Token} {t u : Token}
    (h : IsLastMax ts t) (hu : u ∈ ts) : u.precedence ≤ t.precedence := by
  obtain ⟨l1, l2, hsplit, hb, ha⟩ := h
  rw [hsplit] at hu
  rcases List.mem_append.mp hu with h1 | h2
  · exact hb u h1
  · rcases List.mem_cons.mp h2 with h3 | h4
    · rw [h3]
    · exact Nat.le_of_lt (ha u h4)

theorem isLastMax_cons_le {ts : List Token} {t t0 : Token}
    (h : IsLastMax ts t) (hle : t0.precedence ≤ t.precedence) :
    IsLastMax (t0 :: ts) t := by
  obtain ⟨l1, l2, hsplit, hb, ha⟩ := h
  refine ⟨t0 :: l1, l2, by rw [hsplit]; rfl, ?_, ha⟩
  intro u hu
  rcases List.mem_cons.mp hu with h1 | h2
  · rw [h1]; exact hle
  · exact hb u h2

theorem isLastMax_cons_cons_lt {ts : List Token} {t t0 u : Token}
    (h : IsLastMax (t0 :: ts) t) (hlt : u.precedence < t0.precedence) :
    IsLastMax (t0 :: u :: ts) t := by
  obtain ⟨l1, l2, hsplit, hb, ha⟩ := h
  cases l1 with
  | nil =>
    simp only [List.nil_append] at hsplit
    injection hsplit with h1 h2
    refine ⟨[], u :: ts, by rw [h1]; rfl, by simp, ?_⟩
    intro w hw
    rcases List.mem_cons.mp hw with hq | hq
    · rw [hq, ← h1]; exact hlt
    · exact ha w (h2 ▸ hq)
  | cons a l1t =>
    simp only [List.cons_append] at hsplit
    injection hsplit with h1 h2
    cases h1
    have hale : t0.precedence ≤ t.precedence := hb t0 (List.mem_cons_self _ _)
    refine ⟨t0 :: u :: l1t, l2, ?_, ?_, ha⟩
    · rw [h2]; rfl
    · intro w hw
      rcases List.mem_cons.mp hw with hq | hq
      · rw [hq]; exact hale
      · rcases List.mem_cons.mp hq with hq2 | hq2
        · rw [hq2]; exact Nat.le_trans (Nat.le_of_lt hlt) hale
        · exact hb w (List.mem_cons_of_mem _ hq2)

/-- The matcher loop starting from a stored candidate `t0` with the
`precedence` variable at `t0.precedence` ends at the last maximum of
`t0 :: matchedList`. -/
theorem feedMatchers_found_some (ms : List MatcherS) (c : Option Char)
    (v : List Char) : ∀ (t0 : Token) (running : Bool),
    ∃ t, (feedMatchers c v ms (some t0) t0.precedence running).2.1 = some t ∧
      IsLastMax (t0 :: matchedList c v ms) t := by
  induction ms with
  | nil =>
    intro t0 running
    exact ⟨t0, rfl, [], [], rfl, by simp, by simp⟩
  | cons m rest ih =>
    intro t0 running
    cases hrun : m.is_running
    · unfold feedMatchers matchedList
      rw [hrun]
      simp only [Bool.false_eq_true, if_false]
      exact ih t0 running
    · rcases hfm : findMatch m c v with ⟨res, m1⟩
      cases res with
      | Running =>
        unfold feedMatchers matchedList
        rw [hrun, hfm]
        simp only [if_true]
        exact ih t0 true
      | Failed =>
        unfold feedMatchers matchedList
        rw [hrun, hfm]
        simp only [if_true]
        exact ih t0 running
      | Matched u =>
        unfold feedMatchers matchedList
        rw [hrun, hfm]
        simp only [if_true]
        by_cases hle : t0.precedence ≤ u.precedence
        · rw [if_pos hle]
          obtain ⟨t, hfd, hlm⟩ := ih u running
          refine ⟨t, hfd, ?_⟩
          exact isLastMax_cons_le hlm
            (Nat.le_trans hle
              (isLastMax_mem_le hlm (List.mem_cons_self _ _)))
        · rw [if_neg hle]
          obtain ⟨t, hfd, hlm⟩ := ih t0 running
          exact ⟨t, hfd, isLastMax_cons_cons_lt hlm (Nat.lt_of_not_le hle)⟩

/-- The matcher loop starting with no candidate ends with no candidate iff
no matcher Matched, and otherwise at the last maximum of the Matched
tokens. -/
theorem feedMatchers_found_none (ms : List MatcherS) (c : Option Char)
    (v : List Char) : ∀ (prec : Nat) (running : Bool),
    ((feedMatchers c v ms none prec running).2.1 = none ∧
      matchedList c v ms = []) ∨
    ∃ t, (feedMatchers c v ms none prec running).2.1 = some t ∧
      IsLastMax (matchedList c v ms) t := by
  induction ms with
  | nil =>
    intro prec running
    left
    exact ⟨rfl, rfl⟩
  | cons m rest ih =>
    intro prec running
    cases hrun : m.is_running
    · unfold feedMatchers matchedList
      rw [hrun]
      simp only [Bool.false_eq_true, if_false]
      exact ih prec running
    · rcases hfm : findMatch m c v with ⟨res, m1⟩
      cases res with
      | Running =>
        unfold feedMatchers matchedList
        rw [hrun, hfm]
        simp only [if_true]
        exact ih prec true
      | Failed =>
        unfold feedMatchers matchedList
        rw [hrun, hfm]
        simp only [if_true]
        exact ih prec running
      | Matched u =>
        unfold feedMatchers matchedList
        rw [hrun, hfm]
        simp only [if_true]
        right
        exact feedMatchers_found_some rest c v u running

/-- C4: (i) when the matcher loop of one iteration records a winning token,
that token is the last maximum by precedence of the Matched outcomes of the
iteration in registration order — the highest precedence wins and ties go
to the later-registered matcher, so among equal-precedence matchers
matching the same length the later one's token is kept; (ii) no winner is
recorded exactly when no matcher Matched; (iii) the stored best candidate
is then replaced by the iteration winner exactly when the winner's
precedence is greater than or equal to the stored candidate's. -/
theorem C4_precedence_selection (c : Option Char) (v : List Char)
    (ms : List MatcherS) (prec : Nat) (running : Bool) :
    (∀ t, (feedMatchers c v ms none prec running).2.1 = some t →
      IsLastMax (matchedList c v ms) t) ∧
    ((feedMatchers c v ms none prec running).2.1 = none ↔
      matchedList c v ms = []) ∧
    (∀ ft u, mergeFound (some ft) (some u) =
      if ft.precedence ≤ u.precedence then some u else some ft) := by
  refine ⟨?_, ⟨?_, ?_⟩, fun ft u => rfl⟩
  · intro t ht
    rcases feedMatchers_found_none ms c v prec running with ⟨h1, h2⟩ | ⟨t2, h1, h2⟩
    · rw [ht] at h1; cases h1
    · rw [ht] at h1
      cases h1
      exact h2
  · intro hn
    rcases feedMatchers_found_none ms c v prec running with ⟨h1, h2⟩ | ⟨t2, h1, h2⟩
    · exact h2
    · rw [hn] at h1; cases h1
  · intro hml
    rcases feedMatchers_found_none ms c v prec running with ⟨h1, h2⟩ | ⟨t2, h1, h2⟩
    · exact h1
    · rw [hml] at h2
      obtain ⟨l1, l2, hsplit, -, -⟩ := h2
      cases l1 <;> cases hsplit

/-- Two equal-precedence exact matchers that both match "ab" completely,
differing only in token type; used to witness C4. -/
def exactStateA : MatcherS :=
  .exact 2 0 true none [{ matching := true, target := ['a', 'b'] }] 6

/-- The later-registered twin of exactStateA with token type 9. -/
def exactStateB : MatcherS :=
  .exact 2 0 true none [{ matching := true, target := ['a', 'b'] }] 9

/-- Witness for C4 at a concrete input: at end-of-input after "ab", both
exact matchers produce a Matched token of the same length and precedence,
and the committed winner is the later-registered matcher's token (type 9). -/
theorem C4_witness :
    (feedMatchers none ['a', 'b'] [exactStateA, exactStateB]
        none 0 false).2.1 =
      some { value := ['a', 'b'], token_type := 9, len := 2, line := 0,
             column := 2, precedence := 0 } ∧
    IsLastMax (matchedList none ['a', 'b'] [exactStateA, exactStateB])
      { value := ['a', 'b'], token_type := 9, len := 2, line := 0,
        column := 2, precedence := 0 } :=
  ⟨by decide,
   (C4_precedence_selection none ['a', 'b'] [exactStateA, exactStateB]
      0 false).1 _ (by decide)⟩

/-! ## C1: the line/column walk at commit -/

/-- The reference single-pass walk of the spec (spec.md section 4.4),
transcribed from its words for comparison with the engine: every character
increments the column; a line feed resets column to 1 and increments the
line; a carriage return resets column to 1 and counts as one line boundary,
a CR immediately followed by LF counting as a single boundary (the `prevCR`
flag suppresses the line increment of an LF right after a CR). -/
def refWalk (ln col : Nat) (prevCR : Bool) : List Char → Nat × Nat
  | [] => (ln, col)
  | c :: rest =>
    if c = '\n' then
      if prevCR then refWalk ln 1 false rest
      else refWalk (ln + 1) 1 false rest
    else if c = '\r' then refWalk (ln + 1) 1 true rest
    else refWalk ln (col + 1) false rest

/-- The whitespace matcher's internal line/column fold
(src/matcher/whitespace.rs lines 61-91): the incremented column is computed
first, then a carriage return forces column 0 without touching the line,
and a line feed forces column 1 and increments the line. -/
def wsFold (ln col : Nat) : List Char → Nat × Nat
  | [] => (ln, col)
  | c :: rest =>
    if c = '\r' then wsFold ln 0 rest
    else if c = '\n' then wsFold (ln + 1) 1 rest
    else wsFold ln (col + 1) rest

/-- Every carriage return of the list is immediately followed by a line
feed. -/
def crPaired : List Char → Bool
  | [] => true
  | [c] => if c = '\r' then false else true
  | c :: c2 :: rest =>
    if c = '\r' then (if c2 = '\n' then crPaired rest else false)
    else crPaired (c2 :: rest)

theorem crPaired_cons_of_ne (c : Char) (rest : List Char) (hc : ¬c = '\r') :
    crPaired (c :: rest) = crPaired rest := by
  match rest with
  | [] => simp [crPaired, hc]
  | c2 :: rest2 => simp [crPaired, hc]

/-- Feed the chars of a list one at a time to a matcher, threading the
growing accumulator exactly as the get_token loop does. -/
def feedChars : MatcherS → List Char → List Char → MatcherS
  | m, _, [] => m
  | m, v, c :: rest =>
    feedChars (findMatch m (some c) (v ++ [c])).2 (v ++ [c]) rest

theorem feedChars_whitespace (cs : List Char) :
    ∀ (i col ln p : Nat) (v : List Char),
    (∀ c ∈ cs, rustIsWhitespace c = true) →
    feedChars (.whitespace i col ln p true) v cs =
      .whitespace (i + cs.length) (wsFold ln col cs).2 (wsFold ln col cs).1
        p true := by
  induction cs with
  | nil => intro i col ln p v h; simp [feedChars, wsFold]
  | cons c rest ih =>
    intro i col ln p v h
    have hc : rustIsWhitespace c = true := h c (List.mem_cons_self _ _)
    have hrest : ∀ x ∈ rest, rustIsWhitespace x = true :=
      fun x hx => h x (List.mem_cons_of_mem _ hx)
    unfold feedChars
    by_cases hcr : c = '\r'
    · subst hcr
      have hfm2 : (findMatch (MatcherS.whitespace i col ln p true)
          (some '\r') (v ++ ['\r'])).2 =
          MatcherS.whitespace (i + 1) 0 ln p true := by
        simp [findMatch, hc]
      rw [hfm2, ih (i + 1) 0 ln p (v ++ ['\r']) hrest]
      rw [show wsFold ln col ('\r' :: rest) = wsFold ln 0 rest from by
        simp [wsFold]]
      simp only [List.length_cons, MatcherS.whitespace.injEq, and_true]
      omega
    · by_cases hlf : c = '\n'
      · subst hlf
        have hfm2 : (findMatch (MatcherS.whitespace i col ln p true)
            (some '\n') (v ++ ['\n'])).2 =
            MatcherS.whitespace (i + 1) 1 (ln + 1) p true := by
          simp [findMatch, hc]
        rw [hfm2, ih (i + 1) 1 (ln + 1) p (v ++ ['\n']) hrest]
        rw [show wsFold ln col ('\n' :: rest) = wsFold (ln + 1) 1 rest from by
          simp [wsFold]]
        simp only [List.length_cons, MatcherS.whitespace.injEq, and_true]
        omega
      · have hfm2 : (findMatch (MatcherS.whitespace i col ln p true)
            (some c) (v ++ [c])).2 =
            MatcherS.whitespace (i + 1) (col + 1) ln p true := by
          simp [findMatch, hc, hcr, hlf]
        rw [hfm2, ih (i + 1) (col + 1) ln p (v ++ [c]) hrest]
        rw [show wsFold ln col (c :: rest) = wsFold ln (col + 1) rest from by
          simp [wsFold, hcr, hlf]]
        simp only [List.length_cons, MatcherS.whitespace.injEq, and_true]
        omega

theorem wsFold_refWalk_aux : ∀ (n : Nat) (cs : List Char), cs.length ≤ n →
    crPaired cs = true →
    ∃ d : Nat,
      (∀ a colA, wsFold a colA cs =
        (a + d, if d = 0 then colA + cs.length else (wsFold 0 0 cs).2)) ∧
      (∀ b colB, refWalk b colB false cs =
        (b + d, if d = 0 then colB + cs.length else (wsFold 0 0 cs).2)) := by
  intro n
  induction n with
  | zero =>
    intro cs hlen _
    have : cs = [] := List.length_eq_zero.mp (Nat.le_zero.mp hlen)
    subst this
    exact ⟨0, fun a colA => by simp [wsFold], fun b colB => by simp [refWalk]⟩
  | succ k ih =>
    intro cs hlen hcr
    match cs with
    | [] =>
      exact ⟨0, fun a colA => by simp [wsFold],
        fun b colB => by simp [refWalk]⟩
    | c :: rest =>
      by_cases hc : c = '\r'
      · subst hc
        match rest with
        | [] => simp [crPaired] at hcr
        | c2 :: rest2 =>
          by_cases hlf : c2 = '\n'
          · subst hlf
            have hcr2 : crPaired rest2 = true := by
              simpa [crPaired] using hcr
            have hlen2 : rest2.length ≤ k := by
              simp only [List.length_cons] at hlen; omega
            obtain ⟨d, hw, hr⟩ := ih rest2 hlen2 hcr2
            have hcol : (wsFold 0 0 ('\r' :: '\n' :: rest2)).2 =
                (if d = 0 then 1 + rest2.length
                 else (wsFold 0 0 rest2).2) := by
              rw [show wsFold 0 0 ('\r' :: '\n' :: rest2) =
                  wsFold 1 1 rest2 from by simp [wsFold]]
              rw [hw 1 1]
            refine ⟨d + 1, ?_, ?_⟩
            · intro a colA
              rw [show wsFold a colA ('\r' :: '\n' :: rest2) =
                  wsFold (a + 1) 1 rest2 from by simp [wsFold]]
              rw [hw (a + 1) 1, hcol, if_neg (Nat.succ_ne_zero d),
                Prod.mk.injEq]
              exact ⟨by omega, by simp⟩
            · intro b colB
              rw [show refWalk b colB false ('\r' :: '\n' :: rest2) =
                  refWalk (b + 1) 1 false rest2 from by simp [refWalk]]
              rw [hr (b + 1) 1, hcol, if_neg (Nat.succ_ne_zero d),
                Prod.mk.injEq]
              exact ⟨by omega, by simp⟩
          · exfalso
            simp [crPaired, hlf] at hcr
      · have hcr2 : crPaired rest = true := by
          rw [← crPaired_cons_of_ne c rest hc]; exact hcr
        have hlen2 : rest.length ≤ k := by
          simp only [List.length_cons] at hlen; omega
        obtain ⟨d, hw, hr⟩ := ih rest hlen2 hcr2
        by_cases hlf : c = '\n'
        · subst hlf
          have hcol : (wsFold 0 0 ('\n' :: rest)).2 =
              (if d = 0 then 1 + rest.length else (wsFold 0 0 rest).2) := by
            rw [show wsFold 0 0 ('\n' :: rest) = wsFold 1 1 rest from by
              simp [wsFold]]
            rw [hw 1 1]
          refine ⟨d + 1, ?_, ?_⟩
          · intro a colA
            rw [show wsFold a colA ('\n' :: rest) =
                wsFold (a + 1) 1 rest from by simp [wsFold]]
            rw [hw (a + 1) 1, hcol, if_neg (Nat.succ_ne_zero d),
              Prod.mk.injEq]
            exact ⟨by omega, by simp⟩
          · intro b colB
            rw [show refWalk b colB false ('\n' :: rest) =
                refWalk (b + 1) 1 false rest from by simp [refWalk]]
            rw [hr (b + 1) 1, hcol, if_neg (Nat.succ_ne_zero d),
              Prod.mk.injEq]
            exact ⟨by omega, by simp⟩
        · have hcol : (wsFold 0 0 (c :: rest)).2 =
              (if d = 0 then 1 + rest.length else (wsFold 0 0 rest).2) := by
            rw [show wsFold 0 0 (c :: rest) = wsFold 0 1 rest from by
              simp [wsFold, hc, hlf]]
            rw [hw 0 1]
          refine ⟨d, ?_, ?_⟩
          · intro a colA
            rw [show wsFold a colA (c :: rest) =
                wsFold a (colA + 1) rest from by simp [wsFold, hc, hlf]]
            rw [hw a (colA + 1), hcol]
            rcases Nat.eq_zero_or_pos d with hd | hd
            · subst hd
              simp only [if_pos rfl, List.length_cons, Prod.mk.injEq]
              refine ⟨trivial, ?_⟩
              rw [if_pos trivial, if_pos trivial]
              omega
            · rw [if_neg (Nat.pos_iff_ne_zero.mp hd),
                if_neg (Nat.pos_iff_ne_zero.mp hd),
                if_neg (Nat.pos_iff_ne_zero.mp hd)]
          · intro b colB
            rw [show refWalk b colB false (c :: rest) =
                refWalk b (colB + 1) false rest from by
              simp [refWalk, hc, hlf]]
            rw [hr b (colB + 1), hcol]
            rcases Nat.eq_zero_or_pos d with hd | hd
            · subst hd
              simp only [if_pos rfl, List.length_cons, Prod.mk.injEq]
              refine ⟨trivial, ?_⟩
              rw [if_pos trivial, if_pos trivial]
              omega
            · rw [if_neg (Nat.pos_iff_ne_zero.mp hd),
                if_neg (Nat.pos_iff_ne_zero.mp hd),
                if_neg (Nat.pos_iff_ne_zero.mp hd)]

theorem refWalk_no_newline : ∀ (cs : List Char),
    (∀ c ∈ cs, c ≠ '\n' ∧ c ≠ '\r') → ∀ (L C : Nat),
    refWalk L C false cs = (L, C + cs.length) := by
  intro cs
  induction cs with
  | nil => intro _ L C; simp [refWalk]
  | cons c rest ih =>
    intro h L C
    obtain ⟨hlf, hcr⟩ := h c (List.mem_cons_self _ _)
    rw [show refWalk L C false (c :: rest) = refWalk L (C + 1) false rest
      from by simp [refWalk, hlf, hcr]]
    rw [ih (fun x hx => h x (List.mem_cons_of_mem _ hx)) L (C + 1)]
    simp only [List.length_cons, Prod.mk.injEq]
    exact ⟨by simp, by omega⟩

/-- A lexer over "a\rb" with the word and whitespace matchers, used as the
C1 counterexample. -/
def lexC1 : Lexxor := Lexxor.new 8 ['a', '\r', 'b'] [stdWord, stdWhitespace]

/-- C1 counterexample: tokenizing "a\rb", the token 'b' is emitted at
line 1 column 2, but the reference walk of the previously committed chars
"a\r" from (1,1) gives (2,1) — a lone carriage return is not a line
boundary for the engine (the whitespace matcher leaves the line count
untouched and reports column 0), contradicting the claimed walk. -/
theorem C1_counterexample :
    ((nextTokens 3 lexC1).map fun p =>
      p.1.map fun t => (t.value, t.line, t.column)) =
      some [(['a'], 1, 1), (['\r'], 1, 2), (['b'], 1, 2)] ∧
    refWalk 1 1 false ['a', '\r'] = (2, 1) := by
  exact ⟨by decide, by decide⟩

/-- C1 (amended): the commit advance (src/lib.rs lines 312-321) agrees with
the spec's reference walk only conditionally. (i) For a committed
whitespace run in which every carriage return is immediately followed by a
line feed, feeding the run to a fresh WhitespaceMatcher and committing the
token it reports advances the engine's line/column to exactly the reference
walk of the run. (ii) For a token reporting no line movement and a column
equal to its length (as the word, symbol, integer, float, exact and keyword
generators produce), the advance equals the reference walk of any
newline-free committed value. A lone carriage return breaks the
correspondence: the matcher records column 0 and no line increment (see the
counterexample). -/
theorem C1_commit_advance_walk :
    (∀ (st : EngineCore) (cs : List Char) (t : Token) (m1 : MatcherS),
      (∀ c ∈ cs, rustIsWhitespace c = true) → crPaired cs = true →
      findMatch (feedChars stdWhitespace [] cs) none cs = (.Matched t, m1) →
      ((commitAdvance st t).2.line, (commitAdvance st t).2.column) =
        refWalk st.line st.column false cs) ∧
    (∀ (st : EngineCore) (cs : List Char) (t : Token),
      t.line = 0 → t.column = cs.length →
      (∀ c ∈ cs, c ≠ '\n' ∧ c ≠ '\r') →
      ((commitAdvance st t).2.line, (commitAdvance st t).2.column) =
        refWalk st.line st.column false cs) := by
  constructor
  · intro st cs t m1 hws hcr hmatch
    rw [show stdWhitespace = MatcherS.whitespace 0 0 0 0 true from rfl]
      at hmatch
    rw [feedChars_whitespace cs 0 0 0 0 [] hws] at hmatch
    simp only [findMatch, Prod.mk.injEq] at hmatch
    obtain ⟨h1, -⟩ := hmatch
    rw [generateWhitespaceToken] at h1
    obtain ⟨d, hw, hr⟩ := wsFold_refWalk_aux cs.length cs le_rfl hcr
    have hw00 := hw 0 0
    split at h1
    · cases h1
      rcases Nat.eq_zero_or_pos d with hd | hd
      · subst hd
        have hl : (wsFold 0 0 cs).1 = 0 := by rw [hw00]
        have hc0 : (wsFold 0 0 cs).2 = cs.length := by rw [hw00]; simp
        simp only [commitAdvance, hl, Nat.lt_irrefl, if_false]
        rw [hc0, hr st.line st.column, if_pos rfl, Prod.mk.injEq]
        exact ⟨by omega, by simp⟩
      · have hl : (wsFold 0 0 cs).1 = d := by rw [hw00]; simp
        simp only [commitAdvance, hl, hd, if_pos, if_true]
        rw [hr st.line st.column, if_neg (Nat.pos_iff_ne_zero.mp hd),
          Prod.mk.injEq]
        exact ⟨by simp, by simp⟩
    · cases h1
  · intro st cs t hline hcol hnn
    rw [refWalk_no_newline cs hnn st.line st.column]
    simp only [commitAdvance, hline, Nat.lt_irrefl, if_false]
    rw [hcol, Prod.mk.injEq]
    exact ⟨by simp, by simp⟩

/-- An engine state at line 5, column 7, used to witness C1. -/
def stC1 : EngineCore :=
  { matchers := [], input := [], cap := 4, cache := [], value := [],
    found_token := none, line := 5, column := 7 }

/-- The token a fresh WhitespaceMatcher reports for the run CR LF SPACE. -/
def tC1 : Token :=
  { value := ['\r', '\n', ' '], token_type := 3, len := 3, line := 1,
    column := 2, precedence := 0 }

/-- A word-style token over "ab": no line movement, column = length. -/
def tC1plain : Token :=
  { value := ['a', 'b'], token_type := 4, len := 2, line := 0, column := 2,
    precedence := 0 }

/-- Witness for the amended C1 at concrete inputs: committing the
CR LF SPACE whitespace run from (5,7) lands on (6,2), the reference walk's
answer, and committing a two-char word token from (5,7) lands on (5,9),
again the reference walk's answer. -/
theorem C1_witness :
    ((∀ c ∈ ['\r', '\n', ' '], rustIsWhitespace c = true) ∧
      crPaired ['\r', '\n', ' '] = true ∧
      refWalk 5 7 false ['\r', '\n', ' '] = (6, 2) ∧
      refWalk 5 7 false ['a', 'b'] = (5, 9)) ∧
    ((commitAdvance stC1 tC1).2.line, (commitAdvance stC1 tC1).2.column) =
      refWalk 5 7 false ['\r', '\n', ' '] ∧
    ((commitAdvance stC1 tC1plain).2.line,
      (commitAdvance stC1 tC1plain).2.column) =
      refWalk 5 7 false ['a', 'b'] :=
  ⟨⟨by decide, by decide, by decide, by decide⟩,
   C1_commit_advance_walk.1 stC1 ['\r', '\n', ' '] tC1
     (.whitespace 3 2 1 0 false) (by decide) (by decide) (by decide),
   C1_commit_advance_walk.2 stC1 ['a', 'b'] tC1plain rfl rfl (by decide)⟩

/-! ## Matcher invariants: candidate tokens are prefixes of the
accumulator -/

/-- The relation between a matcher-generated candidate token and the
accumulator it was generated from: the token value is the length-`len`
prefix of the accumulator. -/
def TokPre (tk : Token) (v : List Char) : Prop :=
  tk.value = v.take tk.len ∧ tk.len ≤ v.length

/-- A recorded found index of an exact or keyword matcher names a target
that is a prefix of the accumulator. -/
def FoundOK (found : Option Nat) (tgs : List Target) (v : List Char) :
    Prop :=
  ∀ f, found = some f → ∃ tg, tgs.get? f = some tg ∧
    tg.target = v.take tg.target.length ∧ tg.target.length ≤ v.length

/-- All targets consist of 1-byte (ASCII) chars; exactly then the keyword
matcher's byte-length len coincides with the char count of its value. -/
def asciiTargets (tgs : List Target) : Prop :=
  ∀ tg ∈ tgs, ∀ ch ∈ tg.target, ch.utf8Size = 1

theorem utf8Len_eq_length (cs : List Char)
    (h : ∀ ch ∈ cs, ch.utf8Size = 1) : utf8Len cs = cs.length := by
  induction cs with
  | nil => rfl
  | cons c rest ih =>
    simp only [utf8Len, List.map_cons, List.sum_cons]
    rw [h c (List.mem_cons_self c rest)]
    have hr := ih (fun ch hch => h ch (List.mem_cons_of_mem c hch))
    simp only [utf8Len] at hr
    rw [hr]
    simp only [List.length_cons]
    omega

/-- Goodness of a running matcher state relative to the chars already fed
to it: the index counts exactly the fed chars; every still-matching target
of an exact or keyword matcher starts with the fed chars; a recorded found
index names a target that is a prefix of the fed chars; a keyword
matcher's targets are ASCII, so that its byte-length len is the char
count. -/
def MOK (v : List Char) : MatcherS → Prop
  | .word i _ _ => i = v.length
  | .whitespace i _ _ _ _ => i = v.length
  | .symbol i _ _ => i = v.length
  | .integer i _ _ => i = v.length
  | .float i _ _ _ _ => i = v.length
  | .exact i _ _ found tgs _ => i = v.length ∧
      (∀ tg ∈ tgs, tg.matching = true → tg.target.take i = v) ∧
      FoundOK found tgs v
  | .keyword i _ _ found tgs _ => i = v.length ∧
      (∀ tg ∈ tgs, tg.matching = true → tg.target.take i = v) ∧
      FoundOK found tgs v ∧ asciiTargets tgs

/-- The exact and keyword matchers carry a nonzero configured token type;
the five fixed matchers always stamp a nonzero constant. -/
def MTy : MatcherS → Prop
  | .exact _ _ _ _ _ tt => tt ≠ 0
  | .keyword _ _ _ _ _ tt => tt ≠ 0
  | _ => True

/-- The ASCII-targets restriction at matcher level: it constrains only
keyword matchers, whose len is the UTF-8 byte length of the matched
target. -/
def MAscii : MatcherS → Prop
  | .keyword _ _ _ _ tgs _ => asciiTargets tgs
  | _ => True

theorem take_append_le {α : Type} (l₁ l₂ : List α) (n : Nat)
    (h : n ≤ l₁.length) : (l₁ ++ l₂).take n = l₁.take n := by
  rw [List.take_append_eq_append_take, Nat.sub_eq_zero_of_le h]
  simp

theorem TokPre_append (tk : Token) (v w : List Char) (h : TokPre tk v) :
    TokPre tk (v ++ w) := by
  obtain ⟨h1, h2⟩ := h
  refine ⟨?_, by simp; omega⟩
  rw [h1, take_append_le v w tk.len h2]

theorem FoundOK_append (found : Option Nat) (tgs : List Target)
    (v w : List Char) (h : FoundOK found tgs v) :
    FoundOK found tgs (v ++ w) := by
  intro f hf
  obtain ⟨tg, hg, hpre, hlen⟩ := h f hf
  refine ⟨tg, hg, ?_, by simp; omega⟩
  rw [take_append_le v w tg.target.length hlen]
  exact hpre

/-- The per-target update of one exact or keyword scan step at index `i`
with char `c`: a target survives exactly when it was matching and its char
at `i` is `c`. -/
def exactStep (c : Char) (i : Nat) (tg : Target) : Target :=
  if tg.matching = true ∧ tg.target.get? i = some c then tg
  else { tg with matching := false }

theorem exactStep_of_not_matching (c : Char) (i : Nat) (tg : Target)
    (h : ¬tg.matching = true) : exactStep c i tg = tg := by
  obtain ⟨mt, ts⟩ := tg
  simp only [Bool.not_eq_true] at h
  subst h
  rfl

theorem exactScanChar_fst (c : Char) (i : Nat) : ∀ (tgs : List Target)
    (pos : Nat) (r : Bool) (fnd : Option Nat),
    (exactScanChar c i tgs pos r fnd).1 = tgs.map (exactStep c i) := by
  intro tgs
  induction tgs with
  | nil => intro pos r fnd; rfl
  | cons tg rest ih =>
    intro pos r fnd
    simp only [exactScanChar, List.map_cons]
    by_cases hm : tg.matching = true
    · rw [if_pos hm]
      cases hg : tg.target.get? i with
      | some m =>
        dsimp only
        have hs : exactStep c i tg =
            if m = c then tg else { tg with matching := false } := by
          unfold exactStep
          rw [hg]
          by_cases hmc : m = c
          · rw [if_pos hmc, if_pos ⟨hm, by rw [hmc]⟩]
          · rw [if_neg hmc, if_neg (fun hc => hmc (Option.some_inj.mp hc.2))]
        rw [hs]
        by_cases hmc : m = c
        · rw [if_pos hmc, if_pos hmc]
          dsimp only
          rw [ih (pos + 1) true fnd]
        · rw [if_neg hmc, if_neg hmc]
          dsimp only
          rw [ih (pos + 1) r fnd]
      | none =>
        dsimp only
        have hs : exactStep c i tg = { tg with matching := false } := by
          unfold exactStep
          rw [hg]
          exact if_neg (fun hc => Option.noConfusion hc.2)
        rw [hs, ih (pos + 1) r _]
    · rw [if_neg hm]
      dsimp only
      rw [ih (pos + 1) r fnd, exactStep_of_not_matching c i tg hm]

theorem exactScanChar_found (c : Char) (i : Nat) : ∀ (tgs : List Target)
    (pos : Nat) (r : Bool) (fnd : Option Nat) (f : Nat),
    (exactScanChar c i tgs pos r fnd).2.2 = some f →
    fnd = some f ∨ ∃ j tg, f = pos + j ∧ tgs.get? j = some tg ∧
      tg.matching = true ∧ tg.target.get? i = none ∧ 0 < i := by
  intro tgs
  induction tgs with
  | nil => intro pos r fnd f h; exact Or.inl h
  | cons tg rest ih =>
    intro pos r fnd f h
    simp only [exactScanChar] at h
    by_cases hm : tg.matching = true
    · rw [if_pos hm] at h
      cases hg : tg.target.get? i with
      | some m =>
        rw [hg] at h
        dsimp only at h
        by_cases hmc : m = c
        · rw [if_pos hmc] at h
          dsimp only at h
          rcases ih (pos + 1) true fnd f h with h1 | ⟨j, tg2, hj, hget, h3⟩
          · exact Or.inl h1
          · exact Or.inr ⟨j + 1, tg2, by omega, by simpa using hget, h3⟩
        · rw [if_neg hmc] at h
          dsimp only at h
          rcases ih (pos + 1) r fnd f h with h1 | ⟨j, tg2, hj, hget, h3⟩
          · exact Or.inl h1
          · exact Or.inr ⟨j + 1, tg2, by omega, by simpa using hget, h3⟩
      | none =>
        rw [hg] at h
        dsimp only at h
        by_cases hi : 0 < i
        · rw [if_pos hi] at h
          rcases ih (pos + 1) r (some pos) f h with h1 | ⟨j, tg2, hj, hget, h3⟩
          · cases h1
            exact Or.inr ⟨0, tg, by omega, rfl, hm, hg, hi⟩
          · exact Or.inr ⟨j + 1, tg2, by omega, by simpa using hget, h3⟩
        · rw [if_neg hi] at h
          rcases ih (pos + 1) r fnd f h with h1 | ⟨j, tg2, hj, hget, h3⟩
          · exact Or.inl h1
          · exact Or.inr ⟨j + 1, tg2, by omega, by simpa using hget, h3⟩
    · rw [if_neg hm] at h
      dsimp only at h
      rcases ih (pos + 1) r fnd f h with h1 | ⟨j, tg2, hj, hget, h3⟩
      · exact Or.inl h1
      · exact Or.inr ⟨j + 1, tg2, by omega, by simpa using hget, h3⟩

theorem exactScanEof_found (i : Nat) : ∀ (tgs : List Target) (pos : Nat)
    (fnd : Option Nat) (f : Nat),
    exactScanEof i tgs pos fnd = some f →
    fnd = some f ∨ ∃ j tg, f = pos + j ∧ tgs.get? j = some tg ∧
      tg.matching = true ∧ tg.target.get? i = none := by
  intro tgs
  induction tgs with
  | nil => intro pos fnd f h; exact Or.inl h
  | cons tg rest ih =>
    intro pos fnd f h
    simp only [exactScanEof] at h
    by_cases hb : (tg.matching && (tg.target.get? i).isNone) = true
    · rw [if_pos hb] at h
      have hb2 : tg.matching = true ∧ tg.target.get? i = none := by
        simpa [Option.isNone_iff_eq_none] using hb
      rcases ih (pos + 1) (some pos) f h with h1 | ⟨j, tg2, hj, hget, h3⟩
      · cases h1
        exact Or.inr ⟨0, tg, by omega, rfl, hb2.1, hb2.2⟩
      · exact Or.inr ⟨j + 1, tg2, by omega, by simpa using hget, h3⟩
    · rw [if_neg hb] at h
      rcases ih (pos + 1) fnd f h with h1 | ⟨j, tg2, hj, hget, h3⟩
      · exact Or.inl h1
      · exact Or.inr ⟨j + 1, tg2, by omega, by simpa using hget, h3⟩

theorem keywordScanChar_fst (c : Char) (i : Nat) : ∀ (tgs : List Target)
    (pos : Nat) (r : Bool) (fnd : Option Nat) (fp : Bool),
    (keywordScanChar c i tgs pos r fnd fp).1 = tgs.map (exactStep c i) := by
  intro tgs
  induction tgs with
  | nil => intro pos r fnd fp; rfl
  | cons tg rest ih =>
    intro pos r fnd fp
    simp only [keywordScanChar, List.map_cons]
    by_cases hm : tg.matching = true
    · rw [if_pos hm]
      cases hg : tg.target.get? i with
      | none =>
        dsimp only
        have hs : exactStep c i tg = { tg with matching := false } := by
          unfold exactStep
          rw [hg]
          exact if_neg (fun hc => Option.noConfusion hc.2)
        by_cases hcond : 0 < i ∧ rustIsAlphanumeric c = false
        · rw [if_pos hcond]
          dsimp only
          rw [ih (pos + 1) r (some pos) true, hs]
        · rw [if_neg hcond]
          dsimp only
          rw [ih (pos + 1) r fnd fp, hs]
      | some m =>
        dsimp only
        have hs : exactStep c i tg =
            if m = c then tg else { tg with matching := false } := by
          unfold exactStep
          rw [hg]
          by_cases hmc : m = c
          · rw [if_pos hmc, if_pos ⟨hm, by rw [hmc]⟩]
          · rw [if_neg hmc, if_neg (fun hc => hmc (Option.some_inj.mp hc.2))]
        rw [hs]
        by_cases hmc : m = c
        · rw [if_pos hmc, if_pos hmc]
          dsimp only
          rw [ih (pos + 1) true fnd fp]
        · rw [if_neg hmc, if_neg hmc]
          dsimp only
          rw [ih (pos + 1) r fnd fp]
    · rw [if_neg hm]
      dsimp only
      rw [ih (pos + 1) r fnd fp, exactStep_of_not_matching c i tg hm]

theorem keywordScanChar_found (c : Char) (i : Nat) : ∀ (tgs : List Target)
    (pos : Nat) (r : Bool) (fnd : Option Nat) (fp : Bool) (f : Nat),
    (keywordScanChar c i tgs pos r fnd fp).2.2.1 = some f →
    fnd = some f ∨ ∃ j tg, f = pos + j ∧ tgs.get? j = some tg ∧
      tg.matching = true ∧ tg.target.get? i = none ∧ 0 < i := by
  intro tgs
  induction tgs with
  | nil => intro pos r fnd fp f h; exact Or.inl h
  | cons tg rest ih =>
    intro pos r fnd fp f h
    simp only [keywordScanChar] at h
    by_cases hm : tg.matching = true
    · rw [if_pos hm] at h
      cases hg : tg.target.get? i with
      | none =>
        rw [hg] at h
        dsimp only at h
        by_cases hcond : 0 < i ∧ rustIsAlphanumeric c = false
        · rw [if_pos hcond] at h
          rcases ih (pos + 1) r (some pos) true f h with
            h1 | ⟨j, tg2, hj, hget, h3⟩
          · cases h1
            exact Or.inr ⟨0, tg, by omega, rfl, hm, hg, hcond.1⟩
          · exact Or.inr ⟨j + 1, tg2, by omega, by simpa using hget, h3⟩
        · rw [if_neg hcond] at h
          rcases ih (pos + 1) r fnd fp f h with h1 | ⟨j, tg2, hj, hget, h3⟩
          · exact Or.inl h1
          · exact Or.inr ⟨j + 1, tg2, by omega, by simpa using hget, h3⟩
      | some m =>
        rw [hg] at h
        dsimp only at h
        by_cases hmc : m = c
        · rw [if_pos hmc] at h
          dsimp only at h
          rcases ih (pos + 1) true fnd fp f h with h1 | ⟨j, tg2, hj, hget, h3⟩
          · exact Or.inl h1
          · exact Or.inr ⟨j + 1, tg2, by omega, by simpa using hget, h3⟩
        · rw [if_neg hmc] at h
          dsimp only at h
          rcases ih (pos + 1) r fnd fp f h with h1 | ⟨j, tg2, hj, hget, h3⟩
          · exact Or.inl h1
          · exact Or.inr ⟨j + 1, tg2, by omega, by simpa using hget, h3⟩
    · rw [if_neg hm] at h
      dsimp only at h
      rcases ih (pos + 1) r fnd fp f h with h1 | ⟨j, tg2, hj, hget, h3⟩
      · exact Or.inl h1
      · exact Or.inr ⟨j + 1, tg2, by omega, by simpa using hget, h3⟩

theorem keywordScanEof_found (i : Nat) : ∀ (tgs : List Target) (pos : Nat)
    (fnd : Option Nat) (f : Nat),
    keywordScanEof i tgs pos fnd = some f →
    fnd = some f ∨ ∃ j tg, f = pos + j ∧ tgs.get? j = some tg ∧
      tg.matching = true ∧ tg.target.get? i = none := by
  intro tgs
  induction tgs with
  | nil => intro pos fnd f h; exact Or.inl h
  | cons tg rest ih =>
    intro pos fnd f h
    simp only [keywordScanEof] at h
    by_cases hb : (tg.matching && (tg.target.get? i).isNone) = true
    · rw [if_pos hb] at h
      have hb2 : tg.matching = true ∧ tg.target.get? i = none := by
        simpa [Option.isNone_iff_eq_none] using hb
      cases h
      exact Or.inr ⟨0, tg, by omega, rfl, hb2.1, hb2.2⟩
    · rw [if_neg hb] at h
      rcases ih (pos + 1) fnd f h with h1 | ⟨j, tg2, hj, hget, h3⟩
      · exact Or.inl h1
      · exact Or.inr ⟨j + 1, tg2, by omega, by simpa using hget, h3⟩

theorem generateExactToken_TokPre (fnd : Option Nat) (tgs : List Target)
    (tt p : Nat) (w : List Char) (tk : Token)
    (hf : FoundOK fnd tgs w)
    (h : generateExactToken fnd tgs tt p = .Matched tk) : TokPre tk w := by
  match fnd with
  | none =>
    rw [generateExactToken] at h
    exact absurd h (fun hc => MatcherResult.noConfusion hc)
  | some f =>
    obtain ⟨tg, hg, hpre, hlen⟩ := hf f rfl
    rw [generateExactToken] at h
    have hgd : tgs.getD f { matching := true, target := [] } = tg := by
      rw [List.getD_eq_getElem?_getD, ← List.get?_eq_getElem?, hg]
      rfl
    rw [hgd] at h
    cases h
    exact ⟨hpre, hlen⟩

theorem generateExactToken_type (fnd : Option Nat) (tgs : List Target)
    (tt p : Nat) (tk : Token)
    (h : generateExactToken fnd tgs tt p = .Matched tk) :
    tk.token_type = tt := by
  match fnd with
  | none =>
    rw [generateExactToken] at h
    exact absurd h (fun hc => MatcherResult.noConfusion hc)
  | some f =>
    rw [generateExactToken] at h
    cases h
    rfl

/-- On ASCII targets the keyword matcher's byte-length len equals the char
count, so its Matched token is again a length-len prefix of the
accumulator. -/
theorem generateKeywordToken_TokPre (fnd : Option Nat) (tgs : List Target)
    (tt p : Nat) (w : List Char) (tk : Token)
    (hf : FoundOK fnd tgs w) (hasc : asciiTargets tgs)
    (h : generateKeywordToken fnd tgs tt p = .Matched tk) : TokPre tk w := by
  match fnd with
  | none =>
    rw [generateKeywordToken] at h
    exact absurd h (fun hc => MatcherResult.noConfusion hc)
  | some f =>
    obtain ⟨tg, hg, hpre, hlen⟩ := hf f rfl
    rw [generateKeywordToken] at h
    have hgd : tgs.getD f { matching := true, target := [] } = tg := by
      rw [List.getD_eq_getElem?_getD, ← List.get?_eq_getElem?, hg]
      rfl
    rw [hgd] at h
    cases h
    have hu : utf8Len tg.target = tg.target.length :=
      utf8Len_eq_length tg.target (hasc tg (List.get?_mem hg))
    refine ⟨?_, ?_⟩
    · show tg.target = w.take (utf8Len tg.target)
      rw [hu]
      exact hpre
    · show utf8Len tg.target ≤ w.length
      rw [hu]
      exact hlen

theorem generateKeywordToken_type (fnd : Option Nat) (tgs : List Target)
    (tt p : Nat) (tk : Token)
    (h : generateKeywordToken fnd tgs tt p = .Matched tk) :
    tk.token_type = tt := by
  match fnd with
  | none =>
    rw [generateKeywordToken] at h
    exact absurd h (fun hc => MatcherResult.noConfusion hc)
  | some f =>
    rw [generateKeywordToken] at h
    cases h
    rfl

theorem generateKeywordToken_run (fnd : Option Nat) (tgs : List Target)
    (tt p : Nat) (h : generateKeywordToken fnd tgs tt p = .Running) :
    False := by
  unfold generateKeywordToken at h
  match fnd, h with
  | none, h => cases h
  | some f, h => cases h

theorem generateWordToken_matched (i p : Nat) (w : List Char) (tk : Token)
    (h : generateWordToken i p w = .Matched tk) :
    tk.value = w.take i ∧ tk.len = i ∧ tk.token_type = TOKEN_TYPE_WORD ∧
      tk.line = 0 ∧ tk.column = i ∧ 0 < i := by
  unfold generateWordToken at h
  split at h
  · cases h
    exact ⟨rfl, rfl, rfl, rfl, rfl, by assumption⟩
  · cases h

theorem generateWordToken_run (i p : Nat) (w : List Char)
    (h : generateWordToken i p w = .Running) : False := by
  unfold generateWordToken at h
  split at h <;> cases h

theorem generateWhitespaceToken_matched (i ln col p : Nat) (w : List Char)
    (tk : Token) (h : generateWhitespaceToken i ln col p w = .Matched tk) :
    tk.value = w.take i ∧ tk.len = i ∧
      tk.token_type = TOKEN_TYPE_WHITESPACE ∧ 0 < i := by
  unfold generateWhitespaceToken at h
  split at h
  · cases h
    exact ⟨rfl, rfl, rfl, by assumption⟩
  · cases h

theorem generateWhitespaceToken_run (i ln col p : Nat) (w : List Char)
    (h : generateWhitespaceToken i ln col p w = .Running) : False := by
  unfold generateWhitespaceToken at h
  split at h <;> cases h

theorem generateSymbolToken_matched (i p : Nat) (w : List Char) (tk : Token)
    (h : generateSymbolToken i p w = .Matched tk) :
    tk.value = w.take i ∧ tk.len = i ∧ tk.token_type = TOKEN_TYPE_SYMBOL ∧
      0 < i := by
  unfold generateSymbolToken at h
  split at h
  · cases h
    exact ⟨rfl, rfl, rfl, by assumption⟩
  · cases h

theorem generateSymbolToken_run (i p : Nat) (w : List Char)
    (h : generateSymbolToken i p w = .Running) : False := by
  unfold generateSymbolToken at h
  split at h <;> cases h

theorem generateIntegerToken_matched (i p : Nat) (w : List Char) (tk : Token)
    (h : generateIntegerToken i p w = .Matched tk) :
    tk.value = w.take i ∧ tk.len = i ∧ tk.token_type = TOKEN_TYPE_INTEGER ∧
      0 < i := by
  unfold generateIntegerToken at h
  split at h
  · cases h
    exact ⟨rfl, rfl, rfl, by assumption⟩
  · cases h

theorem generateIntegerToken_run (i p : Nat) (w : List Char)
    (h : generateIntegerToken i p w = .Running) : False := by
  unfold generateIntegerToken at h
  split at h <;> cases h

theorem generateFloatToken_matched (i : Nat) (flt : Bool) (p : Nat)
    (w : List Char) (tk : Token)
    (h : generateFloatToken i flt p w = .Matched tk) :
    tk.value = w.take i ∧ tk.len = i ∧ tk.token_type = TOKEN_TYPE_FLOAT ∧
      0 < i := by
  unfold generateFloatToken at h
  split at h
  · cases h
    rename_i hc
    exact ⟨rfl, rfl, rfl, hc.1⟩
  · cases h

theorem generateFloatToken_run (i : Nat) (flt : Bool) (p : Nat)
    (w : List Char) (h : generateFloatToken i flt p w = .Running) : False := by
  unfold generateFloatToken at h
  split at h <;> cases h

theorem generateExactToken_run (fnd : Option Nat) (tgs : List Target)
    (tt p : Nat) (h : generateExactToken fnd tgs tt p = .Running) :
    False := by
  unfold generateExactToken at h
  match fnd, h with
  | none, h => cases h
  | some f, h => cases h

/-- A findMatch call that does not report Running leaves the matcher
stopped. -/
theorem findMatch_stop (m m1 : MatcherS) (c : Option Char) (w : List Char)
    (res : MatcherResult) (h : findMatch m c w = (res, m1)) :
    res = .Running ∨ m1.is_running = false := by
  match m with
  | .word i p r =>
    simp only [findMatch] at h
    match c with
    | some ch =>
      dsimp only at h
      split at h
      · cases h; exact Or.inl rfl
      · cases h; exact Or.inr rfl
    | none => cases h; exact Or.inr rfl
  | .whitespace i col ln p r =>
    simp only [findMatch] at h
    match c with
    | some ch =>
      dsimp only at h
      split at h
      · cases h; exact Or.inl rfl
      · cases h; exact Or.inr rfl
    | none => cases h; exact Or.inr rfl
  | .symbol i p r =>
    simp only [findMatch] at h
    match c with
    | some ch =>
      dsimp only at h
      split at h
      · cases h; exact Or.inl rfl
      · cases h; exact Or.inr rfl
    | none => cases h; exact Or.inr rfl
  | .integer i p r =>
    simp only [findMatch] at h
    match c with
    | some ch =>
      dsimp only at h
      split at h
      · cases h; exact Or.inl rfl
      · cases h; exact Or.inr rfl
    | none => cases h; exact Or.inr rfl
  | .float i p dot flt r =>
    simp only [findMatch] at h
    match c with
    | some ch =>
      dsimp only at h
      split at h
      · cases h; exact Or.inl rfl
      · split at h
        · cases h; exact Or.inl rfl
        · cases h; exact Or.inr rfl
    | none => cases h; exact Or.inr rfl
  | .exact i p r fnd tgs tt =>
    simp only [findMatch] at h
    match c with
    | some ch =>
      dsimp only at h
      split at h
      · cases h; exact Or.inl rfl
      · cases h; exact Or.inr rfl
    | none => cases h; exact Or.inr rfl
  | .keyword i p r fnd tgs tt =>
    simp only [findMatch] at h
    match c with
    | some ch =>
      dsimp only at h
      split at h
      · cases h; exact Or.inr rfl
      · split at h
        · cases h; exact Or.inr rfl
        · split at h
          · cases h; exact Or.inl rfl
          · cases h; exact Or.inr rfl
    | none => cases h; exact Or.inr rfl

theorem exactStep_target (c : Char) (i : Nat) (tg : Target) :
    (exactStep c i tg).target = tg.target := by
  unfold exactStep
  split <;> rfl

theorem asciiTargets_map_exactStep (c : Char) (i : Nat) (tgs : List Target)
    (h : asciiTargets tgs) : asciiTargets (tgs.map (exactStep c i)) := by
  intro tg hg ch hch
  obtain ⟨tg0, hg0, heq⟩ := List.mem_map.mp hg
  rw [← heq, exactStep_target] at hch
  exact h tg0 hg0 ch hch

theorem asciiTargets_map_reset (tgs : List Target) (h : asciiTargets tgs) :
    asciiTargets (tgs.map fun t => { t with matching := true }) := by
  intro tg hg ch hch
  obtain ⟨tg0, hg0, heq⟩ := List.mem_map.mp hg
  rw [← heq] at hch
  exact h tg0 hg0 ch hch

theorem target_eq_of_exhausted (tg : Target) (v : List Char) (i : Nat)
    (hi : i = v.length) (hmt : tg.target.take i = v)
    (hg : tg.target.get? i = none) : tg.target = v := by
  have hlen : tg.target.length ≤ i := List.get?_eq_none.mp hg
  rw [← hmt]
  exact (List.take_of_length_le hlen).symm

theorem take_append_self (v w : List Char) : (v ++ w).take v.length = v := by
  rw [take_append_le v w v.length le_rfl, List.take_length]

theorem exactStep_targets_inv (c : Char) (v : List Char) (i : Nat)
    (tgs : List Target) (hi : i = v.length)
    (hmt : ∀ tg ∈ tgs, tg.matching = true → tg.target.take i = v) :
    ∀ tg2 ∈ tgs.map (exactStep c i), tg2.matching = true →
      tg2.target.take (i + 1) = v ++ [c] := by
  intro tg2 hmem hm2
  obtain ⟨tg, htg, hstep⟩ := List.mem_map.mp hmem
  by_cases hcond : tg.matching = true ∧ tg.target.get? i = some c
  · rw [show exactStep c i tg = tg from if_pos hcond] at hstep
    subst hstep
    rw [List.take_succ, hmt _ htg hcond.1, ← List.get?_eq_getElem?,
      hcond.2]
    rfl
  · rw [show exactStep c i tg = { tg with matching := false } from
      if_neg hcond] at hstep
    subst hstep
    simp at hm2

theorem exactScan_FoundOK (c : Char) (v : List Char) (i : Nat)
    (tgs : List Target) (fnd : Option Nat) (hi : i = v.length)
    (hmt : ∀ tg ∈ tgs, tg.matching = true → tg.target.take i = v)
    (hfo : FoundOK fnd tgs v) :
    FoundOK (exactScanChar c i tgs 0 false fnd).2.2
      (exactScanChar c i tgs 0 false fnd).1 (v ++ [c]) := by
  intro f hf
  rcases exactScanChar_found c i tgs 0 false fnd f hf with
    hc | ⟨j, tg, hj, hget, hmtg, hnone, hi0⟩
  · obtain ⟨tg, hg, hpre, hlen⟩ := hfo f hc
    refine ⟨exactStep c i tg, ?_, ?_, ?_⟩
    · rw [exactScanChar_fst, List.get?_map, hg]
      rfl
    · rw [exactStep_target, take_append_le v [c] tg.target.length hlen]
      exact hpre
    · rw [exactStep_target]
      simp only [List.length_append, List.length_cons, List.length_nil]
      omega
  · have hfj : f = j := by omega
    subst hfj
    have htv : tg.target = v := target_eq_of_exhausted tg v i hi
      (hmt tg (List.get?_mem hget) hmtg) hnone
    refine ⟨exactStep c i tg, ?_, ?_, ?_⟩
    · rw [exactScanChar_fst, List.get?_map, hget]
      rfl
    · rw [exactStep_target, htv, take_append_self]
    · rw [exactStep_target, htv]
      simp

theorem exactScanEof_FoundOK (v : List Char) (i : Nat) (tgs : List Target)
    (fnd : Option Nat) (hi : i = v.length)
    (hmt : ∀ tg ∈ tgs, tg.matching = true → tg.target.take i = v)
    (hfo : FoundOK fnd tgs v) :
    FoundOK (exactScanEof i tgs 0 fnd) tgs v := by
  intro f hf
  rcases exactScanEof_found i tgs 0 fnd f hf with
    hc | ⟨j, tg, hj, hget, hmtg, hnone⟩
  · exact hfo f hc
  · have hfj : f = j := by omega
    subst hfj
    have htv : tg.target = v := target_eq_of_exhausted tg v i hi
      (hmt tg (List.get?_mem hget) hmtg) hnone
    exact ⟨tg, hget, by rw [htv, List.take_length], by rw [htv]⟩

theorem keywordScan_FoundOK (c : Char) (v : List Char) (i : Nat)
    (tgs : List Target) (fnd : Option Nat) (hi : i = v.length)
    (hmt : ∀ tg ∈ tgs, tg.matching = true → tg.target.take i = v)
    (hfo : FoundOK fnd tgs v) :
    FoundOK (keywordScanChar c i tgs 0 false fnd false).2.2.1
      (keywordScanChar c i tgs 0 false fnd false).1 (v ++ [c]) := by
  intro f hf
  rcases keywordScanChar_found c i tgs 0 false fnd false f hf with
    hc | ⟨j, tg, hj, hget, hmtg, hnone, hi0⟩
  · obtain ⟨tg, hg, hpre, hlen⟩ := hfo f hc
    refine ⟨exactStep c i tg, ?_, ?_, ?_⟩
    · rw [keywordScanChar_fst, List.get?_map, hg]
      rfl
    · rw [exactStep_target, take_append_le v [c] tg.target.length hlen]
      exact hpre
    · rw [exactStep_target]
      simp only [List.length_append, List.length_cons, List.length_nil]
      omega
  · have hfj : f = j := by omega
    subst hfj
    have htv : tg.target = v := target_eq_of_exhausted tg v i hi
      (hmt tg (List.get?_mem hget) hmtg) hnone
    refine ⟨exactStep c i tg, ?_, ?_, ?_⟩
    · rw [keywordScanChar_fst, List.get?_map, hget]
      rfl
    · rw [exactStep_target, htv, take_append_self]
    · rw [exactStep_target, htv]
      simp

theorem keywordScanEof_FoundOK (v : List Char) (i : Nat) (tgs : List Target)
    (fnd : Option Nat) (hi : i = v.length)
    (hmt : ∀ tg ∈ tgs, tg.matching = true → tg.target.take i = v)
    (hfo : FoundOK fnd tgs v) :
    FoundOK (keywordScanEof i tgs 0 fnd) tgs v := by
  intro f hf
  rcases keywordScanEof_found i tgs 0 fnd f hf with
    hc | ⟨j, tg, hj, hget, hmtg, hnone⟩
  · exact hfo f hc
  · have hfj : f = j := by omega
    subst hfj
    have htv : tg.target = v := target_eq_of_exhausted tg v i hi
      (hmt tg (List.get?_mem hget) hmtg) hnone
    exact ⟨tg, hget, by rw [htv, List.take_length], by rw [htv]⟩

/-- A Running findMatch step on a real char preserves matcher goodness. -/
theorem findMatch_run_MOK (m m1 : MatcherS) (v : List Char) (c : Char)
    (hm : MOK v m) (h : findMatch m (some c) (v ++ [c]) = (.Running, m1)) :
    MOK (v ++ [c]) m1 := by
  match m with
  | .word i p r =>
    simp only [MOK] at hm
    simp only [findMatch] at h
    split at h
    · cases h
      simp only [MOK, List.length_append, List.length_cons, List.length_nil]
      omega
    · exact absurd (congrArg Prod.fst h) (fun hc =>
        generateWordToken_run _ _ _ hc)
  | .whitespace i col ln p r =>
    simp only [MOK] at hm
    simp only [findMatch] at h
    split at h
    · cases h
      simp only [MOK, List.length_append, List.length_cons, List.length_nil]
      omega
    · exact absurd (congrArg Prod.fst h) (fun hc =>
        generateWhitespaceToken_run _ _ _ _ _ hc)
  | .symbol i p r =>
    simp only [MOK] at hm
    simp only [findMatch] at h
    split at h
    · cases h
      simp only [MOK, List.length_append, List.length_cons, List.length_nil]
      omega
    · exact absurd (congrArg Prod.fst h) (fun hc =>
        generateSymbolToken_run _ _ _ hc)
  | .integer i p r =>
    simp only [MOK] at hm
    simp only [findMatch] at h
    split at h
    · cases h
      simp only [MOK, List.length_append, List.length_cons, List.length_nil]
      omega
    · exact absurd (congrArg Prod.fst h) (fun hc =>
        generateIntegerToken_run _ _ _ hc)
  | .float i p dot flt r =>
    simp only [MOK] at hm
    simp only [findMatch] at h
    split at h
    · cases h
      simp only [MOK, List.length_append, List.length_cons, List.length_nil]
      omega
    · split at h
      · cases h
        simp only [MOK, List.length_append, List.length_cons,
          List.length_nil]
        omega
      · exact absurd (congrArg Prod.fst h) (fun hc =>
          generateFloatToken_run _ _ _ _ hc)
  | .exact i p r fnd tgs tt =>
    simp only [MOK] at hm
    obtain ⟨hi, hmt, hfo⟩ := hm
    simp only [findMatch] at h
    split at h
    · cases h
      refine ⟨?_, ?_, ?_⟩
      · simp only [List.length_append, List.length_cons, List.length_nil]
        omega
      · rw [exactScanChar_fst]
        exact exactStep_targets_inv c v i tgs hi hmt
      · exact exactScan_FoundOK c v i tgs fnd hi hmt hfo
    · exact absurd (congrArg Prod.fst h) (fun hc =>
        generateExactToken_run _ _ _ _ hc)
  | .keyword i p r fnd tgs tt =>
    simp only [MOK] at hm
    obtain ⟨hi, hmt, hfo, hasc⟩ := hm
    simp only [findMatch] at h
    split at h
    · exact absurd (congrArg Prod.fst h) (fun hc =>
        generateKeywordToken_run _ _ _ _ hc)
    · split at h
      · exact absurd (congrArg Prod.fst h) (fun hc =>
          generateKeywordToken_run _ _ _ _ hc)
      · split at h
        · cases h
          refine ⟨?_, ?_, ?_, ?_⟩
          · simp only [List.length_append, List.length_cons,
              List.length_nil]
            omega
          · rw [keywordScanChar_fst]
            exact exactStep_targets_inv c v i tgs hi hmt
          · exact keywordScan_FoundOK c v i tgs fnd hi hmt hfo
          · rw [keywordScanChar_fst]
            exact asciiTargets_map_exactStep c i tgs hasc
        · exact absurd (congrArg Prod.fst h) (fun hc =>
            generateKeywordToken_run _ _ _ _ hc)

/-- A Matched findMatch step on a real char yields a token whose value is
the length-len prefix of the new accumulator. -/
theorem findMatch_matched_TokPre (m m1 : MatcherS) (v : List Char) (c : Char)
    (tk : Token) (hm : MOK v m)
    (h : findMatch m (some c) (v ++ [c]) = (.Matched tk, m1)) :
    TokPre tk (v ++ [c]) := by
  have hlen1 : (v ++ [c]).length = v.length + 1 := by simp
  match m with
  | .word i p r =>
    simp only [MOK] at hm
    simp only [findMatch] at h
    split at h
    · exact absurd (congrArg Prod.fst h) (fun hc =>
        MatcherResult.noConfusion hc)
    · obtain ⟨hval, hl, -, -, -, -⟩ :=
        generateWordToken_matched i p (v ++ [c]) tk (congrArg Prod.fst h)
      exact ⟨by rw [hval, hl], by rw [hl, hlen1]; omega⟩
  | .whitespace i col ln p r =>
    simp only [MOK] at hm
    simp only [findMatch] at h
    split at h
    · exact absurd (congrArg Prod.fst h) (fun hc =>
        MatcherResult.noConfusion hc)
    · obtain ⟨hval, hl, -, -⟩ := generateWhitespaceToken_matched i ln col p
        (v ++ [c]) tk (congrArg Prod.fst h)
      exact ⟨by rw [hval, hl], by rw [hl, hlen1]; omega⟩
  | .symbol i p r =>
    simp only [MOK] at hm
    simp only [findMatch] at h
    split at h
    · exact absurd (congrArg Prod.fst h) (fun hc =>
        MatcherResult.noConfusion hc)
    · obtain ⟨hval, hl, -, -⟩ :=
        generateSymbolToken_matched i p (v ++ [c]) tk (congrArg Prod.fst h)
      exact ⟨by rw [hval, hl], by rw [hl, hlen1]; omega⟩
  | .integer i p r =>
    simp only [MOK] at hm
    simp only [findMatch] at h
    split at h
    · exact absurd (congrArg Prod.fst h) (fun hc =>
        MatcherResult.noConfusion hc)
    · obtain ⟨hval, hl, -, -⟩ :=
        generateIntegerToken_matched i p (v ++ [c]) tk (congrArg Prod.fst h)
      exact ⟨by rw [hval, hl], by rw [hl, hlen1]; omega⟩
  | .float i p dot flt r =>
    simp only [MOK] at hm
    simp only [findMatch] at h
    split at h
    · exact absurd (congrArg Prod.fst h) (fun hc =>
        MatcherResult.noConfusion hc)
    · split at h
      · exact absurd (congrArg Prod.fst h) (fun hc =>
          MatcherResult.noConfusion hc)
      · obtain ⟨hval, hl, -, -⟩ := generateFloatToken_matched i flt p
          (v ++ [c]) tk (congrArg Prod.fst h)
        exact ⟨by rw [hval, hl], by rw [hl, hlen1]; omega⟩
  | .exact i p r fnd tgs tt =>
    simp only [MOK] at hm
    obtain ⟨hi, hmt, hfo⟩ := hm
    simp only [findMatch] at h
    split at h
    · exact absurd (congrArg Prod.fst h) (fun hc =>
        MatcherResult.noConfusion hc)
    · exact generateExactToken_TokPre _ _ tt p (v ++ [c]) tk
        (exactScan_FoundOK c v i tgs fnd hi hmt hfo) (congrArg Prod.fst h)
  | .keyword i p r fnd tgs tt =>
    simp only [MOK] at hm
    obtain ⟨hi, hmt, hfo, hasc⟩ := hm
    have hascm : asciiTargets (keywordScanChar c i tgs 0 false fnd false).1 := by
      rw [keywordScanChar_fst]
      exact asciiTargets_map_exactStep c i tgs hasc
    simp only [findMatch] at h
    split at h
    · exact generateKeywordToken_TokPre _ _ tt p (v ++ [c]) tk
        (FoundOK_append fnd tgs v [c] hfo) hasc (congrArg Prod.fst h)
    · split at h
      · exact generateKeywordToken_TokPre _ _ tt p (v ++ [c]) tk
          (keywordScan_FoundOK c v i tgs fnd hi hmt hfo) hascm
          (congrArg Prod.fst h)
      · split at h
        · exact absurd (congrArg Prod.fst h) (fun hc =>
            MatcherResult.noConfusion hc)
        · exact generateKeywordToken_TokPre _ _ tt p (v ++ [c]) tk
            (keywordScan_FoundOK c v i tgs fnd hi hmt hfo) hascm
            (congrArg Prod.fst h)

/-- A Matched findMatch step at end-of-input yields a token whose value is
the length-len prefix of the accumulator. -/
theorem findMatch_eof_TokPre (m m1 : MatcherS) (v : List Char) (tk : Token)
    (hm : MOK v m) (h : findMatch m none v = (.Matched tk, m1)) :
    TokPre tk v := by
  match m with
  | .word i p r =>
    simp only [MOK] at hm
    simp only [findMatch] at h
    obtain ⟨hval, hl, -, -, -, -⟩ :=
      generateWordToken_matched i p v tk (congrArg Prod.fst h)
    exact ⟨by rw [hval, hl], by rw [hl, hm]⟩
  | .whitespace i col ln p r =>
    simp only [MOK] at hm
    simp only [findMatch] at h
    obtain ⟨hval, hl, -, -⟩ :=
      generateWhitespaceToken_matched i ln col p v tk (congrArg Prod.fst h)
    exact ⟨by rw [hval, hl], by rw [hl, hm]⟩
  | .symbol i p r =>
    simp only [MOK] at hm
    simp only [findMatch] at h
    obtain ⟨hval, hl, -, -⟩ :=
      generateSymbolToken_matched i p v tk (congrArg Prod.fst h)
    exact ⟨by rw [hval, hl], by rw [hl, hm]⟩
  | .integer i p r =>
    simp only [MOK] at hm
    simp only [findMatch] at h
    obtain ⟨hval, hl, -, -⟩ :=
      generateIntegerToken_matched i p v tk (congrArg Prod.fst h)
    exact ⟨by rw [hval, hl], by rw [hl, hm]⟩
  | .float i p dot flt r =>
    simp only [MOK] at hm
    simp only [findMatch] at h
    obtain ⟨hval, hl, -, -⟩ :=
      generateFloatToken_matched i flt p v tk (congrArg Prod.fst h)
    exact ⟨by rw [hval, hl], by rw [hl, hm]⟩
  | .exact i p r fnd tgs tt =>
    simp only [MOK] at hm
    obtain ⟨hi, hmt, hfo⟩ := hm
    simp only [findMatch] at h
    exact generateExactToken_TokPre _ _ tt p v tk
      (exactScanEof_FoundOK v i tgs fnd hi hmt hfo) (congrArg Prod.fst h)
  | .keyword i p r fnd tgs tt =>
    simp only [MOK] at hm
    obtain ⟨hi, hmt, hfo, hasc⟩ := hm
    simp only [findMatch] at h
    exact generateKeywordToken_TokPre _ _ tt p v tk
      (keywordScanEof_FoundOK v i tgs fnd hi hmt hfo) hasc
      (congrArg Prod.fst h)

/-- At end-of-input no matcher reports Running. -/
theorem findMatch_none_not_running (m m1 : MatcherS) (v : List Char)
    (h : findMatch m none v = (.Running, m1)) : False := by
  match m with
  | .word i p r =>
    simp only [findMatch] at h
    exact generateWordToken_run _ _ _ (congrArg Prod.fst h)
  | .whitespace i col ln p r =>
    simp only [findMatch] at h
    exact generateWhitespaceToken_run _ _ _ _ _ (congrArg Prod.fst h)
  | .symbol i p r =>
    simp only [findMatch] at h
    exact generateSymbolToken_run _ _ _ (congrArg Prod.fst h)
  | .integer i p r =>
    simp only [findMatch] at h
    exact generateIntegerToken_run _ _ _ (congrArg Prod.fst h)
  | .float i p dot flt r =>
    simp only [findMatch] at h
    exact generateFloatToken_run _ _ _ _ (congrArg Prod.fst h)
  | .exact i p r fnd tgs tt =>
    simp only [findMatch] at h
    exact generateExactToken_run _ _ _ _ (congrArg Prod.fst h)
  | .keyword i p r fnd tgs tt =>
    simp only [findMatch] at h
    exact generateKeywordToken_run _ _ _ _ (congrArg Prod.fst h)

/-- A Matched token of a well-typed matcher has a nonzero token type. -/
theorem findMatch_type (m m1 : MatcherS) (c : Option Char) (v : List Char)
    (tk : Token) (hm : MTy m) (h : findMatch m c v = (.Matched tk, m1)) :
    tk.token_type ≠ 0 := by
  match m with
  | .word i p r =>
    simp only [findMatch] at h
    match c with
    | some ch =>
      dsimp only at h
      split at h
      · exact absurd (congrArg Prod.fst h) (fun hc =>
          MatcherResult.noConfusion hc)
      · obtain ⟨-, -, hty, -, -, -⟩ :=
          generateWordToken_matched i p v tk (congrArg Prod.fst h)
        rw [hty]; decide
    | none =>
      obtain ⟨-, -, hty, -, -, -⟩ :=
        generateWordToken_matched i p v tk (congrArg Prod.fst h)
      rw [hty]; decide
  | .whitespace i col ln p r =>
    simp only [findMatch] at h
    match c with
    | some ch =>
      dsimp only at h
      split at h
      · exact absurd (congrArg Prod.fst h) (fun hc =>
          MatcherResult.noConfusion hc)
      · obtain ⟨-, -, hty, -⟩ := generateWhitespaceToken_matched i ln col p
          v tk (congrArg Prod.fst h)
        rw [hty]; decide
    | none =>
      obtain ⟨-, -, hty, -⟩ := generateWhitespaceToken_matched i ln col p
        v tk (congrArg Prod.fst h)
      rw [hty]; decide
  | .symbol i p r =>
    simp only [findMatch] at h
    match c with
    | some ch =>
      dsimp only at h
      split at h
      · exact absurd (congrArg Prod.fst h) (fun hc =>
          MatcherResult.noConfusion hc)
      · obtain ⟨-, -, hty, -⟩ :=
          generateSymbolToken_matched i p v tk (congrArg Prod.fst h)
        rw [hty]; decide
    | none =>
      obtain ⟨-, -, hty, -⟩ :=
        generateSymbolToken_matched i p v tk (congrArg Prod.fst h)
      rw [hty]; decide
  | .integer i p r =>
    simp only [findMatch] at h
    match c with
    | some ch =>
      dsimp only at h
      split at h
      · exact absurd (congrArg Prod.fst h) (fun hc =>
          MatcherResult.noConfusion hc)
      · obtain ⟨-, -, hty, -⟩ :=
          generateIntegerToken_matched i p v tk (congrArg Prod.fst h)
        rw [hty]; decide
    | none =>
      obtain ⟨-, -, hty, -⟩ :=
        generateIntegerToken_matched i p v tk (congrArg Prod.fst h)
      rw [hty]; decide
  | .float i p dot flt r =>
    simp only [findMatch] at h
    match c with
    | some ch =>
      dsimp only at h
      split at h
      · exact absurd (congrArg Prod.fst h) (fun hc =>
          MatcherResult.noConfusion hc)
      · split at h
        · exact absurd (congrArg Prod.fst h) (fun hc =>
            MatcherResult.noConfusion hc)
        · obtain ⟨-, -, hty, -⟩ := generateFloatToken_matched i flt p v tk
            (congrArg Prod.fst h)
          rw [hty]; decide
    | none =>
      obtain ⟨-, -, hty, -⟩ :=
        generateFloatToken_matched i flt p v tk (congrArg Prod.fst h)
      rw [hty]; decide
  | .exact i p r fnd tgs tt =>
    simp only [MTy] at hm
    simp only [findMatch] at h
    match c with
    | some ch =>
      dsimp only at h
      split at h
      · exact absurd (congrArg Prod.fst h) (fun hc =>
          MatcherResult.noConfusion hc)
      · rw [generateExactToken_type _ _ tt p tk (congrArg Prod.fst h)]
        exact hm
    | none =>
      rw [generateExactToken_type _ _ tt p tk (congrArg Prod.fst h)]
      exact hm
  | .keyword i p r fnd tgs tt =>
    simp only [MTy] at hm
    simp only [findMatch] at h
    match c with
    | some ch =>
      dsimp only at h
      split at h
      · rw [generateKeywordToken_type _ _ tt p tk (congrArg Prod.fst h)]
        exact hm
      · split at h
        · rw [generateKeywordToken_type _ _ tt p tk (congrArg Prod.fst h)]
          exact hm
        · split at h
          · exact absurd (congrArg Prod.fst h) (fun hc =>
              MatcherResult.noConfusion hc)
          · rw [generateKeywordToken_type _ _ tt p tk (congrArg Prod.fst h)]
            exact hm
    | none =>
      rw [generateKeywordToken_type _ _ tt p tk (congrArg Prod.fst h)]
      exact hm

/-- findMatch keeps the configured token type. -/
theorem findMatch_MTy (m m1 : MatcherS) (c : Option Char) (v : List Char)
    (res : MatcherResult) (hm : MTy m) (h : findMatch m c v = (res, m1)) :
    MTy m1 := by
  match m with
  | .word i p r =>
    simp only [findMatch] at h
    match c with
    | some ch =>
      dsimp only at h
      split at h <;> cases h <;> trivial
    | none => cases h; trivial
  | .whitespace i col ln p r =>
    simp only [findMatch] at h
    match c with
    | some ch =>
      dsimp only at h
      split at h <;> cases h <;> trivial
    | none => cases h; trivial
  | .symbol i p r =>
    simp only [findMatch] at h
    match c with
    | some ch =>
      dsimp only at h
      split at h <;> cases h <;> trivial
    | none => cases h; trivial
  | .integer i p r =>
    simp only [findMatch] at h
    match c with
    | some ch =>
      dsimp only at h
      split at h <;> cases h <;> trivial
    | none => cases h; trivial
  | .float i p dot flt r =>
    simp only [findMatch] at h
    match c with
    | some ch =>
      dsimp only at h
      split at h
      · cases h; trivial
      · split at h <;> cases h <;> trivial
    | none => cases h; trivial
  | .exact i p r fnd tgs tt =>
    simp only [MTy] at hm
    simp only [findMatch] at h
    match c with
    | some ch =>
      dsimp only at h
      split at h <;> cases h <;> exact hm
    | none => cases h; exact hm
  | .keyword i p r fnd tgs tt =>
    simp only [MTy] at hm
    simp only [findMatch] at h
    match c with
    | some ch =>
      dsimp only at h
      split at h
      · cases h; exact hm
      · split at h
        · cases h; exact hm
        · split at h <;> cases h <;> exact hm
    | none => cases h; exact hm

/-- A reset matcher with ASCII keyword targets is good for the empty
accumulator. -/
theorem MOK_resetM (m : MatcherS) (hma : MAscii m) :
    MOK [] (MatcherS.resetM m) := by
  match m with
  | .word i p r => exact rfl
  | .whitespace i col ln p r => exact rfl
  | .symbol i p r => exact rfl
  | .integer i p r => exact rfl
  | .float i p dot flt r => exact rfl
  | .exact i p r fnd tgs tt =>
    refine ⟨rfl, fun tg _ _ => List.take_zero _, fun f hf =>
      Option.noConfusion hf⟩
  | .keyword i p r fnd tgs tt =>
    refine ⟨rfl, fun tg _ _ => List.take_zero _, fun f hf =>
      Option.noConfusion hf, asciiTargets_map_reset tgs hma⟩

theorem MTy_resetM (m : MatcherS) (hm : MTy m) : MTy (MatcherS.resetM m) := by
  match m with
  | .word i p r => trivial
  | .whitespace i col ln p r => trivial
  | .symbol i p r => trivial
  | .integer i p r => trivial
  | .float i p dot flt r => trivial
  | .exact i p r fnd tgs tt => exact hm
  | .keyword i p r fnd tgs tt => exact hm

/-- The matcher loop of one iteration preserves goodness: all running
matchers of the output are good for the new accumulator, and any recorded
winner token is a prefix of the new accumulator. -/
theorem feedMatchers_inv (c : Option Char) (v value1 : List Char)
    (hval : value1 = v ++ c.toList) :
    ∀ (ms : List MatcherS) (ft : Option Token) (prec : Nat)
      (running : Bool),
    (∀ m ∈ ms, m.is_running = true → MOK v m) →
    (∀ tk, ft = some tk → TokPre tk value1) →
    (∀ m2 ∈ (feedMatchers c value1 ms ft prec running).1,
        m2.is_running = true → MOK value1 m2) ∧
    (∀ tk, (feedMatchers c value1 ms ft prec running).2.1 = some tk →
        TokPre tk value1) := by
  intro ms
  induction ms with
  | nil =>
    intro ft prec running h1 h2
    exact ⟨fun m2 hm2 => absurd hm2 (List.not_mem_nil m2), h2⟩
  | cons m rest ih =>
    intro ft prec running h1 h2
    have hmok : m.is_running = true → MOK v m :=
      h1 m (List.mem_cons_self m rest)
    have h1r : ∀ m2 ∈ rest, m2.is_running = true → MOK v m2 :=
      fun m2 hm2 => h1 m2 (List.mem_cons_of_mem m hm2)
    simp only [feedMatchers]
    by_cases hr : m.is_running = true
    · rw [if_pos hr]
      rcases hfm : findMatch m c value1 with ⟨res, m1⟩
      cases res with
      | Running =>
        dsimp only
        have hm1 : MOK value1 m1 := by
          cases c with
          | none => exact (findMatch_none_not_running m m1 value1 hfm).elim
          | some ch =>
            have hv2 : value1 = v ++ [ch] := by simpa using hval
            rw [hv2] at hfm ⊢
            exact findMatch_run_MOK m m1 v ch (hmok hr) hfm
        obtain ⟨ihA, ihB⟩ := ih ft prec true h1r h2
        refine ⟨?_, ihB⟩
        intro m2 hm2
        rcases List.mem_cons.mp hm2 with hh | hh
        · rw [hh]
          exact fun _ => hm1
        · exact ihA m2 hh
      | Failed =>
        dsimp only
        obtain ⟨ihA, ihB⟩ := ih ft prec running h1r h2
        refine ⟨?_, ihB⟩
        intro m2 hm2
        rcases List.mem_cons.mp hm2 with hh | hh
        · intro hrun
          rcases findMatch_stop m m1 c value1 .Failed hfm with hs | hs
          · cases hs
          · rw [hh] at hrun
            rw [hs] at hrun
            cases hrun
        · exact ihA m2 hh
      | Matched token =>
        have htok : TokPre token value1 := by
          cases c with
          | none =>
            have hv2 : value1 = v := by simpa using hval
            rw [hv2] at hfm ⊢
            exact findMatch_eof_TokPre m m1 v token (hmok hr) hfm
          | some ch =>
            have hv2 : value1 = v ++ [ch] := by simpa using hval
            rw [hv2] at hfm ⊢
            exact findMatch_matched_TokPre m m1 v ch token (hmok hr) hfm
        have hstop : m1.is_running = false := by
          rcases findMatch_stop m m1 c value1 (.Matched token) hfm with
            hs | hs
          · cases hs
          · exact hs
        cases hft : ft with
        | none =>
          dsimp only
          obtain ⟨ihA, ihB⟩ := ih (some token) token.precedence running h1r
            (fun tk htk => by cases htk; exact htok)
          refine ⟨?_, ihB⟩
          intro m2 hm2
          rcases List.mem_cons.mp hm2 with hh | hh
          · intro hrun
            rw [hh, hstop] at hrun
            cases hrun
          · exact ihA m2 hh
        | some prev =>
          dsimp only
          by_cases hp : prec ≤ token.precedence
          · rw [if_pos hp]
            dsimp only
            obtain ⟨ihA, ihB⟩ := ih (some token) token.precedence running h1r
              (fun tk htk => by cases htk; exact htok)
            refine ⟨?_, ihB⟩
            intro m2 hm2
            rcases List.mem_cons.mp hm2 with hh | hh
            · intro hrun
              rw [hh, hstop] at hrun
              cases hrun
            · exact ihA m2 hh
          · rw [if_neg hp]
            dsimp only
            obtain ⟨ihA, ihB⟩ := ih (some prev) prec running h1r
              (fun tk htk => h2 tk (hft ▸ htk))
            refine ⟨?_, ihB⟩
            intro m2 hm2
            rcases List.mem_cons.mp hm2 with hh | hh
            · intro hrun
              rw [hh, hstop] at hrun
              cases hrun
            · exact ihA m2 hh
    · rw [if_neg hr]
      dsimp only
      obtain ⟨ihA, ihB⟩ := ih ft prec running h1r h2
      refine ⟨?_, ihB⟩
      intro m2 hm2
      rcases List.mem_cons.mp hm2 with hh | hh
      · rw [hh]
        exact fun hrun => absurd hrun hr
      · exact ihA m2 hh

/-- The matcher loop preserves well-typedness and produces winners of
nonzero token type. -/
theorem feedMatchers_ty (c : Option Char) (value1 : List Char) :
    ∀ (ms : List MatcherS) (ft : Option Token) (prec : Nat)
      (running : Bool),
    (∀ m ∈ ms, MTy m) →
    (∀ tk, ft = some tk → tk.token_type ≠ 0) →
    (∀ m2 ∈ (feedMatchers c value1 ms ft prec running).1, MTy m2) ∧
    (∀ tk, (feedMatchers c value1 ms ft prec running).2.1 = some tk →
        tk.token_type ≠ 0) := by
  intro ms
  induction ms with
  | nil =>
    intro ft prec running h1 h2
    exact ⟨fun m2 hm2 => absurd hm2 (List.not_mem_nil m2), h2⟩
  | cons m rest ih =>
    intro ft prec running h1 h2
    have hmty : MTy m := h1 m (List.mem_cons_self m rest)
    have h1r : ∀ m2 ∈ rest, MTy m2 :=
      fun m2 hm2 => h1 m2 (List.mem_cons_of_mem m hm2)
    simp only [feedMatchers]
    by_cases hr : m.is_running = true
    · rw [if_pos hr]
      rcases hfm : findMatch m c value1 with ⟨res, m1⟩
      have hm1 : MTy m1 := findMatch_MTy m m1 c value1 res hmty hfm
      cases res with
      | Running =>
        dsimp only
        obtain ⟨ihA, ihB⟩ := ih ft prec true h1r h2
        refine ⟨?_, ihB⟩
        intro m2 hm2
        rcases List.mem_cons.mp hm2 with hh | hh
        · rw [hh]; exact hm1
        · exact ihA m2 hh
      | Failed =>
        dsimp only
        obtain ⟨ihA, ihB⟩ := ih ft prec running h1r h2
        refine ⟨?_, ihB⟩
        intro m2 hm2
        rcases List.mem_cons.mp hm2 with hh | hh
        · rw [hh]; exact hm1
        · exact ihA m2 hh
      | Matched token =>
        have htok : token.token_type ≠ 0 :=
          findMatch_type m m1 c value1 token hmty hfm
        cases hft : ft with
        | none =>
          dsimp only
          obtain ⟨ihA, ihB⟩ := ih (some token) token.precedence running h1r
            (fun tk htk => by cases htk; exact htok)
          refine ⟨?_, ihB⟩
          intro m2 hm2
          rcases List.mem_cons.mp hm2 with hh | hh
          · rw [hh]; exact hm1
          · exact ihA m2 hh
        | some prev =>
          dsimp only
          by_cases hp : prec ≤ token.precedence
          · rw [if_pos hp]
            dsimp only
            obtain ⟨ihA, ihB⟩ := ih (some token) token.precedence running h1r
              (fun tk htk => by cases htk; exact htok)
            refine ⟨?_, ihB⟩
            intro m2 hm2
            rcases List.mem_cons.mp hm2 with hh | hh
            · rw [hh]; exact hm1
            · exact ihA m2 hh
          · rw [if_neg hp]
            dsimp only
            obtain ⟨ihA, ihB⟩ := ih (some prev) prec running h1r
              (fun tk htk => h2 tk (hft ▸ htk))
            refine ⟨?_, ihB⟩
            intro m2 hm2
            rcases List.mem_cons.mp hm2 with hh | hh
            · rw [hh]; exact hm1
            · exact ihA m2 hh
    · rw [if_neg hr]
      dsimp only
      obtain ⟨ihA, ihB⟩ := ih ft prec running h1r h2
      refine ⟨?_, ihB⟩
      intro m2 hm2
      rcases List.mem_cons.mp hm2 with hh | hh
      · rw [hh]; exact hmty
      · exact ihA m2 hh

theorem mergeFound_inv (stored iter : Option Token) (w : List Char)
    (h1 : ∀ tk, stored = some tk → TokPre tk w)
    (h2 : ∀ tk, iter = some tk → TokPre tk w) :
    ∀ tk, mergeFound stored iter = some tk → TokPre tk w := by
  intro tk h
  unfold mergeFound at h
  cases iter with
  | none => exact h1 tk h
  | some token =>
    dsimp only at h
    cases stored with
    | none =>
      dsimp only at h
      exact h2 tk (by rw [← h])
    | some prev =>
      dsimp only at h
      split at h
      · exact h2 tk (by rw [← h])
      · exact h1 tk (by rw [← h])

theorem mergeFound_ty (stored iter : Option Token)
    (h1 : ∀ tk, stored = some tk → tk.token_type ≠ 0)
    (h2 : ∀ tk, iter = some tk → tk.token_type ≠ 0) :
    ∀ tk, mergeFound stored iter = some tk → tk.token_type ≠ 0 := by
  intro tk h
  unfold mergeFound at h
  cases iter with
  | none => exact h1 tk h
  | some token =>
    dsimp only at h
    cases stored with
    | none =>
      dsimp only at h
      exact h2 tk (by rw [← h])
    | some prev =>
      dsimp only at h
      split at h
      · exact h2 tk (by rw [← h])
      · exact h1 tk (by rw [← h])

/-- The shape of a successful commit: the over-read suffix of the
accumulator moves to the cache front, the emitted token is the candidate
restamped with the engine's current position, and the line counter only
grows. -/
theorem commitToken_token (st : EngineCore) (token : Token) (t : Token)
    (st1 : EngineCore) (hlen : token.len ≤ st.value.length)
    (h : commitToken st token = (.token t, st1)) :
    t.value = token.value ∧ t.len = token.len ∧
    t.token_type = token.token_type ∧ t.line = st.line ∧
    t.column = st.column ∧ st1.value = st.value ∧
    st1.cache = st.value.drop token.len ++ st.cache ∧
    st1.input = st.input ∧ st.line ≤ st1.line ∧ st1.cap = st.cap ∧
    st1.matchers = st.matchers ∧ st1.found_token = st.found_token := by
  unfold commitToken at h
  split at h
  · split at h
    · injection h with h1 h2
      cases h1
    · unfold commitAdvance at h
      split at h
      · injection h with h1 h2
        cases h1
        cases h2
        refine ⟨rfl, rfl, rfl, rfl, rfl, rfl, rfl, rfl, ?_, rfl, rfl, rfl⟩
        dsimp only
        omega
      · injection h with h1 h2
        cases h1
        cases h2
        exact ⟨rfl, rfl, rfl, rfl, rfl, rfl, rfl, rfl, le_rfl, rfl, rfl,
          rfl⟩
  · rename_i hge
    have hdrop : st.value.drop token.len = [] :=
      List.drop_eq_nil_of_le (by omega)
    unfold commitAdvance at h
    split at h
    · injection h with h1 h2
      cases h1
      cases h2
      refine ⟨rfl, rfl, rfl, rfl, rfl, rfl, by rw [hdrop]; rfl, rfl, ?_,
        rfl, rfl, rfl⟩
      dsimp only
      omega
    · injection h with h1 h2
      cases h1
      cases h2
      exact ⟨rfl, rfl, rfl, rfl, rfl, rfl, by rw [hdrop]; rfl, rfl, le_rfl,
        rfl, rfl, rfl⟩

/-- A committing feed step, given good matchers and a good stored
candidate: the emitted token is a prefix of the final accumulator and is
stamped with the engine's position, and the post state keeps the
accumulator, the over-read chars moved to the cache front. -/
theorem getTokenIterFeed_token (st : EngineCore) (prec : Nat)
    (c : Option Char) (v value1 cache1 input1 : List Char)
    (hval : value1 = v ++ c.toList)
    (hmok : ∀ m ∈ st.matchers, m.is_running = true → MOK v m)
    (hft : ∀ tk, st.found_token = some tk → TokPre tk value1)
    (t : Token) (st1 : EngineCore)
    (h : getTokenIterFeed st prec c value1 cache1 input1 =
      .done (.token t) st1) :
    TokPre t value1 ∧ st1.value = value1 ∧
    st1.cache = value1.drop t.len ++ cache1 ∧ st1.input = input1 ∧
    t.line = st.line ∧ t.column = st.column ∧ st.line ≤ st1.line := by
  unfold getTokenIterFeed at h
  rcases hfd : feedMatchers c value1 st.matchers none prec false with
    ⟨ms1, itf, p1, running⟩
  rw [hfd] at h
  dsimp only at h
  have hfeed := feedMatchers_inv c v value1 hval st.matchers none prec false
    hmok (fun tk htk => Option.noConfusion htk)
  rw [hfd] at hfeed
  obtain ⟨hfeedA, hfeedB⟩ := hfeed
  rcases hmg : mergeFound st.found_token itf with _ | token
  · rw [hmg] at h
    cases running
    · dsimp only at h
      split at h <;> cases h
    · dsimp only at h
      split at h <;> cases h
  · rw [hmg] at h
    cases running
    · dsimp only at h
      have htokpre : TokPre token value1 :=
        mergeFound_inv st.found_token itf value1 hft
          (fun tk htk => hfeedB tk htk) token hmg
      injection h with h1 h2
      have hcm :
          commitToken
            { st with
              matchers := ms1, cache := cache1, input := input1,
              value := value1, found_token := none }
            token =
          (.token t, st1) := by
        rw [← h1, ← h2]
      obtain ⟨hv2, hl2, -, hline, hcol, hvv, hcc, hii, hmono, -, -, -⟩ :=
        commitToken_token _ token t st1 (by exact htokpre.2) hcm
      refine ⟨⟨?_, ?_⟩, hvv.trans rfl, ?_, hii.trans rfl, hline.trans rfl,
        hcol.trans rfl, hmono⟩
      · rw [hv2, hl2]
        exact htokpre.1
      · rw [hl2]
        exact htokpre.2
      · rw [hl2]
        exact hcc
    · dsimp only at h
      split at h <;> cases h

/-- A continuing feed step, given good matchers and a good stored
candidate: the new state is good for the new accumulator, and
cache/input/position are the supplied ones. -/
theorem getTokenIterFeed_again_good (st : EngineCore) (prec : Nat)
    (c : Option Char) (v value1 cache1 input1 : List Char)
    (hval : value1 = v ++ c.toList)
    (hmok : ∀ m ∈ st.matchers, m.is_running = true → MOK v m)
    (hft : ∀ tk, st.found_token = some tk → TokPre tk value1)
    (st1 : EngineCore) (prec1 : Nat)
    (h : getTokenIterFeed st prec c value1 cache1 input1 =
      .again st1 prec1) :
    (∀ m ∈ st1.matchers, m.is_running = true → MOK value1 m) ∧
    (∀ tk, st1.found_token = some tk → TokPre tk value1) ∧
    st1.value = value1 ∧ st1.cache = cache1 ∧ st1.input = input1 ∧
    st1.line = st.line ∧ st1.column = st.column := by
  unfold getTokenIterFeed at h
  rcases hfd : feedMatchers c value1 st.matchers none prec false with
    ⟨ms1, itf, p1, running⟩
  rw [hfd] at h
  dsimp only at h
  have hfeed := feedMatchers_inv c v value1 hval st.matchers none prec false
    hmok (fun tk htk => Option.noConfusion htk)
  rw [hfd] at hfeed
  obtain ⟨hfA, hfB⟩ := hfeed
  rcases hmg : mergeFound st.found_token itf with _ | token
  · rw [hmg] at h
    cases running
    · dsimp only at h
      split at h <;> cases h
    · dsimp only at h
      cases c with
      | none =>
        dsimp only at h
        cases h
      | some ch =>
        dsimp only at h
        cases h
        refine ⟨fun m2 hm2 => hfA m2 hm2, fun tk htk => ?_, rfl, rfl, rfl,
          rfl, rfl⟩
        cases htk
  · rw [hmg] at h
    cases running
    · dsimp only at h
      cases h
    · dsimp only at h
      cases c with
      | none =>
        dsimp only at h
        cases h
      | some ch =>
        dsimp only at h
        cases h
        refine ⟨fun m2 hm2 => hfA m2 hm2, fun tk htk => ?_, rfl, rfl, rfl,
          rfl, rfl⟩
        cases htk
        exact mergeFound_inv st.found_token itf value1 hft
          (fun tk2 htk2 => hfB tk2 htk2) _ hmg

theorem stream_reassemble (tval dropv c1 i1 value1 R : List Char)
    (hsplit : value1 = tval ++ dropv)
    (hkey : value1 ++ c1 ++ i1 = R) :
    tval ++ (dropv ++ c1) ++ i1 = R := by
  rw [← hkey, hsplit]
  simp [List.append_assoc]

/-- One committing iteration, given a good state: the emitted token is a
prefix of the final accumulator, the committed chars plus the remaining
stream equal the prior stream, and the token carries the engine's
position. -/
theorem getTokenIter_token (st : EngineCore) (prec : Nat) (t : Token)
    (st1 : EngineCore)
    (hmok : ∀ m ∈ st.matchers, m.is_running = true → MOK st.value m)
    (hft : ∀ tk, st.found_token = some tk → TokPre tk st.value)
    (h : getTokenIter st prec = .done (.token t) st1) :
    TokPre t st1.value ∧
    (∃ c1, st1.cache = st1.value.drop t.len ++ c1) ∧
    t.value ++ st1.cache ++ st1.input = st.value ++ st.cache ++ st.input ∧
    t.line = st.line ∧ t.column = st.column ∧ st.line ≤ st1.line := by
  unfold getTokenIter at h
  rcases hc : st.cache with _ | ⟨ch, crest⟩
  · rcases hi : st.input with _ | ⟨ch2, irest⟩
    · rw [hc, hi] at h
      dsimp only at h
      unfold getTokenIterCore at h
      dsimp only at h
      obtain ⟨htp, hvv, hcc, hii, hline, hcol, hmono⟩ :=
        getTokenIterFeed_token st prec none st.value st.value [] []
          (by simp) hmok hft t st1 h
      have hsplit : st.value = t.value ++ st.value.drop t.len := by
        rw [htp.1]
        exact (List.take_append_drop _ _).symm
      refine ⟨by rw [hvv]; exact htp, ⟨[], by rw [hcc, hvv]⟩, ?_, hline,
        hcol, hmono⟩
      rw [hcc, hii]
      exact stream_reassemble t.value _ [] [] st.value _ hsplit rfl
    · rw [hc, hi] at h
      dsimp only at h
      unfold getTokenIterCore at h
      dsimp only at h
      split at h
      · cases h
      · obtain ⟨htp, hvv, hcc, hii, hline, hcol, hmono⟩ :=
          getTokenIterFeed_token st prec (some ch2) st.value
            (st.value ++ [ch2]) [] irest rfl hmok
            (fun tk htk => TokPre_append tk st.value [ch2] (hft tk htk))
            t st1 h
        have hsplit : st.value ++ [ch2] =
            t.value ++ (st.value ++ [ch2]).drop t.len := by
          rw [htp.1]
          exact (List.take_append_drop _ _).symm
        refine ⟨by rw [hvv]; exact htp, ⟨[], by rw [hcc, hvv]⟩, ?_, hline,
          hcol, hmono⟩
        rw [hcc, hii]
        exact stream_reassemble t.value _ [] irest (st.value ++ [ch2]) _
          hsplit (by simp)
  · rw [hc] at h
    dsimp only at h
    unfold getTokenIterCore at h
    dsimp only at h
    split at h
    · cases h
    · obtain ⟨htp, hvv, hcc, hii, hline, hcol, hmono⟩ :=
        getTokenIterFeed_token st prec (some ch) st.value
          (st.value ++ [ch]) crest st.input rfl hmok
          (fun tk htk => TokPre_append tk st.value [ch] (hft tk htk))
          t st1 h
      have hsplit : st.value ++ [ch] =
          t.value ++ (st.value ++ [ch]).drop t.len := by
        rw [htp.1]
        exact (List.take_append_drop _ _).symm
      refine ⟨by rw [hvv]; exact htp, ⟨crest, by rw [hcc, hvv]⟩, ?_, hline,
        hcol, hmono⟩
      rw [hcc, hii]
      exact stream_reassemble t.value _ crest st.input (st.value ++ [ch]) _
        hsplit (by simp)

/-- One continuing iteration, given a good state: the new state is good,
the stream is preserved, and the position is untouched. -/
theorem getTokenIter_again_good (st : EngineCore) (prec : Nat)
    (st1 : EngineCore) (prec1 : Nat)
    (hmok : ∀ m ∈ st.matchers, m.is_running = true → MOK st.value m)
    (hft : ∀ tk, st.found_token = some tk → TokPre tk st.value)
    (h : getTokenIter st prec = .again st1 prec1) :
    (∀ m ∈ st1.matchers, m.is_running = true → MOK st1.value m) ∧
    (∀ tk, st1.found_token = some tk → TokPre tk st1.value) ∧
    st1.value ++ st1.cache ++ st1.input = st.value ++ st.cache ++ st.input ∧
    st1.line = st.line ∧ st1.column = st.column := by
  unfold getTokenIter at h
  rcases hc : st.cache with _ | ⟨ch, crest⟩
  · rcases hi : st.input with _ | ⟨ch2, irest⟩
    · rw [hc, hi] at h
      dsimp only at h
      unfold getTokenIterCore at h
      dsimp only at h
      obtain ⟨-, -, ch, hch⟩ := getTokenIterFeed_again _ _ _ _ _ _ _ _ h
      cases hch
    · rw [hc, hi] at h
      dsimp only at h
      unfold getTokenIterCore at h
      dsimp only at h
      split at h
      · cases h
      · obtain ⟨hA, hB, hvv, hcc, hii, hline, hcol⟩ :=
          getTokenIterFeed_again_good st prec (some ch2) st.value
            (st.value ++ [ch2]) [] irest rfl hmok
            (fun tk htk => TokPre_append tk st.value [ch2] (hft tk htk))
            st1 prec1 h
        refine ⟨by rw [hvv]; exact hA, by rw [hvv]; exact hB, ?_, hline,
          hcol⟩
        rw [hvv, hcc, hii]
        simp
  · rw [hc] at h
    dsimp only at h
    unfold getTokenIterCore at h
    dsimp only at h
    split at h
    · cases h
    · obtain ⟨hA, hB, hvv, hcc, hii, hline, hcol⟩ :=
        getTokenIterFeed_again_good st prec (some ch) st.value
          (st.value ++ [ch]) crest st.input rfl hmok
          (fun tk htk => TokPre_append tk st.value [ch] (hft tk htk))
          st1 prec1 h
      refine ⟨by rw [hvv]; exact hA, by rw [hvv]; exact hB, ?_, hline,
        hcol⟩
      rw [hvv, hcc, hii]
      simp

theorem commitToken_type (st : EngineCore) (token t : Token)
    (st1 : EngineCore) (h : commitToken st token = (.token t, st1)) :
    t.token_type = token.token_type := by
  unfold commitToken at h
  split at h
  · split at h
    · injection h with h1 h2
      cases h1
    · unfold commitAdvance at h
      split at h <;> (injection h with h1 h2; cases h1; rfl)
  · unfold commitAdvance at h
    split at h <;> (injection h with h1 h2; cases h1; rfl)

theorem getTokenIterFeed_token_ty (st : EngineCore) (prec : Nat)
    (c : Option Char) (value1 cache1 input1 : List Char)
    (hmty : ∀ m ∈ st.matchers, MTy m)
    (hfty : ∀ tk, st.found_token = some tk → tk.token_type ≠ 0)
    (t : Token) (st1 : EngineCore)
    (h : getTokenIterFeed st prec c value1 cache1 input1 =
      .done (.token t) st1) :
    t.token_type ≠ 0 := by
  unfold getTokenIterFeed at h
  rcases hfd : feedMatchers c value1 st.matchers none prec false with
    ⟨ms1, itf, p1, running⟩
  rw [hfd] at h
  dsimp only at h
  have hty := feedMatchers_ty c value1 st.matchers none prec false hmty
    (fun tk htk => Option.noConfusion htk)
  rw [hfd] at hty
  obtain ⟨-, htyB⟩ := hty
  rcases hmg : mergeFound st.found_token itf with _ | token
  · rw [hmg] at h
    cases running
    · dsimp only at h
      split at h <;> cases h
    · dsimp only at h
      split at h <;> cases h
  · rw [hmg] at h
    cases running
    · dsimp only at h
      injection h with h1 h2
      have hcm :
          commitToken
            { st with
              matchers := ms1, cache := cache1, input := input1,
              value := value1, found_token := none }
            token =
          (.token t, st1) := by
        rw [← h1, ← h2]
      rw [commitToken_type _ token t st1 hcm]
      exact mergeFound_ty st.found_token itf hfty
        (fun tk htk => htyB tk htk) token hmg
    · dsimp only at h
      split at h <;> cases h

theorem getTokenIterFeed_again_ty (st : EngineCore) (prec : Nat)
    (c : Option Char) (value1 cache1 input1 : List Char)
    (hmty : ∀ m ∈ st.matchers, MTy m)
    (hfty : ∀ tk, st.found_token = some tk → tk.token_type ≠ 0)
    (st1 : EngineCore) (prec1 : Nat)
    (h : getTokenIterFeed st prec c value1 cache1 input1 =
      .again st1 prec1) :
    (∀ m ∈ st1.matchers, MTy m) ∧
    (∀ tk, st1.found_token = some tk → tk.token_type ≠ 0) := by
  unfold getTokenIterFeed at h
  rcases hfd : feedMatchers c value1 st.matchers none prec false with
    ⟨ms1, itf, p1, running⟩
  rw [hfd] at h
  dsimp only at h
  have hty := feedMatchers_ty c value1 st.matchers none prec false hmty
    (fun tk htk => Option.noConfusion htk)
  rw [hfd] at hty
  obtain ⟨htyA, htyB⟩ := hty
  rcases hmg : mergeFound st.found_token itf with _ | token
  · rw [hmg] at h
    cases running
    · dsimp only at h
      split at h <;> cases h
    · dsimp only at h
      cases c with
      | none =>
        dsimp only at h
        cases h
      | some ch =>
        dsimp only at h
        cases h
        exact ⟨fun m2 hm2 => htyA m2 hm2, fun tk htk => by cases htk⟩
  · rw [hmg] at h
    cases running
    · dsimp only at h
      cases h
    · dsimp only at h
      cases c with
      | none =>
        dsimp only at h
        cases h
      | some ch =>
        dsimp only at h
        cases h
        refine ⟨fun m2 hm2 => htyA m2 hm2, fun tk htk => ?_⟩
        cases htk
        exact mergeFound_ty st.found_token itf hfty
          (fun tk2 htk2 => htyB tk2 htk2) _ hmg

theorem getTokenIter_token_ty (st : EngineCore) (prec : Nat) (t : Token)
    (st1 : EngineCore)
    (hmty : ∀ m ∈ st.matchers, MTy m)
    (hfty : ∀ tk, st.found_token = some tk → tk.token_type ≠ 0)
    (h : getTokenIter st prec = .done (.token t) st1) :
    t.token_type ≠ 0 := by
  unfold getTokenIter at h
  rcases hc : st.cache with _ | ⟨ch, crest⟩
  · rcases hi : st.input with _ | ⟨ch2, irest⟩
    · rw [hc, hi] at h
      dsimp only at h
      unfold getTokenIterCore at h
      dsimp only at h
      exact getTokenIterFeed_token_ty st prec none st.value [] [] hmty hfty
        t st1 h
    · rw [hc, hi] at h
      dsimp only at h
      unfold getTokenIterCore at h
      dsimp only at h
      split at h
      · cases h
      · exact getTokenIterFeed_token_ty st prec (some ch2)
          (st.value ++ [ch2]) [] irest hmty hfty t st1 h
  · rw [hc] at h
    dsimp only at h
    unfold getTokenIterCore at h
    dsimp only at h
    split at h
    · cases h
    · exact getTokenIterFeed_token_ty st prec (some ch) (st.value ++ [ch])
        crest st.input hmty hfty t st1 h

theorem getTokenIter_again_ty (st : EngineCore) (prec : Nat)
    (st1 : EngineCore) (prec1 : Nat)
    (hmty : ∀ m ∈ st.matchers, MTy m)
    (hfty : ∀ tk, st.found_token = some tk → tk.token_type ≠ 0)
    (h : getTokenIter st prec = .again st1 prec1) :
    (∀ m ∈ st1.matchers, MTy m) ∧
    (∀ tk, st1.found_token = some tk → tk.token_type ≠ 0) := by
  unfold getTokenIter at h
  rcases hc : st.cache with _ | ⟨ch, crest⟩
  · rcases hi : st.input with _ | ⟨ch2, irest⟩
    · rw [hc, hi] at h
      dsimp only at h
      unfold getTokenIterCore at h
      dsimp only at h
      obtain ⟨-, -, ch, hch⟩ := getTokenIterFeed_again _ _ _ _ _ _ _ _ h
      cases hch
    · rw [hc, hi] at h
      dsimp only at h
      unfold getTokenIterCore at h
      dsimp only at h
      split at h
      · cases h
      · exact getTokenIterFeed_again_ty st prec (some ch2)
          (st.value ++ [ch2]) [] irest hmty hfty st1 prec1 h
  · rw [hc] at h
    dsimp only at h
    unfold getTokenIterCore at h
    dsimp only at h
    split at h
    · cases h
    · exact getTokenIterFeed_again_ty st prec (some ch) (st.value ++ [ch])
        crest st.input hmty hfty st1 prec1 h

/-- The get_token loop, from a good state, emits only tokens that are
prefixes of the final accumulator, consume the head of the stream, and are
stamped with the position held at the start of the attempt. -/
theorem getTokenLoop_token_good : ∀ (fuel : Nat) (st : EngineCore)
    (prec : Nat) (t : Token) (st1 : EngineCore),
    (∀ m ∈ st.matchers, m.is_running = true → MOK st.value m) →
    (∀ tk, st.found_token = some tk → TokPre tk st.value) →
    getTokenLoop fuel st prec = some (.token t, st1) →
    TokPre t st1.value ∧
    (∃ c1, st1.cache = st1.value.drop t.len ++ c1) ∧
    t.value ++ st1.cache ++ st1.input = st.value ++ st.cache ++ st.input ∧
    t.line = st.line ∧ t.column = st.column := by
  intro fuel
  induction fuel with
  | zero => intro st prec t st1 _ _ h; cases h
  | succ n ih =>
    intro st prec t st1 hmok hft h
    unfold getTokenLoop at h
    cases hit : getTokenIter st prec with
    | done r2 st2 =>
      rw [hit] at h
      cases h
      obtain ⟨htp, hshape, hstream, hline, hcol, -⟩ :=
        getTokenIter_token st prec t st1 hmok hft hit
      exact ⟨htp, hshape, hstream, hline, hcol⟩
    | again st2 prec2 =>
      rw [hit] at h
      obtain ⟨hA, hB, hstream, hline, hcol⟩ :=
        getTokenIter_again_good st prec st2 prec2 hmok hft hit
      obtain ⟨htp, hshape, hstr2, hl2, hc2⟩ := ih st2 prec2 t st1 hA hB h
      exact ⟨htp, hshape, by rw [hstr2, hstream], by rw [hl2, hline],
        by rw [hc2, hcol]⟩

theorem getTokenLoop_token_ty : ∀ (fuel : Nat) (st : EngineCore)
    (prec : Nat) (t : Token) (st1 : EngineCore),
    (∀ m ∈ st.matchers, MTy m) →
    (∀ tk, st.found_token = some tk → tk.token_type ≠ 0) →
    getTokenLoop fuel st prec = some (.token t, st1) →
    t.token_type ≠ 0 := by
  intro fuel
  induction fuel with
  | zero => intro st prec t st1 _ _ h; cases h
  | succ n ih =>
    intro st prec t st1 hmty hfty h
    unfold getTokenLoop at h
    cases hit : getTokenIter st prec with
    | done r2 st2 =>
      rw [hit] at h
      cases h
      exact getTokenIter_token_ty st prec t st1 hmty hfty hit
    | again st2 prec2 =>
      rw [hit] at h
      obtain ⟨hA, hB⟩ := getTokenIter_again_ty st prec st2 prec2 hmty hfty
        hit
      exact ih st2 prec2 t st1 hA hB h

/-- Lexxor::get_token, on success: the emitted token value is the
length-len prefix of the final accumulator, the emitted value plus the
remaining cache and input reassemble the prior cache-plus-input stream,
the over-read chars head the new cache, and the token is stamped with the
engine's position at the call. -/
theorem getToken_token (st : EngineCore) (t : Token) (st1 : EngineCore)
    (hma : ∀ m ∈ st.matchers, MAscii m)
    (h : getToken st = (.token t, st1)) :
    TokPre t st1.value ∧
    (∃ c1, st1.cache = st1.value.drop t.len ++ c1) ∧
    t.value ++ st1.cache ++ st1.input = st.cache ++ st.input ∧
    t.line = st.line ∧ t.column = st.column := by
  unfold getToken at h
  split at h
  · rename_i p heq
    cases h
    have hmok : ∀ m ∈ (resetCore st).matchers, m.is_running = true →
        MOK (resetCore st).value m := by
      intro m hm _
      obtain ⟨m0, hm0mem, hm0⟩ := List.mem_map.mp hm
      rw [← hm0]
      exact MOK_resetM m0 (hma m0 hm0mem)
    have hft : ∀ tk, (resetCore st).found_token = some tk →
        TokPre tk (resetCore st).value :=
      fun tk htk => Option.noConfusion htk
    exact getTokenLoop_token_good _ _ _ _ _ hmok hft heq
  · injection h with h1 h2
    cases h1

/-- Lexxor::get_token, on success, emits a token of nonzero type when
every matcher is well-typed. -/
theorem getToken_token_ty (st : EngineCore) (t : Token) (st1 : EngineCore)
    (hmty : ∀ m ∈ st.matchers, MTy m)
    (h : getToken st = (.token t, st1)) : t.token_type ≠ 0 := by
  unfold getToken at h
  split at h
  · rename_i p heq
    cases h
    have hmty2 : ∀ m ∈ (resetCore st).matchers, MTy m := by
      intro m hm
      obtain ⟨m0, hm0mem, hm0⟩ := List.mem_map.mp hm
      rw [← hm0]
      exact MTy_resetM m0 (hmty m0 hm0mem)
    have hfty : ∀ tk, (resetCore st).found_token = some tk →
        tk.token_type ≠ 0 :=
      fun tk htk => Option.noConfusion htk
    exact getTokenLoop_token_ty _ _ _ _ _ hmty2 hfty heq
  · injection h with h1 h2
    cases h1

theorem drop_overread (val : List Char) (len : Nat) (c1 : List Char) :
    (val.drop len ++ c1).drop (val.length - len) = c1 := by
  rw [show val.length - len = (val.drop len).length from by
    rw [List.length_drop]]
  exact List.drop_left _ _

theorem commitToken_value (st : EngineCore) (token : Token)
    (r : GetTokenResult) (st1 : EngineCore)
    (h : commitToken st token = (r, st1)) :
    st1.value = st.value ∧ st1.cap = st.cap ∧
    st1.matchers = st.matchers := by
  unfold commitToken at h
  split at h
  · split at h
    · injection h with h1 h2
      cases h2
      exact ⟨rfl, rfl, rfl⟩
    · unfold commitAdvance at h
      split at h
      · injection h with h1 h2
        cases h2
        exact ⟨rfl, rfl, rfl⟩
      · injection h with h1 h2
        cases h2
        exact ⟨rfl, rfl, rfl⟩
  · unfold commitAdvance at h
    split at h
    · injection h with h1 h2
      cases h2
      exact ⟨rfl, rfl, rfl⟩
    · injection h with h1 h2
      cases h2
      exact ⟨rfl, rfl, rfl⟩

/-- The shape of a token-emitting commit, with no goodness hypothesis: the
over-read suffix (empty when len exceeds the accumulator) moves to the
cache front. -/
theorem commitToken_shape2 (st : EngineCore) (token u : Token)
    (st1 : EngineCore) (h : commitToken st token = (.token u, st1)) :
    u.len = token.len ∧ st1.value = st.value ∧
    st1.cache = st.value.drop token.len ++ st.cache ∧
    st1.input = st.input := by
  unfold commitToken at h
  split at h
  · split at h
    · injection h with h1 h2
      cases h1
    · unfold commitAdvance at h
      split at h
      · injection h with h1 h2
        cases h1
        cases h2
        exact ⟨rfl, rfl, rfl, rfl⟩
      · injection h with h1 h2
        cases h1
        cases h2
        exact ⟨rfl, rfl, rfl, rfl⟩
  · rename_i hge
    have hdrop : st.value.drop token.len = [] :=
      List.drop_eq_nil_of_le (by omega)
    unfold commitAdvance at h
    split at h
    · injection h with h1 h2
      cases h1
      cases h2
      exact ⟨rfl, rfl, by rw [hdrop]; rfl, rfl⟩
    · injection h with h1 h2
      cases h1
      cases h2
      exact ⟨rfl, rfl, by rw [hdrop]; rfl, rfl⟩

/-- The shape of a token-emitting feed step, with no goodness
hypothesis. -/
theorem getTokenIterFeed_token_shape (st : EngineCore) (prec : Nat)
    (c : Option Char) (v c1 i1 : List Char) (t : Token) (st1 : EngineCore)
    (h : getTokenIterFeed st prec c v c1 i1 = .done (.token t) st1) :
    st1.value = v ∧ st1.cache = v.drop t.len ++ c1 ∧ st1.input = i1 := by
  unfold getTokenIterFeed at h
  rcases hfd : feedMatchers c v st.matchers none prec false with
    ⟨ms1, itf, p1, running⟩
  rw [hfd] at h
  dsimp only at h
  rcases hmg : mergeFound st.found_token itf with _ | token
  · rw [hmg] at h
    cases running
    · dsimp only at h
      split at h <;> cases h
    · dsimp only at h
      split at h <;> cases h
  · rw [hmg] at h
    cases running
    · dsimp only at h
      injection h with h1 h2
      have hcm :
          commitToken
            { st with
              matchers := ms1, cache := c1, input := i1,
              value := v, found_token := none }
            token =
          (.token t, st1) := by
        rw [← h1, ← h2]
      obtain ⟨hl2, hvv, hcc, hii⟩ := commitToken_shape2 _ token t st1 hcm
      exact ⟨hvv.trans rfl, by rw [hl2]; exact hcc, hii.trans rfl⟩
    · dsimp only at h
      split at h <;> cases h

/-- The shape of a continuing feed step, with no goodness hypothesis. -/
theorem getTokenIterFeed_again_shape (st : EngineCore) (prec : Nat)
    (c : Option Char) (v c1 i1 : List Char) (st1 : EngineCore) (p1 : Nat)
    (h : getTokenIterFeed st prec c v c1 i1 = .again st1 p1) :
    st1.value = v ∧ st1.cache = c1 ∧ st1.input = i1 ∧
    st1.line = st.line ∧ st1.column = st.column ∧ st1.cap = st.cap := by
  unfold getTokenIterFeed at h
  rcases hfd : feedMatchers c v st.matchers none prec false with
    ⟨ms1, itf, p2, running⟩
  rw [hfd] at h
  dsimp only at h
  rcases hmg : mergeFound st.found_token itf with _ | token <;>
    rw [hmg] at h <;> cases running <;> dsimp only at h
  · split at h <;> cases h
  · cases c with
    | none => dsimp only at h; cases h
    | some ch =>
      dsimp only at h
      cases h
      exact ⟨rfl, rfl, rfl, rfl, rfl, rfl⟩
  · cases h
  · cases c with
    | none => dsimp only at h; cases h
    | some ch =>
      dsimp only at h
      cases h
      exact ⟨rfl, rfl, rfl, rfl, rfl, rfl⟩

/-- The feed step reads none of the state's cache, input or value fields:
two states agreeing on the other five fields feed identically. -/
theorem getTokenIterFeed_param (stA stB : EngineCore) (prec : Nat)
    (c : Option Char) (v c1 i1 : List Char)
    (hm : stB.matchers = stA.matchers)
    (hf : stB.found_token = stA.found_token)
    (hl : stB.line = stA.line) (hcol : stB.column = stA.column)
    (hcap : stB.cap = stA.cap) :
    getTokenIterFeed stB prec c v c1 i1 =
      getTokenIterFeed stA prec c v c1 i1 := by
  obtain ⟨mA, iA, capA, cA, vA, fA, lA, coA⟩ := stA
  obtain ⟨mB, iB, capB, cB, vB, fB, lB, coB⟩ := stB
  dsimp only at hm hf hl hcol hcap
  subst hm
  subst hf
  subst hl
  subst hcol
  subst hcap
  rfl

/-- Changing only the cache/input arguments of a continuing feed step
changes only the stored cache/input of the resulting state. -/
theorem getTokenIterFeed_again_congr (st : EngineCore) (prec : Nat)
    (c : Option Char) (v c1 i1 : List Char) (s2 : EngineCore) (p2 : Nat)
    (h : getTokenIterFeed st prec c v c1 i1 = .again s2 p2)
    (c1i i1i : List Char) :
    ∃ s2i, getTokenIterFeed st prec c v c1i i1i = .again s2i p2 ∧
      s2i.matchers = s2.matchers ∧ s2i.value = s2.value ∧
      s2i.found_token = s2.found_token ∧ s2i.line = s2.line ∧
      s2i.column = s2.column ∧ s2i.cap = s2.cap ∧
      s2i.cache = c1i ∧ s2i.input = i1i := by
  unfold getTokenIterFeed at h
  rcases hfd : feedMatchers c v st.matchers none prec false with
    ⟨ms1, itf, p3, running⟩
  rw [hfd] at h
  dsimp only at h
  rcases hmg : mergeFound st.found_token itf with _ | token <;>
    rw [hmg] at h <;> cases running <;> dsimp only at h
  · split at h <;> cases h
  · cases c with
    | none => dsimp only at h; cases h
    | some ch =>
      dsimp only at h
      cases h
      refine ⟨{ st with
                matchers := ms1, cache := c1i, input := i1i,
                value := v, found_token := none },
        ?_, rfl, rfl, rfl, rfl, rfl, rfl, rfl, rfl⟩
      unfold getTokenIterFeed
      rw [hfd]
      dsimp only
      rw [hmg]
  · cases h
  · cases c with
    | none => dsimp only at h; cases h
    | some ch =>
      dsimp only at h
      cases h
      refine ⟨{ st with
                matchers := ms1, cache := c1i, input := i1i,
                value := v, found_token := some token },
        ?_, rfl, rfl, rfl, rfl, rfl, rfl, rfl, rfl⟩
      unfold getTokenIterFeed
      rw [hfd]
      dsimp only
      rw [hmg]

theorem getTokenLoop_mono : ∀ (f1 f2 : Nat) (st : EngineCore) (prec : Nat)
    (r : GetTokenResult × EngineCore), f1 ≤ f2 →
    getTokenLoop f1 st prec = some r →
    getTokenLoop f2 st prec = some r := by
  intro f1
  induction f1 with
  | zero => intro f2 st prec r _ hl; cases hl
  | succ n ih =>
    intro f2 st prec r hle hl
    obtain ⟨f2i, rfl⟩ : ∃ k, f2 = k + 1 := ⟨f2 - 1, by omega⟩
    unfold getTokenLoop at hl ⊢
    cases hit : getTokenIter st prec with
    | done r2 st2 =>
      rw [hit] at hl
      dsimp only at hl ⊢
      exact hl
    | again st2 p2 =>
      rw [hit] at hl
      dsimp only at hl ⊢
      exact ih f2i st2 p2 r (by omega) hl

theorem reset_map_exactStep (c : Char) (i : Nat) : ∀ (tgs : List Target),
    (tgs.map (exactStep c i)).map (fun t => { t with matching := true }) =
    tgs.map (fun t => { t with matching := true }) := by
  intro tgs
  induction tgs with
  | nil => rfl
  | cons tg rest ih =>
    simp only [List.map_cons]
    rw [ih]
    have hh : ({ exactStep c i tg with matching := true } : Target) =
        { tg with matching := true } := by
      show Target.mk true (exactStep c i tg).target = Target.mk true tg.target
      rw [exactStep_target]
    rw [hh]

/-- Matcher::reset absorbs a preceding find_match step: resetting the
matcher state returned by find_match equals resetting the original
matcher (find_match never changes precedence, token type, or the target
strings). -/
theorem resetM_findMatch (m : MatcherS) (c : Option Char) (v : List Char) :
    MatcherS.resetM (findMatch m c v).2 = MatcherS.resetM m := by
  match m with
  | .word i p r =>
    cases c with
    | none => rfl
    | some ch =>
      dsimp only [findMatch]
      split <;> rfl
  | .whitespace i col ln p r =>
    cases c with
    | none => rfl
    | some ch =>
      dsimp only [findMatch]
      split <;> rfl
  | .symbol i p r =>
    cases c with
    | none => rfl
    | some ch =>
      dsimp only [findMatch]
      split <;> rfl
  | .integer i p r =>
    cases c with
    | none => rfl
    | some ch =>
      dsimp only [findMatch]
      split <;> rfl
  | .float i p dot flt r =>
    cases c with
    | none => rfl
    | some ch =>
      dsimp only [findMatch]
      split
      · rfl
      · split <;> rfl
  | .exact i p r found tgs tt =>
    cases c with
    | none => rfl
    | some ch =>
      dsimp only [findMatch]
      split <;> (simp only [MatcherS.resetM]; rw [exactScanChar_fst, reset_map_exactStep])
  | .keyword i p r found tgs tt =>
    cases c with
    | none => rfl
    | some ch =>
      dsimp only [findMatch]
      split
      · rfl
      · split
        · simp only [MatcherS.resetM]
          rw [keywordScanChar_fst, reset_map_exactStep]
        · split <;> (simp only [MatcherS.resetM]; rw [keywordScanChar_fst, reset_map_exactStep])

theorem map_reset_target_idem : ∀ (tgs : List Target),
    (tgs.map (fun t => { t with matching := true })).map
      (fun t => { t with matching := true }) =
    tgs.map (fun t => { t with matching := true }) := by
  intro tgs
  induction tgs with
  | nil => rfl
  | cons tg rest ih =>
    simp only [List.map_cons]
    rw [ih]

/-- Matcher::reset is idempotent. -/
theorem resetM_idem (m : MatcherS) :
    MatcherS.resetM (MatcherS.resetM m) = MatcherS.resetM m := by
  cases m with
  | word i p r => rfl
  | whitespace i col ln p r => rfl
  | symbol i p r => rfl
  | integer i p r => rfl
  | float i p dot flt r => rfl
  | exact i p r found tgs tt =>
    simp only [MatcherS.resetM]
    rw [map_reset_target_idem]
  | keyword i p r found tgs tt =>
    simp only [MatcherS.resetM]
    rw [map_reset_target_idem]

theorem map_resetM_idem (ms : List MatcherS) :
    (ms.map MatcherS.resetM).map MatcherS.resetM =
    ms.map MatcherS.resetM := by
  induction ms with
  | nil => rfl
  | cons m rest ih =>
    simp only [List.map_cons]
    rw [ih, resetM_idem]

/-- Matcher::reset neither adds nor removes target chars, so it preserves
the ASCII-targets restriction in both directions. -/
theorem MAscii_resetM (m : MatcherS) :
    MAscii (MatcherS.resetM m) ↔ MAscii m := by
  cases m with
  | word i p r => exact Iff.rfl
  | whitespace i col ln p r => exact Iff.rfl
  | symbol i p r => exact Iff.rfl
  | integer i p r => exact Iff.rfl
  | float i p dot flt r => exact Iff.rfl
  | exact i p r fnd tgs tt => exact Iff.rfl
  | keyword i p r fnd tgs tt =>
    simp only [MatcherS.resetM, MAscii]
    constructor
    · intro h tg hg ch hch
      exact h { tg with matching := true } (List.mem_map_of_mem _ hg) ch hch
    · intro h
      exact asciiTargets_map_reset tgs h

/-- Two matcher lists with the same reset image restrict keyword targets
identically. -/
theorem matchers_MAscii_of_frame (ms1 ms : List MatcherS)
    (hf : ms1.map MatcherS.resetM = ms.map MatcherS.resetM)
    (h : ∀ m ∈ ms, MAscii m) : ∀ m1 ∈ ms1, MAscii m1 := by
  intro m1 hm1
  have hmem : MatcherS.resetM m1 ∈ ms1.map MatcherS.resetM :=
    List.mem_map_of_mem _ hm1
  rw [hf] at hmem
  obtain ⟨m0, hm0, heq⟩ := List.mem_map.mp hmem
  have h0 : MAscii (MatcherS.resetM m0) := (MAscii_resetM m0).mpr (h m0 hm0)
  rw [heq] at h0
  exact (MAscii_resetM m1).mp h0

/-- The matcher loop preserves every matcher up to reset. -/
theorem feedMatchers_resetM (c : Option Char) (v : List Char) :
    ∀ (ms : List MatcherS) (ft : Option Token) (prec : Nat)
      (running : Bool),
    (feedMatchers c v ms ft prec running).1.map MatcherS.resetM =
      ms.map MatcherS.resetM := by
  intro ms
  induction ms with
  | nil => intro ft prec running; rfl
  | cons m rest ih =>
    intro ft prec running
    simp only [feedMatchers]
    by_cases hr : m.is_running = true
    · rw [if_pos hr]
      rcases hfm : findMatch m c v with ⟨res, m1⟩
      have hm1 : MatcherS.resetM m1 = MatcherS.resetM m := by
        have hh := resetM_findMatch m c v
        rw [hfm] at hh
        exact hh
      cases res with
      | Running =>
        dsimp only
        simp only [List.map_cons]
        rw [hm1, ih ft prec true]
      | Matched token =>
        dsimp only
        simp only [List.map_cons]
        rw [hm1]
        rw [ih]
      | Failed =>
        dsimp only
        simp only [List.map_cons]
        rw [hm1, ih ft prec running]
    · rw [if_neg hr]
      dsimp only
      simp only [List.map_cons]
      rw [ih ft prec running]

/-- A finishing feed step preserves the matcher list up to reset and the
capacity. -/
theorem getTokenIterFeed_done_frame (st : EngineCore) (prec : Nat)
    (c : Option Char) (v c1 i1 : List Char) (r : GetTokenResult)
    (st1 : EngineCore)
    (h : getTokenIterFeed st prec c v c1 i1 = .done r st1) :
    st1.matchers.map MatcherS.resetM =
      st.matchers.map MatcherS.resetM ∧ st1.cap = st.cap := by
  unfold getTokenIterFeed at h
  rcases hfd : feedMatchers c v st.matchers none prec false with
    ⟨ms1, itf, p1, running⟩
  rw [hfd] at h
  dsimp only at h
  have hms : ms1.map MatcherS.resetM = st.matchers.map MatcherS.resetM := by
    have hh := feedMatchers_resetM c v st.matchers none prec false
    rw [hfd] at hh
    exact hh
  rcases hmg : mergeFound st.found_token itf with _ | token <;>
    rw [hmg] at h <;> cases running <;> dsimp only at h
  · cases c with
    | none =>
      dsimp only at h
      cases h
      exact ⟨hms, rfl⟩
    | some ch =>
      dsimp only at h
      cases h
      exact ⟨hms, rfl⟩
  · cases c with
    | none =>
      dsimp only at h
      cases h
      exact ⟨hms, rfl⟩
    | some ch =>
      dsimp only at h
      exact IterOut.noConfusion h
  · injection h with h1 h2
    have hcm :
        commitToken
          { st with
            matchers := ms1, cache := c1, input := i1,
            value := v, found_token := none }
          token =
        (r, st1) := by
      rw [← h1, ← h2]
    obtain ⟨-, hcap2, hm2⟩ := commitToken_value _ token r st1 hcm
    refine ⟨?_, hcap2.trans rfl⟩
    rw [hm2]
    exact hms
  · cases c with
    | none =>
      dsimp only at h
      cases h
      exact ⟨hms, rfl⟩
    | some ch =>
      dsimp only at h
      exact IterOut.noConfusion h

/-- A continuing feed step preserves the matcher list up to reset. -/
theorem getTokenIterFeed_again_frame (st : EngineCore) (prec : Nat)
    (c : Option Char) (v c1 i1 : List Char) (st1 : EngineCore) (p1 : Nat)
    (h : getTokenIterFeed st prec c v c1 i1 = .again st1 p1) :
    st1.matchers.map MatcherS.resetM =
      st.matchers.map MatcherS.resetM := by
  unfold getTokenIterFeed at h
  rcases hfd : feedMatchers c v st.matchers none prec false with
    ⟨ms1, itf, p2, running⟩
  rw [hfd] at h
  dsimp only at h
  have hms : ms1.map MatcherS.resetM = st.matchers.map MatcherS.resetM := by
    have hh := feedMatchers_resetM c v st.matchers none prec false
    rw [hfd] at hh
    exact hh
  rcases hmg : mergeFound st.found_token itf with _ | token <;>
    rw [hmg] at h <;> cases running <;> dsimp only at h
  · cases c with
    | none =>
      dsimp only at h
      exact IterOut.noConfusion h
    | some ch =>
      dsimp only at h
      exact IterOut.noConfusion h
  · cases c with
    | none =>
      dsimp only at h
      exact IterOut.noConfusion h
    | some ch =>
      dsimp only at h
      cases h
      exact hms
  · exact IterOut.noConfusion h
  · cases c with
    | none =>
      dsimp only at h
      exact IterOut.noConfusion h
    | some ch =>
      dsimp only at h
      cases h
      exact hms

/-- One finishing iteration preserves the matcher list up to reset and the
capacity. -/
theorem getTokenIter_done_frame (st : EngineCore) (prec : Nat)
    (r : GetTokenResult) (st1 : EngineCore)
    (h : getTokenIter st prec = .done r st1) :
    st1.matchers.map MatcherS.resetM =
      st.matchers.map MatcherS.resetM ∧ st1.cap = st.cap := by
  unfold getTokenIter at h
  rcases hc : st.cache with _ | ⟨ch, crest⟩
  · rcases hi : st.input with _ | ⟨ch2, irest⟩
    · rw [hc, hi] at h
      dsimp only at h
      unfold getTokenIterCore at h
      dsimp only at h
      exact getTokenIterFeed_done_frame st prec none st.value [] [] r st1 h
    · rw [hc, hi] at h
      dsimp only at h
      unfold getTokenIterCore at h
      dsimp only at h
      split at h
      · cases h
        exact ⟨rfl, rfl⟩
      · exact getTokenIterFeed_done_frame st prec (some ch2)
          (st.value ++ [ch2]) [] irest r st1 h
  · rw [hc] at h
    dsimp only at h
    unfold getTokenIterCore at h
    dsimp only at h
    split at h
    · cases h
      exact ⟨rfl, rfl⟩
    · exact getTokenIterFeed_done_frame st prec (some ch)
        (st.value ++ [ch]) crest st.input r st1 h

/-- One continuing iteration preserves the matcher list up to reset and
the capacity. -/
theorem getTokenIter_again_frame (st : EngineCore) (prec : Nat)
    (st2 : EngineCore) (p2 : Nat)
    (h : getTokenIter st prec = .again st2 p2) :
    st2.matchers.map MatcherS.resetM =
      st.matchers.map MatcherS.resetM ∧ st2.cap = st.cap := by
  unfold getTokenIter at h
  rcases hc : st.cache with _ | ⟨ch, crest⟩
  · rcases hi : st.input with _ | ⟨ch2, irest⟩
    · rw [hc, hi] at h
      dsimp only at h
      unfold getTokenIterCore at h
      dsimp only at h
      obtain ⟨-, -, ch0, hch⟩ := getTokenIterFeed_again _ _ _ _ _ _ _ _ h
      exact Option.noConfusion hch
    · rw [hc, hi] at h
      dsimp only at h
      unfold getTokenIterCore at h
      dsimp only at h
      split at h
      · exact IterOut.noConfusion h
      · obtain ⟨-, -, -, -, -, hcap2⟩ := getTokenIterFeed_again_shape st prec
          (some ch2) (st.value ++ [ch2]) [] irest st2 p2 h
        exact ⟨getTokenIterFeed_again_frame st prec (some ch2)
          (st.value ++ [ch2]) [] irest st2 p2 h, hcap2⟩
  · rw [hc] at h
    dsimp only at h
    unfold getTokenIterCore at h
    dsimp only at h
    split at h
    · exact IterOut.noConfusion h
    · obtain ⟨-, -, -, -, -, hcap2⟩ := getTokenIterFeed_again_shape st prec
        (some ch) (st.value ++ [ch]) crest st.input st2 p2 h
      exact ⟨getTokenIterFeed_again_frame st prec (some ch)
        (st.value ++ [ch]) crest st.input st2 p2 h, hcap2⟩

/-- The get_token loop preserves the matcher list up to reset and the
capacity. -/
theorem getTokenLoop_frame : ∀ (fuel : Nat) (st : EngineCore) (prec : Nat)
    (r : GetTokenResult) (st1 : EngineCore),
    getTokenLoop fuel st prec = some (r, st1) →
    st1.matchers.map MatcherS.resetM =
      st.matchers.map MatcherS.resetM ∧ st1.cap = st.cap := by
  intro fuel
  induction fuel with
  | zero => intro st prec r st1 h; cases h
  | succ n ih =>
    intro st prec r st1 h
    unfold getTokenLoop at h
    cases hit : getTokenIter st prec with
    | done r2 st2 =>
      rw [hit] at h
      dsimp only at h
      injection h with hh
      injection hh with hr2 hst2
      rw [hr2, hst2] at hit
      exact getTokenIter_done_frame st prec r st1 hit
    | again st2 p2 =>
      rw [hit] at h
      dsimp only at h
      obtain ⟨h1, h2⟩ := ih st2 p2 r st1 h
      obtain ⟨g1, g2⟩ := getTokenIter_again_frame st prec st2 p2 hit
      exact ⟨h1.trans g1, h2.trans g2⟩

/-- Lexxor::get_token preserves the matcher list up to reset (the Init
reset makes a later attempt see the same matcher states) and the
capacity. -/
theorem getToken_frame (st : EngineCore) (r : GetTokenResult)
    (st1 : EngineCore) (h : getToken st = (r, st1)) :
    st1.matchers.map MatcherS.resetM =
      st.matchers.map MatcherS.resetM ∧ st1.cap = st.cap := by
  unfold getToken at h
  split at h
  · rename_i p heq
    cases h
    obtain ⟨h1, h2⟩ := getTokenLoop_frame _ _ _ _ _ heq
    exact ⟨h1.trans (map_resetM_idem st.matchers), h2.trans rfl⟩
  · injection h with h1 h2
    rw [← h2]
    exact ⟨map_resetM_idem st.matchers, rfl⟩

/-- A finishing feed step stores the supplied accumulator as the final
value, whatever the result. -/
theorem getTokenIterFeed_done_value (st : EngineCore) (prec : Nat)
    (c : Option Char) (v c1 i1 : List Char) (r : GetTokenResult)
    (st1 : EngineCore)
    (h : getTokenIterFeed st prec c v c1 i1 = .done r st1) :
    st1.value = v := by
  unfold getTokenIterFeed at h
  rcases hfd : feedMatchers c v st.matchers none prec false with
    ⟨ms1, itf, p1, running⟩
  rw [hfd] at h
  dsimp only at h
  rcases hmg : mergeFound st.found_token itf with _ | token <;>
    rw [hmg] at h <;> cases running <;> dsimp only at h
  · cases c with
    | none =>
      dsimp only at h
      cases h
      rfl
    | some ch =>
      dsimp only at h
      cases h
      rfl
  · cases c with
    | none =>
      dsimp only at h
      cases h
      rfl
    | some ch =>
      dsimp only at h
      exact IterOut.noConfusion h
  · injection h with h1 h2
    have hcm :
        commitToken
          { st with
            matchers := ms1, cache := c1, input := i1,
            value := v, found_token := none }
          token =
        (r, st1) := by
      rw [← h1, ← h2]
    obtain ⟨hvv, -, -⟩ := commitToken_value _ token r st1 hcm
    exact hvv.trans rfl
  · cases c with
    | none =>
      dsimp only at h
      cases h
      rfl
    | some ch =>
      dsimp only at h
      exact IterOut.noConfusion h

/-- One finishing iteration extends the accumulator by at most the pulled
char. -/
theorem getTokenIter_done_value (st : EngineCore) (prec : Nat)
    (r : GetTokenResult) (st1 : EngineCore)
    (h : getTokenIter st prec = .done r st1) :
    ∃ ext, st1.value = st.value ++ ext := by
  unfold getTokenIter at h
  rcases hc : st.cache with _ | ⟨ch, crest⟩
  · rcases hi : st.input with _ | ⟨ch2, irest⟩
    · rw [hc, hi] at h
      dsimp only at h
      unfold getTokenIterCore at h
      dsimp only at h
      have hv1 := getTokenIterFeed_done_value st prec none st.value [] [] r
        st1 h
      exact ⟨[], by rw [hv1]; simp⟩
    · rw [hc, hi] at h
      dsimp only at h
      unfold getTokenIterCore at h
      dsimp only at h
      split at h
      · cases h
        exact ⟨[], by simp⟩
      · have hv1 := getTokenIterFeed_done_value st prec (some ch2)
          (st.value ++ [ch2]) [] irest r st1 h
        exact ⟨[ch2], hv1⟩
  · rw [hc] at h
    dsimp only at h
    unfold getTokenIterCore at h
    dsimp only at h
    split at h
    · cases h
      exact ⟨[], by simp⟩
    · have hv1 := getTokenIterFeed_done_value st prec (some ch)
        (st.value ++ [ch]) crest st.input r st1 h
      exact ⟨[ch], hv1⟩

/-- One continuing iteration extends the accumulator by the pulled
char. -/
theorem getTokenIter_again_value (st : EngineCore) (prec : Nat)
    (st2 : EngineCore) (p2 : Nat)
    (h : getTokenIter st prec = .again st2 p2) :
    ∃ ext, st2.value = st.value ++ ext := by
  unfold getTokenIter at h
  rcases hc : st.cache with _ | ⟨ch, crest⟩
  · rcases hi : st.input with _ | ⟨ch2, irest⟩
    · rw [hc, hi] at h
      dsimp only at h
      unfold getTokenIterCore at h
      dsimp only at h
      obtain ⟨-, -, ch0, hch⟩ := getTokenIterFeed_again _ _ _ _ _ _ _ _ h
      exact Option.noConfusion hch
    · rw [hc, hi] at h
      dsimp only at h
      unfold getTokenIterCore at h
      dsimp only at h
      split at h
      · exact IterOut.noConfusion h
      · obtain ⟨hv2, -, -, -, -, -⟩ := getTokenIterFeed_again_shape st prec
          (some ch2) (st.value ++ [ch2]) [] irest st2 p2 h
        exact ⟨[ch2], hv2⟩
  · rw [hc] at h
    dsimp only at h
    unfold getTokenIterCore at h
    dsimp only at h
    split at h
    · exact IterOut.noConfusion h
    · obtain ⟨hv2, -, -, -, -, -⟩ := getTokenIterFeed_again_shape st prec
        (some ch) (st.value ++ [ch]) crest st.input st2 p2 h
      exact ⟨[ch], hv2⟩

/-- The get_token loop only extends the accumulator of its starting
state. -/
theorem getTokenLoop_value : ∀ (fuel : Nat) (st : EngineCore) (prec : Nat)
    (r : GetTokenResult) (st1 : EngineCore),
    getTokenLoop fuel st prec = some (r, st1) →
    ∃ ext, st1.value = st.value ++ ext := by
  intro fuel
  induction fuel with
  | zero => intro st prec r st1 h; cases h
  | succ n ih =>
    intro st prec r st1 h
    unfold getTokenLoop at h
    cases hit : getTokenIter st prec with
    | done r2 st2 =>
      rw [hit] at h
      dsimp only at h
      injection h with hh
      injection hh with hr2 hst2
      rw [hr2, hst2] at hit
      exact getTokenIter_done_value st prec r st1 hit
    | again st2 p2 =>
      rw [hit] at h
      dsimp only at h
      obtain ⟨ext2, hext2⟩ := ih st2 p2 r st1 h
      obtain ⟨ext1, hext1⟩ := getTokenIter_again_value st prec st2 p2 hit
      exact ⟨ext1 ++ ext2, by rw [hext2, hext1, List.append_assoc]⟩

theorem tokenConcat_cons (t : Token) (l : List Token) :
    tokenConcat (t :: l) = t.value ++ tokenConcat l := by
  simp [tokenConcat]

theorem tokenConcat_append (a b : List Token) :
    tokenConcat (a ++ b) = tokenConcat a ++ tokenConcat b := by
  simp [tokenConcat]

/-- Successive next_token calls (with the lookahead slot empty and ASCII
keyword targets) emit token values that concatenate with the remaining
cache-plus-input stream to the prior stream, keeping the slot empty. -/
theorem nextTokens_stream : ∀ (n : Nat) (lx : Lexxor) (ts : List Token)
    (lx1 : Lexxor), lx.lexxor_result = none →
    (∀ m ∈ lx.core.matchers, MAscii m) →
    nextTokens n lx = some (ts, lx1) →
    tokenConcat ts ++ lx1.core.cache ++ lx1.core.input =
      lx.core.cache ++ lx.core.input ∧ lx1.lexxor_result = none := by
  intro n
  induction n with
  | zero =>
    intro lx ts lx1 hn hma h
    cases h
    exact ⟨rfl, hn⟩
  | succ k ih =>
    intro lx ts lx1 hn hma h
    unfold nextTokens at h
    rcases hnt : lx.next_token with ⟨r, lx2⟩
    rw [hnt] at h
    cases r with
    | token t =>
      dsimp only at h
      rcases hrec : nextTokens k lx2 with _ | ⟨⟨ts2, fin⟩⟩
      · rw [hrec] at h
        cases h
      · rw [hrec] at h
        dsimp only at h
        cases h
        have hg : getToken lx.core = (.token t, lx2.core) ∧
            lx2.lexxor_result = none := by
          unfold Lexxor.next_token at hnt
          rw [hn] at hnt
          dsimp only at hnt
          injection hnt with h1 h2
          have hc2 : lx2.core = (getToken lx.core).2 := by rw [← h2]
          refine ⟨by rw [← h1, hc2], ?_⟩
          rw [← h2]
        obtain ⟨hgt, hn2⟩ := hg
        obtain ⟨-, -, hstream, -, -⟩ :=
          getToken_token lx.core t lx2.core hma hgt
        have hma2 : ∀ m ∈ lx2.core.matchers, MAscii m :=
          matchers_MAscii_of_frame lx2.core.matchers lx.core.matchers
            (getToken_frame lx.core (.token t) lx2.core hgt).1 hma
        obtain ⟨hrec2, hn3⟩ := ih lx2 ts2 lx1 hn2 hma2 hrec
        refine ⟨?_, hn3⟩
        rw [tokenConcat_cons]
        calc t.value ++ tokenConcat ts2 ++ lx1.core.cache ++ lx1.core.input
            = t.value ++
              (tokenConcat ts2 ++ lx1.core.cache ++ lx1.core.input) := by
              simp [List.append_assoc]
          _ = t.value ++ (lx2.core.cache ++ lx2.core.input) := by rw [hrec2]
          _ = t.value ++ lx2.core.cache ++ lx2.core.input := by
              simp [List.append_assoc]
          _ = lx.core.cache ++ lx.core.input := hstream
    | eof =>
      dsimp only at h
      cases h
    | failed e =>
      dsimp only at h
      cases h
    | panicked =>
      dsimp only at h
      cases h

/-- C2 (amended): for a fresh engine over input S whose keyword matchers
carry only ASCII targets, the values of the tokens emitted by successive
next_token calls concatenate, together with the remaining replay cache and
input, to exactly S; hence their concatenation is the consumed prefix of
S, and each token value is the contiguous segment of S that starts exactly
where the previously emitted values end. Without the ASCII restriction the
keyword matcher's byte-length len makes the commit drop over-read chars
(see the counterexample), breaking the partition. -/
theorem C2_token_values_partition (cap : Nat) (S : List Char)
    (ms : List MatcherS) (hma : ∀ m ∈ ms, MAscii m)
    (n : Nat) (ts : List Token) (lx1 : Lexxor)
    (h : nextTokens n (Lexxor.new cap S ms) = some (ts, lx1)) :
    tokenConcat ts ++ lx1.core.cache ++ lx1.core.input = S ∧
    List.IsPrefix (tokenConcat ts) S ∧
    ∀ i (hi : i < ts.length),
      ts[i].value =
        (S.drop (tokenConcat (ts.take i)).length).take
          ts[i].value.length := by
  obtain ⟨hstream, -⟩ :=
    nextTokens_stream n (Lexxor.new cap S ms) ts lx1 rfl hma h
  have hS : tokenConcat ts ++ (lx1.core.cache ++ lx1.core.input) = S := by
    rw [← List.append_assoc]
    exact hstream
  refine ⟨hstream, ⟨lx1.core.cache ++ lx1.core.input, hS⟩, ?_⟩
  intro i hi
  have hts : ts.take i ++ ts[i] :: ts.drop (i + 1) = ts := by
    rw [← List.drop_eq_getElem_cons hi]
    exact List.take_append_drop i ts
  have hsplitS : tokenConcat (ts.take i) ++
      (ts[i].value ++ (tokenConcat (ts.drop (i + 1)) ++
        (lx1.core.cache ++ lx1.core.input))) = S := by
    rw [← hS]
    conv_rhs => rw [← hts]
    rw [tokenConcat_append, tokenConcat_cons]
    simp [List.append_assoc]
  have hdrop : S.drop (tokenConcat (ts.take i)).length =
      ts[i].value ++ (tokenConcat (ts.drop (i + 1)) ++
        (lx1.core.cache ++ lx1.core.input)) := by
    rw [← hsplitS, List.drop_left]
  rw [hdrop, List.take_left]

/-- A fresh lexer over "ab" with the word matcher, used to witness C2 and
C9. -/
def lexC2 : Lexxor := Lexxor.new 8 ['a', 'b'] [stdWord]

/-- The token lexC2 emits first. -/
def tC2 : Token :=
  { value := ['a', 'b'], token_type := 4, len := 2, line := 1, column := 1,
    precedence := 0 }

/-- The lexer state after lexC2 emits tC2. -/
def lexC2fin : Lexxor :=
  { core := { matchers := [MatcherS.word 2 0 false], input := [], cap := 8,
              cache := [], value := ['a', 'b'], found_token := none,
              line := 1, column := 3 },
    lexxor_result := none }

/-- Witness for C2 at a concrete input: tokenizing "ab" with a word
matcher emits the single token "ab", whose value plus the (empty) unread
stream is exactly the input, and is a prefix of it. -/
theorem C2_witness :
    nextTokens 1 lexC2 = some ([tC2], lexC2fin) ∧
    (tokenConcat [tC2] ++ lexC2fin.core.cache ++ lexC2fin.core.input =
       ['a', 'b'] ∧
     List.IsPrefix (tokenConcat [tC2]) ['a', 'b'] ∧
     ∀ i (hi : i < [tC2].length),
       [tC2][i].value =
         ((['a', 'b'] : List Char).drop
           (tokenConcat ([tC2].take i)).length).take
           [tC2][i].value.length) :=
  ⟨by decide,
   C2_token_values_partition 8 ['a', 'b'] [stdWord]
     (by
       intro m hm
       rcases List.mem_singleton.mp hm with rfl
       trivial)
     1 [tC2] lexC2fin (by decide)⟩

/-- A lexer with KeywordMatcher(["日本"]) over "日本 x": the target is two
chars but six UTF-8 bytes. Used for the keyword byte-length
counterexamples. -/
def lexKw : Lexxor :=
  Lexxor.new 8 ['日', '本', ' ', 'x']
    [build_matcher_keyword [['日', '本']] 7 0]

/-- The token lexKw emits first: two chars of value but len 6, the UTF-8
byte length of the matched target. -/
def tKw : Token :=
  { value := ['日', '本'], token_type := 7, len := 6, line := 1, column := 1,
    precedence := 0 }

/-- The lexer state after lexKw emits tKw: the over-read ' ' was dropped —
len 6 is not less than the 3-char accumulator, so the commit replays
nothing — and column advanced by the byte length 6. -/
def lexKw1 : Lexxor :=
  { core := { matchers := [MatcherS.keyword 3 0 false (some 0)
                [{ matching := false, target := ['日', '本'] }] 7],
              input := ['x'], cap := 8, cache := [],
              value := ['日', '本', ' '], found_token := none,
              line := 1, column := 7 },
    lexxor_result := none }

/-- The lexer state after rewinding tKw from lexKw1. -/
def lexKw2 : Lexxor :=
  { core := { matchers := [MatcherS.keyword 3 0 false (some 0)
                [{ matching := false, target := ['日', '本'] }] 7],
              input := ['x'], cap := 8, cache := ['日', '本'],
              value := ['日', '本', ' '], found_token := none,
              line := 1, column := 1 },
    lexxor_result := none }

/-- C2 counterexample: with KeywordMatcher(["日本"]) over "日本 x" the
emitted token carries len 6 (the byte length of the two-char target), so
the commit fails to replay the over-read ' ' and the char is lost: the
emitted values plus the remaining cache and input reassemble to "日本x",
not the input "日本 x" — the values do not partition the consumed
prefix. -/
theorem C2_counterexample :
    ((nextTokens 1 lexKw).map fun p =>
      tokenConcat p.1 ++ p.2.core.cache ++ p.2.core.input) =
      some ['日', '本', 'x'] ∧
    ¬((nextTokens 1 lexKw).map fun p =>
        tokenConcat p.1 ++ p.2.core.cache ++ p.2.core.input) =
      some ['日', '本', ' ', 'x'] :=
  ⟨by decide, by decide⟩

/-- A lexer over "a\n\rb" with the word and whitespace matchers, used as
the C9 counterexample. -/
def lexC9 : Lexxor :=
  Lexxor.new 8 ['a', '\n', '\x0d', 'b'] [stdWord, stdWhitespace]

/-- C9 counterexample, two parts. Columns: tokenizing "a\n\rb", the token
'b' is emitted at line 2, column 0 — its column is NOT at least 1, because
the whitespace matcher reports column 0 for a run ending in a carriage
return and the commit installs that column verbatim. Lengths: the keyword
token of lexKw has len 6 but a 2-char value, because
generate_keyword_token takes the UTF-8 byte length of the String — len
does NOT equal the number of characters of value. -/
theorem C9_counterexample :
    (((nextTokens 3 lexC9).map fun p =>
      p.1.map fun t => (t.value, t.line, t.column)) =
      some [(['a'], 1, 1), (['\n', '\x0d'], 1, 2), (['b'], 2, 0)] ∧
    ¬((nextTokens 3 lexC9).map fun p =>
        p.1.all fun t => 1 ≤ t.column) = some true) ∧
    ((nextTokens 1 lexKw).map fun p =>
      p.1.map fun t => (t.len, t.value.length)) = some [(6, 2)] ∧
    ¬((nextTokens 1 lexKw).map fun p =>
        p.1.all fun t => t.len = t.value.length) = some true := by
  exact ⟨⟨by decide, by decide⟩, by decide, by decide⟩

/-- C9 (amended): every token emitted by next_token (lookahead slot empty)
from an engine at line ≥ 1 whose matchers all carry nonzero configured
token types and whose keyword matchers carry only ASCII targets satisfies:
len equals the number of chars of value, line ≥ 1, and token_type ≠ 0.
The claimed `column ≥ 1` is false: a committed whitespace run ending in a
lone carriage return sets column 0. Without the ASCII restriction the len
clause is also false: the keyword matcher sets len to the UTF-8 byte
length of the matched target (see the counterexample for both). -/
theorem C9_token_invariants (lx : Lexxor) (t : Token) (lx1 : Lexxor)
    (hslot : lx.lexxor_result = none)
    (hline : 1 ≤ lx.core.line)
    (hmty : ∀ m ∈ lx.core.matchers, MTy m)
    (hma : ∀ m ∈ lx.core.matchers, MAscii m)
    (h : lx.next_token = (.token t, lx1)) :
    t.len = t.value.length ∧ 1 ≤ t.line ∧ t.token_type ≠ 0 := by
  unfold Lexxor.next_token at h
  rw [hslot] at h
  dsimp only at h
  injection h with h1 h2
  have hc2 : lx1.core = (getToken lx.core).2 := by rw [← h2]
  have hgt : getToken lx.core = (.token t, lx1.core) := by
    rw [← h1, hc2]
  obtain ⟨htp, -, -, hlinet, -⟩ :=
    getToken_token lx.core t lx1.core hma hgt
  refine ⟨?_, ?_, getToken_token_ty lx.core t lx1.core hmty hgt⟩
  · rw [htp.1, List.length_take]
    exact (Nat.min_eq_left htp.2).symm
  · rw [hlinet]
    exact hline

/-- Witness for the amended C9 at a concrete input: the token "ab" of
lexC2 has len 2 = |"ab"|, line 1 ≥ 1 and the nonzero word token type. -/
theorem C9_witness :
    tC2.len = tC2.value.length ∧ 1 ≤ tC2.line ∧ tC2.token_type ≠ 0 :=
  C9_token_invariants lexC2 tC2 lexC2fin rfl (by decide)
    (by
      intro m hm
      rcases List.mem_singleton.mp hm with rfl
      trivial)
    (by
      intro m hm
      rcases List.mem_singleton.mp hm with rfl
      trivial)
    (by decide)

/-- Rewind simulation for the get_token loop: if a run from `stA` emits
token `t` with final state `st1`, then a run from any `stB` that agrees
with `stA` on matchers, accumulator, candidate, position and capacity, and
whose cache holds exactly the chars the A-run consumed after `stA.value`
followed by the cache the A-run left beyond its over-read replay, with the
A-run's final input, also emits `t`. -/
theorem getTokenLoop_sim : ∀ (fuel : Nat) (stA stB : EngineCore)
    (prec : Nat) (t : Token) (st1 : EngineCore),
    getTokenLoop fuel stA prec = some (.token t, st1) →
    stB.matchers = stA.matchers → stB.value = stA.value →
    stB.found_token = stA.found_token → stB.line = stA.line →
    stB.column = stA.column → stB.cap = stA.cap →
    stB.cache = st1.value.drop stA.value.length ++
      st1.cache.drop (st1.value.length - t.len) →
    stB.input = st1.input →
    ∃ st1B, getTokenLoop fuel stB prec = some (.token t, st1B) := by
  intro fuel
  induction fuel with
  | zero =>
    intro stA stB prec t st1 h hm hv hf hlin hcol hcap hcache hinput
    cases h
  | succ n ih =>
    intro stA stB prec t st1 h hm hv hf hlin hcol hcap hcache hinput
    unfold getTokenLoop at h
    cases hit : getTokenIter stA prec with
    | done r2 st2 =>
      rw [hit] at h
      dsimp only at h
      injection h with hh
      injection hh with hr2 hst2
      rw [hr2, hst2] at hit
      unfold getTokenIter at hit
      rcases hAc : stA.cache with _ | ⟨ch, crest⟩
      · rcases hAi : stA.input with _ | ⟨ch2, irest⟩
        · rw [hAc, hAi] at hit
          dsimp only at hit
          unfold getTokenIterCore at hit
          dsimp only at hit
          obtain ⟨hv1, hc1, hi1⟩ := getTokenIterFeed_token_shape stA prec
            none stA.value [] [] t st1 hit
          have hw : st1.value.drop stA.value.length = ([] : List Char) := by
            rw [hv1]
            exact List.drop_eq_nil_of_le (Nat.le_refl _)
          have hccom : st1.cache.drop (st1.value.length - t.len) =
              ([] : List Char) := by
            rw [hc1, hv1]
            exact drop_overread stA.value t.len []
          have hcacheB : stB.cache = ([] : List Char) := by
            rw [hcache, hw, hccom]
            rfl
          have hinputB : stB.input = ([] : List Char) := hinput.trans hi1
          have hitB : getTokenIter stB prec = .done (.token t) st1 := by
            unfold getTokenIter
            rw [hcacheB, hinputB]
            dsimp only
            unfold getTokenIterCore
            dsimp only
            rw [hv]
            rw [getTokenIterFeed_param stA stB prec none stA.value [] []
              hm hf hlin hcol hcap]
            exact hit
          refine ⟨st1, ?_⟩
          unfold getTokenLoop
          rw [hitB]
        · rw [hAc, hAi] at hit
          dsimp only at hit
          unfold getTokenIterCore at hit
          dsimp only at hit
          split at hit
          · injection hit with hpan hst3
            exact GetTokenResult.noConfusion hpan
          · rename_i hguard
            obtain ⟨hv1, hc1, hi1⟩ := getTokenIterFeed_token_shape stA prec
              (some ch2) (stA.value ++ [ch2]) [] irest t st1 hit
            have hw : st1.value.drop stA.value.length = [ch2] := by
              rw [hv1]
              exact List.drop_left stA.value [ch2]
            have hccom : st1.cache.drop (st1.value.length - t.len) =
                ([] : List Char) := by
              rw [hc1, hv1]
              exact drop_overread (stA.value ++ [ch2]) t.len []
            have hcacheB : stB.cache = [ch2] := by
              rw [hcache, hw, hccom]
              rfl
            have hinputB : stB.input = irest := hinput.trans hi1
            have hitB : getTokenIter stB prec = .done (.token t) st1 := by
              unfold getTokenIter
              rw [hcacheB]
              dsimp only
              unfold getTokenIterCore
              dsimp only
              rw [hv, hcap]
              rw [if_neg hguard]
              rw [hinputB]
              rw [getTokenIterFeed_param stA stB prec (some ch2)
                (stA.value ++ [ch2]) [] irest hm hf hlin hcol hcap]
              exact hit
            refine ⟨st1, ?_⟩
            unfold getTokenLoop
            rw [hitB]
      · rw [hAc] at hit
        dsimp only at hit
        unfold getTokenIterCore at hit
        dsimp only at hit
        split at hit
        · injection hit with hpan hst3
          exact GetTokenResult.noConfusion hpan
        · rename_i hguard
          obtain ⟨hv1, hc1, hi1⟩ := getTokenIterFeed_token_shape stA prec
            (some ch) (stA.value ++ [ch]) crest stA.input t st1 hit
          have hw : st1.value.drop stA.value.length = [ch] := by
            rw [hv1]
            exact List.drop_left stA.value [ch]
          have hccom : st1.cache.drop (st1.value.length - t.len) = crest := by
            rw [hc1, hv1]
            exact drop_overread (stA.value ++ [ch]) t.len crest
          have hcacheB : stB.cache = ch :: crest := by
            rw [hcache, hw, hccom]
            rfl
          have hinputB : stB.input = stA.input := hinput.trans hi1
          have hitB : getTokenIter stB prec = .done (.token t) st1 := by
            unfold getTokenIter
            rw [hcacheB]
            dsimp only
            unfold getTokenIterCore
            dsimp only
            rw [hv, hcap]
            rw [if_neg hguard]
            rw [hinputB]
            rw [getTokenIterFeed_param stA stB prec (some ch)
              (stA.value ++ [ch]) crest stA.input hm hf hlin hcol hcap]
            exact hit
          refine ⟨st1, ?_⟩
          unfold getTokenLoop
          rw [hitB]
    | again stA2 prec2 =>
      rw [hit] at h
      dsimp only at h
      unfold getTokenIter at hit
      rcases hAc : stA.cache with _ | ⟨ch, crest⟩
      · rcases hAi : stA.input with _ | ⟨ch2, irest⟩
        · rw [hAc, hAi] at hit
          dsimp only at hit
          unfold getTokenIterCore at hit
          dsimp only at hit
          obtain ⟨-, -, ch0, hch⟩ :=
            getTokenIterFeed_again _ _ _ _ _ _ _ _ hit
          exact Option.noConfusion hch
        · rw [hAc, hAi] at hit
          dsimp only at hit
          unfold getTokenIterCore at hit
          dsimp only at hit
          split at hit
          · exact IterOut.noConfusion hit
          · rename_i hguard
            obtain ⟨hv2, -, -, -, -, -⟩ := getTokenIterFeed_again_shape stA
              prec (some ch2) (stA.value ++ [ch2]) [] irest stA2 prec2 hit
            obtain ⟨ext, hext⟩ := getTokenLoop_value n stA2 prec2 (.token t)
              st1 h
            have hw : st1.value.drop stA.value.length = ch2 :: ext := by
              rw [hext, hv2, List.append_assoc]
              exact List.drop_left stA.value ([ch2] ++ ext)
            have hcacheB : stB.cache =
                ch2 :: (ext ++ st1.cache.drop (st1.value.length - t.len)) := by
              rw [hcache, hw]
              rfl
            obtain ⟨stB2, hfeedB, hm2, hv2p, hf2, hl2, hcol2, hcap2,
              hcache2, hinput2⟩ := getTokenIterFeed_again_congr stA prec
              (some ch2) (stA.value ++ [ch2]) [] irest stA2 prec2 hit
              (ext ++ st1.cache.drop (st1.value.length - t.len)) st1.input
            have hitB : getTokenIter stB prec = .again stB2 prec2 := by
              unfold getTokenIter
              rw [hcacheB]
              dsimp only
              unfold getTokenIterCore
              dsimp only
              rw [hv, hcap]
              rw [if_neg hguard]
              rw [hinput]
              rw [getTokenIterFeed_param stA stB prec (some ch2)
                (stA.value ++ [ch2])
                (ext ++ st1.cache.drop (st1.value.length - t.len)) st1.input
                hm hf hlin hcol hcap]
              exact hfeedB
            have hIHcache : stB2.cache =
                st1.value.drop stA2.value.length ++
                  st1.cache.drop (st1.value.length - t.len) := by
              have hdrop2 : st1.value.drop stA2.value.length = ext := by
                rw [hext]
                exact List.drop_left stA2.value ext
              rw [hcache2, hdrop2]
            obtain ⟨st1B, hloopB⟩ := ih stA2 stB2 prec2 t st1 h hm2 hv2p hf2
              hl2 hcol2 hcap2 hIHcache hinput2
            refine ⟨st1B, ?_⟩
            unfold getTokenLoop
            rw [hitB]
            exact hloopB
      · rw [hAc] at hit
        dsimp only at hit
        unfold getTokenIterCore at hit
        dsimp only at hit
        split at hit
        · exact IterOut.noConfusion hit
        · rename_i hguard
          obtain ⟨hv2, -, -, -, -, -⟩ := getTokenIterFeed_again_shape stA
            prec (some ch) (stA.value ++ [ch]) crest stA.input stA2 prec2 hit
          obtain ⟨ext, hext⟩ := getTokenLoop_value n stA2 prec2 (.token t)
            st1 h
          have hw : st1.value.drop stA.value.length = ch :: ext := by
            rw [hext, hv2, List.append_assoc]
            exact List.drop_left stA.value ([ch] ++ ext)
          have hcacheB : stB.cache =
              ch :: (ext ++ st1.cache.drop (st1.value.length - t.len)) := by
            rw [hcache, hw]
            rfl
          obtain ⟨stB2, hfeedB, hm2, hv2p, hf2, hl2, hcol2, hcap2,
            hcache2, hinput2⟩ := getTokenIterFeed_again_congr stA prec
            (some ch) (stA.value ++ [ch]) crest stA.input stA2 prec2 hit
            (ext ++ st1.cache.drop (st1.value.length - t.len)) st1.input
          have hitB : getTokenIter stB prec = .again stB2 prec2 := by
            unfold getTokenIter
            rw [hcacheB]
            dsimp only
            unfold getTokenIterCore
            dsimp only
            rw [hv, hcap]
            rw [if_neg hguard]
            rw [hinput]
            rw [getTokenIterFeed_param stA stB prec (some ch)
              (stA.value ++ [ch])
              (ext ++ st1.cache.drop (st1.value.length - t.len)) st1.input
              hm hf hlin hcol hcap]
            exact hfeedB
          have hIHcache : stB2.cache =
              st1.value.drop stA2.value.length ++
                st1.cache.drop (st1.value.length - t.len) := by
            have hdrop2 : st1.value.drop stA2.value.length = ext := by
              rw [hext]
              exact List.drop_left stA2.value ext
            rw [hcache2, hdrop2]
          obtain ⟨st1B, hloopB⟩ := ih stA2 stB2 prec2 t st1 h hm2 hv2p hf2
            hl2 hcol2 hcap2 hIHcache hinput2
          refine ⟨st1B, ?_⟩
          unfold getTokenLoop
          rw [hitB]
          exact hloopB

/-- C5 (amended): a token `t` just emitted by next_token (lookahead slot
empty, keyword targets ASCII), fed back through a successful rewind, is
emitted again verbatim by the immediately following next_token: same
value, token type, len, line and column (indeed the identical token).
Without the ASCII restriction a keyword token's byte-length len makes the
commit drop over-read chars, and the replayed attempt hits the word
boundary and fails (see the counterexample). -/
theorem C5_rewind_round_trip (lx : Lexxor) (t : Token) (lx1 : Lexxor)
    (hslot : lx.lexxor_result = none)
    (hma : ∀ m ∈ lx.core.matchers, MAscii m)
    (h1 : lx.next_token = (.token t, lx1))
    (k : Nat) (lx2 : Lexxor)
    (h2 : lx1.rewind t = (.ok k, lx2)) :
    (lx2.next_token).1 = .token t := by
  unfold Lexxor.next_token at h1
  rw [hslot] at h1
  dsimp only at h1
  injection h1 with h1a h1b
  have hc1core : lx1.core = (getToken lx.core).2 := by rw [← h1b]
  have hgt : getToken lx.core = (.token t, lx1.core) := by
    rw [← h1a, hc1core]
  have hn1 : lx1.lexxor_result = none := by
    rw [← h1b]
  obtain ⟨htp, hshape, hstream, hline, hcol⟩ :=
    getToken_token lx.core t lx1.core hma hgt
  obtain ⟨hframem, hframecap⟩ := getToken_frame lx.core (.token t) lx1.core
    hgt
  unfold getToken at hgt
  split at hgt
  · rename_i p heqA
    cases hgt
    unfold Lexxor.rewind at h2
    dsimp only at h2
    split at h2
    · injection h2 with hx1 hx2
      exact Except.noConfusion hx1
    · injection h2 with hx1 hx2
      have hc2cache : lx2.core.cache = t.value ++ lx1.core.cache := by
        rw [← hx2]
      have hc2input : lx2.core.input = lx1.core.input := by rw [← hx2]
      have hc2line : lx2.core.line = t.line := by rw [← hx2]
      have hc2col : lx2.core.column = t.column := by rw [← hx2]
      have hc2m : lx2.core.matchers = lx1.core.matchers := by rw [← hx2]
      have hc2cap : lx2.core.cap = lx1.core.cap := by rw [← hx2]
      have hc2lr : lx2.lexxor_result = none := by
        rw [← hx2]
        exact hn1
      obtain ⟨st1B, hB⟩ := getTokenLoop_sim
        ((resetCore lx.core).cache.length +
          (resetCore lx.core).input.length + 1)
        (resetCore lx.core) (resetCore lx2.core) 0 t lx1.core heqA
        (by
          show lx2.core.matchers.map MatcherS.resetM =
            lx.core.matchers.map MatcherS.resetM
          rw [hc2m]
          exact hframem)
        rfl rfl
        (by
          show lx2.core.line = lx.core.line
          rw [hc2line]
          exact hline)
        (by
          show lx2.core.column = lx.core.column
          rw [hc2col]
          exact hcol)
        (by
          show lx2.core.cap = lx.core.cap
          rw [hc2cap]
          exact hframecap)
        (by
          show lx2.core.cache = lx1.core.value ++
            lx1.core.cache.drop (lx1.core.value.length - t.len)
          rw [hc2cache]
          obtain ⟨c1, hcs⟩ := hshape
          rw [hcs, drop_overread, ← List.append_assoc, htp.1,
            List.take_append_drop])
        (by
          show lx2.core.input = lx1.core.input
          exact hc2input)
      have hfuel : lx2.core.cache.length + lx2.core.input.length + 1 =
          lx.core.cache.length + lx.core.input.length + 1 := by
        have hslen := congrArg List.length hstream
        simp only [List.length_append] at hslen
        rw [hc2cache, hc2input]
        simp only [List.length_append]
        omega
      have hBfuel : getTokenLoop
          ((resetCore lx2.core).cache.length +
            (resetCore lx2.core).input.length + 1)
          (resetCore lx2.core) 0 = some (.token t, st1B) := by
        show getTokenLoop
          (lx2.core.cache.length + lx2.core.input.length + 1)
          (resetCore lx2.core) 0 = some (.token t, st1B)
        rw [hfuel]
        exact hB
      unfold Lexxor.next_token
      rw [hc2lr]
      dsimp only
      unfold getToken
      rw [hBfuel]
  · injection hgt with hg1 hg2
    exact GetTokenResult.noConfusion hg1

/-- The lexer state lexC2fin.rewind tC2 produces: the token chars are back
at the cache front and the position is the token's. -/
def lexC5rw : Lexxor :=
  { core := { matchers := [MatcherS.word 2 0 false], input := [], cap := 8,
              cache := ['a', 'b'], value := ['a', 'b'], found_token := none,
              line := 1, column := 1 },
    lexxor_result := none }

/-- Witness for C5 at a concrete input: lexing "ab" emits the token "ab",
rewinding it succeeds with 6 chars of cache capacity left, and the next
next_token emits the identical token again. -/
theorem C5_witness :
    lexC2.lexxor_result = none ∧
    lexC2.next_token = (.token tC2, lexC2fin) ∧
    lexC2fin.rewind tC2 = (.ok 6, lexC5rw) ∧
    (lexC5rw.next_token).1 = .token tC2 :=
  ⟨rfl, by decide, by decide,
   C5_rewind_round_trip lexC2 tC2 lexC2fin rfl
     (by
       intro m hm
       rcases List.mem_singleton.mp hm with rfl
       trivial)
     (by decide) 6 lexC5rw (by decide)⟩

/-- C5 counterexample: lexKw emits tKw (len 6, the byte length of the
2-char value), the commit having silently dropped the over-read ' ';
rewinding tKw succeeds, but the immediately following next_token replays
"日本" against the remaining "x" — the keyword can no longer end at a
non-alphanumeric boundary — and returns a token-not-found error instead of
a token equal to tKw. -/
theorem C5_counterexample :
    lexKw.lexxor_result = none ∧
    lexKw.next_token = (.token tKw, lexKw1) ∧
    lexKw1.rewind tKw = (.ok 6, lexKw2) ∧
    (lexKw2.next_token).1 = .failed (.TokenNotFound 1 1 (some 'x')) ∧
    ¬(lexKw2.next_token).1 = .token tKw :=
  ⟨rfl, by decide, by decide, by decide, by decide⟩

end Lexx
